import Mathlib

/-!
# Hubble filters: pattern compilation (`pkg/hubble/filters/patterns.go`)

A shallow embedding of the FQDN and node-name pattern compilers of Hubble's
flow filters, together with the part of Go's `regexp` package that the
compiled expressions exercise.

Conventions of the embedding.

* `Str` is a Go string seen as its sequence of runes (what `for _, r := range s`
  yields).  Node-name patterns are scanned byte by byte in the source, so they
  are embedded as byte sequences (`List Nat`).
* A `strings.Builder` is the text written so far; every function that writes
  to one returns the new contents next to its `error` result.
* Go's `(value, error)` results are pairs of options.
* `regexp.Compile` refuses expressions beyond the limits of the library on
  nesting depth and on size.  Which expressions it refuses is decided inside
  the library; it is the parameter `limits` of the compilers.  The general
  statements hold for every value of it; a statement on a concrete input takes
  the verdict of the library on the expression compiled from that input.
-/

namespace Hubble

/-- A Go string as the sequence of its runes. -/
abbrev Str := List Char

/-- The contents of a `strings.Builder`. -/
abbrev Builder := Str

/-- The two errors with which `regexp.Compile` refuses an expression for its
size: `syntax.ErrNestingDepth` and `syntax.ErrLarge`. -/
inductive LimitError where
  /-- Message "expression nests too deeply". -/
  | nestsTooDeeply
  /-- Message "expression too large". -/
  | tooLarge
deriving DecidableEq, Repr

/-- The errors of `patterns.go`, one constructor per `fmt.Errorf` call, and the
errors of `regexp.Compile`. -/
inductive PatternError where
  /-- Message "empty pattern". -/
  | emptyPattern
  /-- Message "multiple trailing dots". -/
  | multipleTrailingDots
  /-- Message "%q: invalid rune in pattern". -/
  | invalidRune (r : Char)
  /-- Message "%q: invalid byte in node name pattern". -/
  | invalidByte (b : Nat)
  /-- A syntax error reported by `regexp.Compile` for the given expression. -/
  | regexpSyntax (expr : Str)
  /-- The refusal by `regexp.Compile` of the given expression for its size. -/
  | regexpLimit (code : LimitError) (expr : Str)
deriving DecidableEq, Repr

/-! ## The `strings` and `unicode` functions used by the canonicalizer -/

/-- Go's `unicode.IsSpace`: the Latin-1 white space runes and the `White_Space`
runes above Latin-1. -/
def isSpace (r : Char) : Bool :=
  let n := r.toNat
  if n ≤ 0xFF then
    n == 0x09 || n == 0x0A || n == 0x0B || n == 0x0C || n == 0x0D || n == 0x20
      || n == 0x85 || n == 0xA0
  else
    n == 0x1680 || (0x2000 ≤ n && n ≤ 0x200A) || n == 0x2028 || n == 0x2029
      || n == 0x202F || n == 0x205F || n == 0x3000

/-- Go's `strings.TrimSpace`: removes the leading and the trailing white space. -/
def TrimSpace (s : Str) : Str :=
  (s.dropWhile isSpace).rdropWhile isSpace

/-- Go's `strings.HasSuffix`. -/
def HasSuffix (s suffix : Str) : Bool :=
  decide (suffix.length ≤ s.length) && s.drop (s.length - suffix.length) == suffix

/-- Go's `strings.TrimSuffix`: removes `suffix` from the end of `s` once, when
it is there. -/
def TrimSuffix (s suffix : Str) : Str :=
  if HasSuffix s suffix then s.take (s.length - suffix.length) else s

/-- Go's `unicode.ToLower` on one rune.  ASCII is handled as in the library
(`'A'..'Z'` move by `'a' - 'A'`); above ASCII the library consults its Unicode
case tables, which are taken as the parameter `caseTable`. -/
def toLowerRune (caseTable : Char → Char) (r : Char) : Char :=
  if r.toNat < 0x80 then
    if 'A' ≤ r ∧ r ≤ 'Z' then Char.ofNat (r.toNat + ('a'.toNat - 'A'.toNat)) else r
  else caseTable r

/-- Go's `strings.ToLower`. -/
def ToLower (caseTable : Char → Char) (s : Str) : Str :=
  s.map (toLowerRune caseTable)

/-- A case table that leaves every rune above ASCII unchanged; it serves to
evaluate the definitions on ASCII inputs, where the table is never consulted. -/
def asciiCaseTable : Char → Char := fun r => r

/-! ## `patterns.go` -/

/-- The function `canonicalizeFQDNPattern`: trims space, trims up to one
trailing dot, and converts to lowercase. -/
def canonicalizeFQDNPattern (caseTable : Char → Char) (fqdnPattern : Str) : Str :=
  let fqdnPattern := TrimSpace fqdnPattern
  let fqdnPattern := TrimSuffix fqdnPattern ".".toList
  let fqdnPattern := ToLower caseTable fqdnPattern
  fqdnPattern

/-- The `for _, r := range fqdnPattern` loop of `appendFQDNPatternRegexp`,
run on the runes still to be visited. -/
def appendFQDNRunes : Builder → Str → Builder × Option PatternError
  | sb, [] => (sb, none)
  | sb, r :: rest =>
    if r = '.' then appendFQDNRunes (sb ++ "\\.".toList) rest
    else if r = '*' then appendFQDNRunes (sb ++ "[\\-\\.0-9a-z]*".toList) rest
    else if r = '-' ∨ ('0' ≤ r ∧ r ≤ '9') ∨ ('a' ≤ r ∧ r ≤ 'z') then
      appendFQDNRunes (sb ++ [r]) rest
    else (sb, some (.invalidRune r))

/-- The function `appendFQDNPatternRegexp`: appends the regular expression
equivalent to `fqdnPattern` to `sb`. -/
def appendFQDNPatternRegexp (caseTable : Char → Char) (sb : Builder) (fqdnPattern : Str) :
    Builder × Option PatternError :=
  let fqdnPattern := canonicalizeFQDNPattern caseTable fqdnPattern
  if fqdnPattern = [] then (sb, some .emptyPattern)
  else if HasSuffix fqdnPattern ".".toList then (sb, some .multipleTrailingDots)
  else appendFQDNRunes sb fqdnPattern

/-- The byte loop of `appendNodeNamePatternRegexp`, run on the bytes from index
`i` on: the head of the list is `nodeNamePattern[i]`, and the test
`i < len(nodeNamePattern)-1 && nodeNamePattern[i+1] == '*'` is the test that the
byte after the head exists and is a star. -/
def appendNodeNameBytes : Builder → List Nat → Builder × Option PatternError
  | sb, [] => (sb, none)
  | sb, b :: rest =>
    if b = '.'.toNat then appendNodeNameBytes (sb ++ "\\.".toList) rest
    else if b = '*'.toNat then
      match rest with
      | b' :: rest' =>
        if b' = '*'.toNat then
          appendNodeNameBytes (sb ++ "(?:[\\-0-9a-z]+(?:\\.(?:[\\-0-9a-z]+))*)".toList) rest'
        else appendNodeNameBytes (sb ++ "[\\-0-9a-z]*".toList) (b' :: rest')
      | [] => appendNodeNameBytes (sb ++ "[\\-0-9a-z]*".toList) []
    else if b = '-'.toNat ∨ b = '/'.toNat ∨ ('0'.toNat ≤ b ∧ b ≤ '9'.toNat)
        ∨ ('a'.toNat ≤ b ∧ b ≤ 'z'.toNat) then
      appendNodeNameBytes (sb ++ [Char.ofNat b]) rest
    else (sb, some (.invalidByte b))

/-- The function `appendNodeNamePatternRegexp`: appends the regular expression
equivalent to `nodeNamePattern` to `sb`. -/
def appendNodeNamePatternRegexp (sb : Builder) (nodeNamePattern : List Nat) :
    Builder × Option PatternError :=
  appendNodeNameBytes sb nodeNamePattern

/-! ## The part of Go's `regexp` package used by the compiled expressions

`regexp.Compile` and `(*Regexp).MatchString` belong to the Go standard library.
They are embedded for the syntax that `patterns.go` can emit: literals, escaped
punctuation, `\A`, `\z`, non-capturing groups, alternation, bracket classes of
runes and ranges, and the operators `*` and `+`.  On any other syntax the
embedded parser reports a syntax error.

The library also refuses expressions that are well formed but beyond its limits
on the height of the syntax tree and on the size of the compiled program.  Which
expressions these are is decided inside the library, on the tree that its parser
builds; it is not part of `patterns.go`, and it is taken as the parameter
`limits` of `regexpCompile` and of every function that calls it. -/

/-- The syntax tree of a regular expression (the operators of `regexp/syntax`
that occur here). -/
inductive Rx where
  /-- Matches the empty string (`OpEmptyMatch`). -/
  | emptyMatch
  /-- Matches one given rune (`OpLiteral`). -/
  | literal (r : Char)
  /-- Matches one rune lying in one of the ranges (`OpCharClass`). -/
  | charClass (ranges : List (Char × Char))
  /-- Matches the empty string at the beginning of the text (`OpBeginText`). -/
  | beginText
  /-- Matches the empty string at the end of the text (`OpEndText`). -/
  | endText
  /-- Zero or more repetitions (`OpStar`). -/
  | star (sub : Rx)
  /-- One or more repetitions (`OpPlus`). -/
  | plus (sub : Rx)
  /-- Concatenation (`OpConcat`). -/
  | concat (a b : Rx)
  /-- Alternation (`OpAlternate`). -/
  | alternate (a b : Rx)
deriving DecidableEq, Repr

/-- The concatenation of a sequence of expressions; the empty sequence is the
empty match and a single expression stands for itself. -/
def concatOf : List Rx → Rx
  | [] => .emptyMatch
  | [x] => x
  | x :: y :: rest => .concat x (concatOf (y :: rest))

/-- The alternation of a sequence of expressions. -/
def alternateOf : List Rx → Rx
  | [] => .emptyMatch
  | [x] => x
  | x :: y :: rest => .alternate x (alternateOf (y :: rest))

/-- The parser's record of one open group: the alternatives already closed by a
`|`, and the pieces of the alternative being read, both most recent first;
`repeated` records that the most recent piece was just built by `*` or `+`. -/
structure Frame where
  branches : List Rx
  items : List Rx
  repeated : Bool
deriving DecidableEq, Repr

/-- The frame of a group that has just been opened. -/
def Frame.empty : Frame := ⟨[], [], false⟩

/-- Adds a piece to the alternative being read. -/
def Frame.push (f : Frame) (x : Rx) : Frame := ⟨f.branches, x :: f.items, false⟩

/-- Handles `|`: closes the alternative being read. -/
def Frame.bar (f : Frame) : Frame := ⟨concatOf f.items.reverse :: f.branches, [], false⟩

/-- The expression of a whole group: the alternation of its alternatives. -/
def Frame.close (f : Frame) : Rx := alternateOf (f.bar.branches.reverse)

/-- Handles `*` and `+`: applies `op` to the most recent piece.  There must be
such a piece and it must not itself come from a repetition operator. -/
def Frame.repeat (f : Frame) (op : Rx → Rx) : Option Frame :=
  match f.items with
  | [] => none
  | x :: rest => if f.repeated then none else some ⟨f.branches, op x :: rest, true⟩

/-- ASCII letters and digits. -/
def isAlnum (r : Char) : Bool :=
  ('0' ≤ r && r ≤ '9') || ('A' ≤ r && r ≤ 'Z') || ('a' ≤ r && r ≤ 'z')

/-- The runes that `\` turns into a literal: ASCII runes other than letters
and digits. -/
def isEscapable (r : Char) : Bool := decide (r.toNat < 0x80) && !isAlnum r

/-- The runes with a meaning of their own outside a bracket class. -/
def isMeta (r : Char) : Bool :=
  r == '(' || r == ')' || r == '|' || r == '*' || r == '+' || r == '?' || r == '['
    || r == '\\' || r == '.' || r == '^' || r == '$' || r == '{'

/-- What the parser has read of a construct that spans several runes. -/
inductive Mode where
  /-- Between constructs. -/
  | normal
  /-- After `(`. -/
  | group
  /-- After `(?`. -/
  | groupFlag
  /-- After `\`, outside a bracket class. -/
  | escape
  /-- Inside a bracket class with the given ranges read, before an item. -/
  | cls (ranges : List (Char × Char))
  /-- Inside a bracket class, after `\`. -/
  | clsEscape (ranges : List (Char × Char))
  /-- Inside a bracket class, after the rune `lo`, which may start a range. -/
  | clsLo (ranges : List (Char × Char)) (lo : Char)
  /-- Inside a bracket class, after the rune `lo` and a `-`. -/
  | clsDash (ranges : List (Char × Char)) (lo : Char)
deriving DecidableEq, Repr

/-- The state of the parser of `regexp.Compile`: the frames of the enclosing
groups, the frame of the innermost group, and the construct being read. -/
structure Parser where
  stack : List Frame
  frame : Frame
  mode : Mode
deriving DecidableEq, Repr

/-- The parser before the first rune. -/
def Parser.init : Parser := ⟨[], Frame.empty, .normal⟩

/-- Reads the rune `c` at the start of an item of a bracket class. -/
def Parser.classItem (p : Parser) (ranges : List (Char × Char)) (c : Char) : Option Parser :=
  if c = ']' then
    if ranges = [] then none
    else some ⟨p.stack, p.frame.push (.charClass ranges), .normal⟩
  else if c = '\\' then some ⟨p.stack, p.frame, .clsEscape ranges⟩
  else if isAlnum c then some ⟨p.stack, p.frame, .clsLo ranges c⟩
  else none

/-- Reads one rune of the expression; `none` is a syntax error. -/
def Parser.step (p : Parser) (c : Char) : Option Parser :=
  match p.mode with
  | .normal =>
    if c = '(' then some ⟨p.stack, p.frame, .group⟩
    else if c = ')' then
      match p.stack with
      | [] => none
      | g :: stack => some ⟨stack, g.push p.frame.close, .normal⟩
    else if c = '|' then some ⟨p.stack, p.frame.bar, .normal⟩
    else if c = '*' then (p.frame.repeat Rx.star).map fun f => ⟨p.stack, f, .normal⟩
    else if c = '+' then (p.frame.repeat Rx.plus).map fun f => ⟨p.stack, f, .normal⟩
    else if c = '[' then some ⟨p.stack, p.frame, .cls []⟩
    else if c = '\\' then some ⟨p.stack, p.frame, .escape⟩
    else if isMeta c then none
    else some ⟨p.stack, p.frame.push (.literal c), .normal⟩
  | .group => if c = '?' then some ⟨p.stack, p.frame, .groupFlag⟩ else none
  | .groupFlag => if c = ':' then some ⟨p.frame :: p.stack, Frame.empty, .normal⟩ else none
  | .escape =>
    if c = 'A' then some ⟨p.stack, p.frame.push .beginText, .normal⟩
    else if c = 'z' then some ⟨p.stack, p.frame.push .endText, .normal⟩
    else if isEscapable c then some ⟨p.stack, p.frame.push (.literal c), .normal⟩
    else none
  | .cls ranges => p.classItem ranges c
  | .clsEscape ranges => if isEscapable c then some ⟨p.stack, p.frame, .clsLo ranges c⟩ else none
  | .clsLo ranges lo =>
    if c = '-' then some ⟨p.stack, p.frame, .clsDash ranges lo⟩
    else p.classItem (ranges ++ [(lo, lo)]) c
  | .clsDash ranges lo =>
    if isAlnum c ∧ lo ≤ c then some ⟨p.stack, p.frame, .cls (ranges ++ [(lo, c)])⟩ else none

/-- The end of the expression: every group must be closed and no construct
may be left unfinished. -/
def Parser.finish (p : Parser) : Option Rx :=
  match p.mode, p.stack with
  | .normal, [] => some p.frame.close
  | _, _ => none

/-- Reads a run of runes. -/
def Parser.run (p : Parser) (s : Str) : Option Parser := s.foldlM Parser.step p

/-- Go's `syntax.Parse` on the embedded syntax: the tree of `expr`, or nothing
on a syntax error. -/
def parse (expr : Str) : Option Rx := (Parser.init.run expr).bind Parser.finish

/-- A compiled regular expression: the text it was compiled from (what
`(*Regexp).String` returns) and its syntax tree. -/
structure Regexp where
  expr : Str
  prog : Rx
deriving DecidableEq, Repr

/-- The verdict of the library's limits: `limits expr` is the error with which
`regexp.Compile` refuses the expression `expr` for its size, if it does. -/
abbrev Limits := Str → Option LimitError

/-- The verdict that refuses no expression; it serves to evaluate the
definitions on short expressions, which the library does not refuse. -/
def unlimited : Limits := fun _ => none

/-- The verdict that refuses the expression `refused` with the error `code` and
no other expression; it serves to evaluate the definitions on an expression
that the library refuses. -/
def refusing (refused : Str) (code : LimitError) : Limits :=
  fun expr => if expr = refused then some code else none

/-- Go's `regexp.Compile`: an expression beyond the limits of the library is
refused, any other expression is parsed. -/
def regexpCompile (limits : Limits) (expr : Str) : Option Regexp × Option PatternError :=
  match limits expr with
  | some code => (none, some (.regexpLimit code expr))
  | none =>
    match parse expr with
    | some rx => (some ⟨expr, rx⟩, none)
    | none => (none, some (.regexpSyntax expr))

/-- All the ways to cut a string in two. -/
def splits : Str → List (Str × Str)
  | [] => [([], [])]
  | c :: cs => ([], c :: cs) :: (splits cs).map fun p => (c :: p.1, p.2)

/-- Membership of a rune in a bracket class. -/
def inRanges (ranges : List (Char × Char)) (r : Char) : Bool :=
  ranges.any fun p => p.1 ≤ r && r ≤ p.2

/-- Repetition: `w` is a sequence of at most `fuel` non-empty pieces, each
accepted by `one`.  The flags say whether `w` starts at the beginning and stops
at the end of the text. -/
def starLoop (one : Bool → Str → Bool → Bool) : Nat → Bool → Str → Bool → Bool
  | 0, _, w, _ => w.isEmpty
  | fuel + 1, atBegin, w, atEnd =>
    w.isEmpty || (splits w).any fun p =>
      !p.1.isEmpty && one atBegin p.1 (atEnd && p.2.isEmpty)
        && starLoop one fuel false p.2 atEnd

/-- Whether the expression matches exactly the string `w`, where `atBegin` says
that `w` starts at the beginning of the text and `atEnd` that it stops at the
end of the text. -/
def Rx.accepts : Rx → Bool → Str → Bool → Bool
  | .emptyMatch, _, w, _ => w.isEmpty
  | .literal r, _, w, _ => w == [r]
  | .charClass ranges, _, w, _ =>
    match w with
    | [r] => inRanges ranges r
    | _ => false
  | .beginText, atBegin, w, _ => atBegin && w.isEmpty
  | .endText, _, w, atEnd => atEnd && w.isEmpty
  | .star sub, atBegin, w, atEnd =>
    starLoop (fun b u e => sub.accepts b u e) w.length atBegin w atEnd
  | .plus sub, atBegin, w, atEnd =>
    (splits w).any fun p =>
      sub.accepts atBegin p.1 (atEnd && p.2.isEmpty)
        && starLoop (fun b u e => sub.accepts b u e) p.2.length (atBegin && p.1.isEmpty)
            p.2 atEnd
  | .concat a b, atBegin, w, atEnd =>
    (splits w).any fun p =>
      a.accepts atBegin p.1 (atEnd && p.2.isEmpty)
        && b.accepts (atBegin && p.1.isEmpty) p.2 atEnd
  | .alternate a b, atBegin, w, atEnd => a.accepts atBegin w atEnd || b.accepts atBegin w atEnd

/-- Go's `(*Regexp).MatchString`: whether some substring of `s` is matched by
the expression. -/
def Regexp.MatchString (re : Regexp) (s : Str) : Bool :=
  (splits s).any fun p =>
    (splits p.2).any fun q => re.prog.accepts p.1.isEmpty q.1 q.2.isEmpty

/-! ## `patterns.go`, continued -/

/-- The `for i, fqdnPattern := range fqdnPatterns` loop of `compileFQDNPattern`,
at index `i`. -/
def compileFQDNLoop (caseTable : Char → Char) :
    Builder → Nat → List Str → Builder × Option PatternError
  | sb, _, [] => (sb, none)
  | sb, i, fqdnPattern :: rest =>
    let sb := if i > 0 then sb ++ ['|'] else sb
    match appendFQDNPatternRegexp caseTable sb fqdnPattern with
    | (sb, none) => compileFQDNLoop caseTable sb (i + 1) rest
    | (sb, some err) => (sb, some err)

/-- The function `compileFQDNPattern`: a regular expression equivalent to the
FQDN patterns in `fqdnPatterns`. -/
def compileFQDNPattern (limits : Limits) (caseTable : Char → Char) (fqdnPatterns : List Str) :
    Option Regexp × Option PatternError :=
  let sb : Builder := []
  let sb := sb ++ "\\A(?:".toList
  match compileFQDNLoop caseTable sb 0 fqdnPatterns with
  | (_, some err) => (none, some err)
  | (sb, none) => regexpCompile limits (sb ++ ")\\z".toList)

/-- The `for i, nodeNamePattern := range nodeNamePatterns` loop of
`compileNodeNamePattern`, at index `i`. -/
def compileNodeNameLoop : Builder → Nat → List (List Nat) → Builder × Option PatternError
  | sb, _, [] => (sb, none)
  | sb, i, nodeNamePattern :: rest =>
    let sb := if i > 0 then sb ++ ['|'] else sb
    match appendNodeNamePatternRegexp sb nodeNamePattern with
    | (sb, none) => compileNodeNameLoop sb (i + 1) rest
    | (sb, some err) => (sb, some err)

/-- The function `compileNodeNamePattern`: a regular expression equivalent to
the node name patterns in `nodeNamePatterns`. -/
def compileNodeNamePattern (limits : Limits) (nodeNamePatterns : List (List Nat)) :
    Option Regexp × Option PatternError :=
  let sb : Builder := []
  let sb := sb ++ "\\A(?:".toList
  match compileNodeNameLoop sb 0 nodeNamePatterns with
  | (_, some err) => (none, some err)
  | (sb, none) => regexpCompile limits (sb ++ ")\\z".toList)

/-- The UTF-8 encoding of a rune. -/
def utf8EncodeRune (r : Char) : List Nat :=
  let n := r.toNat
  if n < 0x80 then [n]
  else if n < 0x800 then [0xC0 + n / 0x40, 0x80 + n % 0x40]
  else if n < 0x10000 then [0xE0 + n / 0x1000, 0x80 + n / 0x40 % 0x40, 0x80 + n % 0x40]
  else [0xF0 + n / 0x40000, 0x80 + n / 0x1000 % 0x40, 0x80 + n / 0x40 % 0x40, 0x80 + n % 0x40]

/-- The bytes of a Go string given by its runes. -/
def bytes (s : Str) : List Nat := s.flatMap utf8EncodeRune

/-! ## Specification-side definitions -/

/-- The alphabet of FQDN patterns: `a-z`, `0-9`, `-`, `.` and `*`. -/
def isFQDNRune (r : Char) : Bool :=
  r == '.' || r == '*' || r == '-' || ('0' ≤ r && r ≤ '9') || ('a' ≤ r && r ≤ 'z')

/-- The regular expression text that stands for one rune of an FQDN pattern. -/
def fqdnRuneRegexp (r : Char) : Str :=
  if r = '.' then "\\.".toList else if r = '*' then "[\\-\\.0-9a-z]*".toList else [r]

/-- The fragment of a canonical FQDN pattern: every `.` replaced by `\.`, every
`*` by `[\-\.0-9a-z]*`, every other rune copied. -/
def fqdnFragment (c : Str) : Str := c.flatMap fqdnRuneRegexp

/-- The classification of one FQDN pattern by its canonical form: the error it
is rejected with, if any. -/
def fqdnPatternError (caseTable : Char → Char) (p : Str) : Option PatternError :=
  let c := canonicalizeFQDNPattern caseTable p
  if c = [] then some .emptyPattern
  else if c.getLast? = some '.' then some .multipleTrailingDots
  else (c.find? fun r => !isFQDNRune r).map .invalidRune

/-- The text compiled from a list of FQDN patterns: the fragments of the canonical
forms joined by `|`, between `\A(?:` and `)\z`. -/
def fqdnSource (caseTable : Char → Char) (ps : List Str) : Str :=
  "\\A(?:".toList
    ++ "|".toList.intercalate (ps.map fun p => fqdnFragment (canonicalizeFQDNPattern caseTable p))
    ++ ")\\z".toList

/-- The alphabet of node-name patterns: the bytes `a-z`, `0-9`, `-`, `/`, `.`
and `*`. -/
def isNodeNameByte (b : Nat) : Bool :=
  b == '.'.toNat || b == '*'.toNat || b == '-'.toNat || b == '/'.toNat
    || ('0'.toNat ≤ b && b ≤ '9'.toNat) || ('a'.toNat ≤ b && b ≤ 'z'.toNat)

/-- The tokens of a node-name pattern. -/
inductive Token where
  /-- A byte that stands for itself. -/
  | byte (b : Nat)
  /-- A single star `*`. -/
  | star
  /-- A double star `**`. -/
  | doubleStar
deriving DecidableEq, Repr

/-- Splits a node-name pattern into tokens from left to right: a `*` immediately
followed by another `*` forms a double star with it, any other `*` is a single
star, and every other byte is a token by itself. -/
def tokens : List Nat → List Token
  | [] => []
  | b :: rest =>
    if b = '*'.toNat then
      match rest with
      | b' :: rest' =>
        if b' = '*'.toNat then .doubleStar :: tokens rest' else .star :: tokens (b' :: rest')
      | [] => [.star]
    else .byte b :: tokens rest

/-- The regular expression text that stands for one token of a node-name
pattern. -/
def Token.regexp : Token → Str
  | .byte b => if b = '.'.toNat then "\\.".toList else [Char.ofNat b]
  | .star => "[\\-0-9a-z]*".toList
  | .doubleStar => "(?:[\\-0-9a-z]+(?:\\.(?:[\\-0-9a-z]+))*)".toList

/-- The fragment of a node-name pattern: the texts of its tokens in order. -/
def nodeNameFragment (p : List Nat) : Str := (tokens p).flatMap Token.regexp

/-- The text compiled from a list of node-name patterns. -/
def nodeNameSource (ps : List (List Nat)) : Str :=
  "\\A(?:".toList ++ "|".toList.intercalate (ps.map nodeNameFragment) ++ ")\\z".toList

/-- The error a node-name pattern is rejected with, if any: it names the first
byte outside the alphabet. -/
def nodeNamePatternError (p : List Nat) : Option PatternError :=
  (p.find? fun b => !isNodeNameByte b).map .invalidByte

/-- The bracket class `[\-\.0-9a-z]` of the FQDN wildcard. -/
def fqdnClass : List (Char × Char) := [('-', '-'), ('.', '.'), ('0', '9'), ('a', 'z')]

/-- The bracket class `[\-0-9a-z]` of the node-name wildcards. -/
def labelClass : List (Char × Char) := [('-', '-'), ('0', '9'), ('a', 'z')]

/-- The expression that stands for one rune of an FQDN pattern. -/
def fqdnItem (r : Char) : Rx :=
  if r = '*' then .star (.charClass fqdnClass) else .literal r

/-- The expression that stands for one token of a node-name pattern. -/
def Token.rx : Token → Rx
  | .byte b => .literal (Char.ofNat b)
  | .star => .star (.charClass labelClass)
  | .doubleStar =>
    .concat (.plus (.charClass labelClass))
      (.star (.concat (.literal '.') (.plus (.charClass labelClass))))

/-- The expression `\A(?:a1|...|an)\z` over the given alternatives. -/
def anchored (alts : List Rx) : Rx :=
  .concat .beginText (.concat (alternateOf alts) .endText)

/-- The syntax tree compiled from a list of FQDN patterns. -/
def fqdnRx (caseTable : Char → Char) (ps : List Str) : Rx :=
  anchored (ps.map fun p => concatOf ((canonicalizeFQDNPattern caseTable p).map fqdnItem))

/-- The syntax tree compiled from a list of node-name patterns. -/
def nodeNameRx (ps : List (List Nat)) : Rx :=
  anchored (ps.map fun p => concatOf ((tokens p).map Token.rx))

/-- The parser, between constructs, reads `text` as the pieces `items` added to
the alternative being read, whatever the enclosing groups are. -/
def Emits (text : Str) (items : List Rx) : Prop :=
  ∀ (stack : List Frame) (f : Frame), ∃ b,
    Parser.run ⟨stack, f, .normal⟩ text
      = some ⟨stack, ⟨f.branches, items.reverse ++ f.items, b⟩, .normal⟩

/-- The runes a `*` of an FQDN pattern stands for: `a-z`, `0-9`, `-` and `.`. -/
def isFQDNWordRune (r : Char) : Bool :=
  r == '-' || r == '.' || ('0' ≤ r && r ≤ '9') || ('a' ≤ r && r ≤ 'z')

/-- For the literal pieces `u0, ..., un`: `s = u0 w1 u1 ... wn un` for some
words `w1, ..., wn` over the runes a `*` stands for. -/
def interleaves : List Str → Str → Prop
  | [], _ => False
  | [u], s => s = u
  | u :: u' :: us, s =>
    ∃ w v, s = u ++ w ++ v ∧ (∀ x ∈ w, isFQDNWordRune x = true) ∧ interleaves (u' :: us) v

/-- Whole-string glob matching of `s` by the canonical FQDN pattern `c`: `c` is
split at its `*` runes into literal pieces, and `s` is these pieces with words
in between. -/
def fqdnGlob (c s : Str) : Prop := interleaves (c.splitOn '*') s

/-- The runes of a label of a host name: `a-z`, `0-9` and `-`. -/
def isLabelRune (r : Char) : Bool :=
  r == '-' || ('0' ≤ r && r ≤ '9') || ('a' ≤ r && r ≤ 'z')

/-- One or more non-empty labels separated by single dots. -/
def isLabels (w : Str) : Prop :=
  ∃ labels : List Str, labels ≠ []
    ∧ (∀ l ∈ labels, l ≠ [] ∧ ∀ x ∈ l, isLabelRune x = true)
    ∧ w = ".".toList.intercalate labels

/-- What a token of a node-name pattern is matched by: a byte by itself, a
single star by zero or more label runes, a double star by one or more labels
separated by single dots. -/
def Token.Matches : Token → Str → Prop
  | .byte b, w => w = [Char.ofNat b]
  | .star, w => ∀ x ∈ w, isLabelRune x = true
  | .doubleStar, w => isLabels w

/-- Whole-string glob matching of `s` by the node-name pattern `p`: `s` is cut
into consecutive pieces, one per token of `p`, each matched by its token. -/
def nodeNameGlob (p : List Nat) (s : Str) : Prop :=
  ∃ pieces : List Str, s = pieces.flatten ∧ List.Forall₂ Token.Matches (tokens p) pieces

/-- Expressions without `\A` and `\z`. -/
def Rx.anchorFree : Rx → Bool
  | .emptyMatch => true
  | .literal _ => true
  | .charClass _ => true
  | .beginText => false
  | .endText => false
  | .star sub => sub.anchorFree
  | .plus sub => sub.anchorFree
  | .concat a b => a.anchorFree && b.anchorFree
  | .alternate a b => a.anchorFree && b.anchorFree

/-- The string `w` is cut into consecutive pieces accepted by the expressions
`items`, one piece per expression. -/
def seqAccepts : List Rx → Str → Prop
  | [], w => w = []
  | x :: xs, w => ∃ u v, w = u ++ v ∧ x.accepts false u false = true ∧ seqAccepts xs v

/-! ## `nodename.go` -/

/-- A Go slice: nil, or a sequence of elements. -/
abbrev Slice (α : Type) := Option (List α)

/-- Go's `append` of one element to a slice. -/
def Slice.append {α : Type} (s : Slice α) (x : α) : Slice α := some (s.getD [] ++ [x])

/-- Modelled from the spec: the flow of `api/v1/flow`, whose declaration is not
among the sources; of its attributes only the node name is used. -/
structure Flow where
  nodeName : Str

/-- Modelled from the spec: the event of `pkg/hubble/api/v1`, whose declaration
is not among the sources; it carries a flow or something else. -/
structure Event where
  flow : Option Flow

/-- The getter `GetFlow`: the flow of the event, or nil. -/
def Event.GetFlow (ev : Event) : Option Flow := ev.flow

/-- The getter `GetNodeName` of a flow; on a nil flow it is the empty string. -/
def Flow.GetNodeName : Option Flow → Str
  | some f => f.nodeName
  | none => []

/-- Modelled from the spec: the filter specification `FlowFilter` of
`api/v1/flow`, whose declaration is not among the sources; of its attributes
only the optional list of node-name patterns is used. -/
structure FlowFilter where
  nodeName : Slice (List Nat)

/-- The getter `GetNodeName` of a filter specification. -/
def FlowFilter.GetNodeName (ff : FlowFilter) : Slice (List Nat) := ff.nodeName

/-- Modelled from the spec: the type `FilterFunc` of `filters.go`, a predicate on
events; as a value of a Go function type it is nil or a function. -/
abbrev FilterFunc := Option (Event → Bool)

/-- The call `nodeNameRegexp.MatchString(nodeName)` through the pointer returned
by `compileNodeNamePattern`.  The pointer is not nil where the call is made,
because `regexp.Compile` returns an expression whenever it returns no error. -/
def matchStringAt (re : Option Regexp) (s : Str) : Bool :=
  match re with
  | some re => re.MatchString s
  | none => false

/-- The function `filterByNodeNames`: a function that filters flow events based
on the node name. -/
def filterByNodeNames (limits : Limits) (nodeNames : List (List Nat)) :
    FilterFunc × Option PatternError :=
  match compileNodeNamePattern limits nodeNames with
  | (_, some err) => (none, some err)
  | (nodeNameRegexp, none) =>
    (some fun ev =>
      let nodeName := Flow.GetNodeName ev.GetFlow
      if nodeName = [] then false
      else matchStringAt nodeNameRegexp nodeName, none)

/-- The method `NodeNameFilter.OnBuildFilter`: builds a node name filter. -/
def NodeNameFilter.OnBuildFilter (limits : Limits) (ff : FlowFilter) :
    Slice FilterFunc × Option PatternError :=
  let fs : Slice FilterFunc := none
  match ff.GetNodeName with
  | some nodeNames =>
    match filterByNodeNames limits nodeNames with
    | (_, some err) => (none, some err)
    | (nodeNameF, none) => (fs.append nodeNameF, none)
  | none => (fs, none)

/-! ## The filter list of `filters.go` -/

/-- Modelled from the spec: the interface `OnBuildFilter` of `filters.go` (the
"Attribute Filter Builder"), which is not among the sources: given a filter
specification it produces zero or more predicates, or an error. -/
abbrev OnBuildFilter := FlowFilter → Slice FilterFunc × Option PatternError

/-- Modelled from the spec: whether an attribute predicate holds on an event; a
nil function holds on no event. -/
def FilterFunc.holds (f : FilterFunc) (ev : Event) : Bool :=
  match f with
  | some g => g ev
  | none => false

/-- Modelled from the spec: the group of one specification in `filters.go`,
which is not among the sources: every builder is invoked on the specification
and the predicates produced are collected; the first failure of a builder
aborts with that builder's error. -/
def buildGroup (ff : FlowFilter) : List OnBuildFilter → List FilterFunc →
    Option (List FilterFunc) × Option PatternError
  | [], fs => (some fs, none)
  | b :: rest, fs =>
    match b ff with
    | (_, some err) => (none, some err)
    | (fl, none) => buildGroup ff rest (fs ++ fl.getD [])

/-- Modelled from the spec: the Filter List, an ordered collection of groups of
predicates, one group per filter specification. -/
structure FilterList where
  groups : List (List FilterFunc)

/-- Modelled from the spec: the loop over the specifications of
`BuildFilterList`. -/
def buildGroups (auxFilters : List OnBuildFilter) : List FlowFilter → List (List FilterFunc) →
    Option FilterList × Option PatternError
  | [], groups => (some ⟨groups⟩, none)
  | ff :: rest, groups =>
    match buildGroup ff auxFilters [] with
    | (_, some err) => (none, some err)
    | (g, none) => buildGroups auxFilters rest (groups ++ [g.getD []])

/-- Modelled from the spec: the function `BuildFilterList` of `filters.go`, which
is not among the sources (the "Filter Composition Engine"): one group of
predicates per specification, or the error of the first builder that fails. -/
def BuildFilterList (ff : List FlowFilter) (auxFilters : List OnBuildFilter) :
    Option FilterList × Option PatternError :=
  buildGroups auxFilters ff []

/-- Modelled from the spec: the conjunction of the predicates of one group; a
group with no predicates holds on every event. -/
def matchAll (ev : Event) : List FilterFunc → Bool
  | [] => true
  | f :: rest => if f.holds ev then matchAll ev rest else false

/-- Modelled from the spec: the disjunction over the groups of a Filter List,
stopping at the first group that holds; without groups nothing matches. -/
def matchAny (ev : Event) : List (List FilterFunc) → Bool
  | [] => false
  | g :: rest => if matchAll ev g then true else matchAny ev rest

/-- Modelled from the spec: the evaluator `MatchOne` of the Filter List, which is
not among the sources: an event matches if the conjunction of at least one
group holds. -/
def FilterList.MatchOne (fl : FilterList) (ev : Event) : Bool := matchAny ev fl.groups

/-! ## `build/version.go` -/

/-- The type `Version`: a detailed Hubble component version. -/
structure Version where
  component : Str
  Core : Str
  Revision : Str

/-- The method `Version.String`; `fmt.Sprintf` with `%s` verbs puts its string
arguments in place of the verbs. -/
def Version.String (v : Version) : Str :=
  if v.component = [] then []
  else
    let s := v.component
    if v.Core = [] then s
    else
      let s := s ++ " v".toList ++ v.Core
      let s := if v.Revision ≠ [] then s ++ "-g".toList ++ v.Revision else s
      s

/-! ## `appendNodeNamePatternRegexp` with its index -/

/-- How a run of the byte loop ends. -/
inductive Outcome where
  /-- The function returned, with the builder as it left it. -/
  | returned (sb : Builder) (err : Option PatternError)
  /-- An index expression was out of range. -/
  | indexOutOfRange
  /-- The bound on the number of iterations was reached. -/
  | outOfFuel
deriving DecidableEq, Repr

/-- The loop `for i := 0; i < len(nodeNamePattern); i++` of
`appendNodeNamePatternRegexp` with the index `i` explicit, every index
expression checked against the length, and at most `fuel` iterations. -/
def appendNodeNameIndexed (nodeNamePattern : List Nat) : Nat → Nat → Builder → Outcome
  | 0, _, _ => .outOfFuel
  | fuel + 1, i, sb =>
    if i < nodeNamePattern.length then
      match nodeNamePattern[i]? with
      | none => .indexOutOfRange
      | some b =>
        if b = '.'.toNat then
          appendNodeNameIndexed nodeNamePattern fuel (i + 1) (sb ++ "\\.".toList)
        else if b = '*'.toNat then
          if (i : Int) < (nodeNamePattern.length : Int) - 1 then
            match nodeNamePattern[i + 1]? with
            | none => .indexOutOfRange
            | some b' =>
              if b' = '*'.toNat then
                appendNodeNameIndexed nodeNamePattern fuel (i + 1 + 1)
                  (sb ++ "(?:[\\-0-9a-z]+(?:\\.(?:[\\-0-9a-z]+))*)".toList)
              else
                appendNodeNameIndexed nodeNamePattern fuel (i + 1)
                  (sb ++ "[\\-0-9a-z]*".toList)
          else
            appendNodeNameIndexed nodeNamePattern fuel (i + 1) (sb ++ "[\\-0-9a-z]*".toList)
        else if b = '-'.toNat ∨ b = '/'.toNat ∨ ('0'.toNat ≤ b ∧ b ≤ '9'.toNat)
            ∨ ('a'.toNat ≤ b ∧ b ≤ 'z'.toNat) then
          appendNodeNameIndexed nodeNamePattern fuel (i + 1) (sb ++ [Char.ofNat b])
        else .returned sb (some (.invalidByte b))
    else .returned sb none

/-- The alphabet of node names: `a-z`, `0-9`, `-`, `.` and `/`. -/
def isNodeNameRune (r : Char) : Bool :=
  r == '-' || r == '.' || r == '/' || ('0' ≤ r && r ≤ '9') || ('a' ≤ r && r ≤ 'z')

/-! ## Pattern lists whose compiled expression the library refuses -/

/-- The patterns `a`, `aa`, ..., up to `n` letters. -/
def ladder (n : Nat) : List Str := (List.range n).map fun i => List.replicate (i + 1) 'a'

/-- The expression `\A(?:a|aa|...)\z` whose alternatives are the patterns of
`ladder n`.  For `n = 501` the library refuses it as nested too deeply: its
parser factors the common leading literals out of the alternatives, which nests
one concatenation and one alternation for each of them, and the tree of the 501
alternatives is higher than the 1000 levels that the library allows. -/
def ladderExpr (n : Nat) : Str :=
  "\\A(?:".toList ++ "|".toList.intercalate (ladder n) ++ ")\\z".toList

/-- The pattern of `n` stars. -/
def stars (n : Nat) : Str := List.replicate n '*'

/-- The expression `\A(?:[\-\.0-9a-z]*...[\-\.0-9a-z]*)\z` with `n` starred
classes.  For `n = 2000000` the library refuses it as too large: its program is
beyond the size that the library allows. -/
def starsExpr (n : Nat) : Str :=
  "\\A(?:".toList ++ (List.replicate n "[\\-\\.0-9a-z]*".toList).flatten ++ ")\\z".toList

/-! ## Lemmas on the string builders -/

theorem char_le_iff (a b : Char) : a ≤ b ↔ a.toNat ≤ b.toNat := Iff.rfl

theorem hasSuffix_dot (s : Str) : HasSuffix s ".".toList = true ↔ s.getLast? = some '.' := by
  induction s using List.reverseRecOn with
  | nil => simp [HasSuffix]
  | append_singleton l a _ =>
    simp [HasSuffix, List.getLast?_append]

theorem appendFQDNRunes_snd (sb : Builder) (c : Str) :
    (appendFQDNRunes sb c).2 = (c.find? fun r => !isFQDNRune r).map .invalidRune := by
  induction c generalizing sb with
  | nil => rfl
  | cons r rest ih =>
    unfold appendFQDNRunes
    by_cases h1 : r = '.'
    · subst h1; simp [ih, isFQDNRune, List.find?]
    by_cases h2 : r = '*'
    · subst h2; simp [ih, isFQDNRune, List.find?]
    by_cases h3 : r = '-' ∨ ('0' ≤ r ∧ r ≤ '9') ∨ ('a' ≤ r ∧ r ≤ 'z')
    · have : isFQDNRune r = true := by
        simp only [isFQDNRune, Bool.or_eq_true, beq_iff_eq, Bool.and_eq_true, decide_eq_true_eq]
        tauto
      simp [h1, h2, h3, ih, List.find?, this]
    · have : isFQDNRune r = false := by
        rw [Bool.eq_false_iff]
        simp only [isFQDNRune, Bool.or_eq_true, beq_iff_eq, Bool.and_eq_true, decide_eq_true_eq, ne_eq]
        tauto
      simp [h1, h2, h3, List.find?, this]

theorem appendFQDNRunes_fst (sb : Builder) (c : Str) (h : ∀ r ∈ c, isFQDNRune r = true) :
    (appendFQDNRunes sb c).1 = sb ++ fqdnFragment c := by
  induction c generalizing sb with
  | nil => simp [appendFQDNRunes, fqdnFragment]
  | cons r rest ih =>
    have hr := h r (List.mem_cons_self _ _)
    have ih' := fun sb => ih sb (fun x hx => h x (List.mem_cons_of_mem _ hx))
    unfold appendFQDNRunes
    by_cases h1 : r = '.'
    · subst h1; simp [ih', fqdnFragment, fqdnRuneRegexp]
    by_cases h2 : r = '*'
    · subst h2; simp [ih', fqdnFragment, fqdnRuneRegexp]
    have h3 : r = '-' ∨ ('0' ≤ r ∧ r ≤ '9') ∨ ('a' ≤ r ∧ r ≤ 'z') := by
      simp only [isFQDNRune, Bool.or_eq_true, beq_iff_eq, Bool.and_eq_true, decide_eq_true_eq] at hr
      tauto
    simp [h1, h2, h3, ih', fqdnFragment, fqdnRuneRegexp]

theorem appendFQDNPatternRegexp_snd (tab : Char → Char) (sb : Builder) (p : Str) :
    (appendFQDNPatternRegexp tab sb p).2 = fqdnPatternError tab p := by
  unfold appendFQDNPatternRegexp fqdnPatternError
  by_cases h1 : canonicalizeFQDNPattern tab p = []
  · simp [h1]
  by_cases h2 : (canonicalizeFQDNPattern tab p).getLast? = some '.'
  · have h3 := (hasSuffix_dot _).2 h2
    simp only [h1, h2, h3, if_true, if_false]
  · have h3 : HasSuffix (canonicalizeFQDNPattern tab p) ".".toList = false := by
      rw [Bool.eq_false_iff]; exact fun h => h2 ((hasSuffix_dot _).1 h)
    simp only [h1, h2, h3, if_false, appendFQDNRunes_snd, Bool.false_eq_true]

theorem appendFQDNPatternRegexp_fst (tab : Char → Char) (sb : Builder) (p : Str)
    (h : fqdnPatternError tab p = none) :
    (appendFQDNPatternRegexp tab sb p).1 = sb ++ fqdnFragment (canonicalizeFQDNPattern tab p) := by
  unfold fqdnPatternError at h
  unfold appendFQDNPatternRegexp
  by_cases h1 : canonicalizeFQDNPattern tab p = []
  · simp [h1] at h
  by_cases h2 : (canonicalizeFQDNPattern tab p).getLast? = some '.'
  · simp [h1, h2] at h
  · have h3 : HasSuffix (canonicalizeFQDNPattern tab p) ".".toList = false := by
      rw [Bool.eq_false_iff]; exact fun h => h2 ((hasSuffix_dot _).1 h)
    simp only [h1, h2, if_false, Option.map_eq_none', List.find?_eq_none] at h
    simp only [h1, h3, if_false, Bool.false_eq_true]
    apply appendFQDNRunes_fst
    intro r hr
    simpa using h r hr

theorem intercalate_cons (sep x : Str) (xs : List Str) :
    sep.intercalate (x :: xs) = x ++ xs.flatMap fun y => sep ++ y := by
  induction xs generalizing x with
  | nil => simp [List.intercalate]
  | cons y ys ih =>
    have := ih y
    simp only [List.intercalate, List.intersperse, List.flatten_cons, List.flatMap_cons] at this ⊢
    rw [this]
    simp [List.append_assoc]

theorem compileFQDNLoop_snd (tab : Char → Char) (sb : Builder) (i : Nat) (ps : List Str) :
    (compileFQDNLoop tab sb i ps).2 = ps.findSome? (fqdnPatternError tab) := by
  induction ps generalizing sb i with
  | nil => rfl
  | cons p rest ih =>
    unfold compileFQDNLoop
    simp only [List.findSome?_cons]
    have h := appendFQDNPatternRegexp_snd tab (if i > 0 then sb ++ ['|'] else sb) p
    rcases hr : appendFQDNPatternRegexp tab (if i > 0 then sb ++ ['|'] else sb) p with ⟨sb', e⟩
    rw [hr] at h
    simp only at h
    subst h
    cases he : fqdnPatternError tab p with
    | none => simp [ih]
    | some err => simp

theorem compileFQDNLoop_fst_succ (tab : Char → Char) (sb : Builder) (i : Nat) (ps : List Str)
    (h : ps.findSome? (fqdnPatternError tab) = none) :
    (compileFQDNLoop tab sb (i + 1) ps).1
      = sb ++ ps.flatMap fun p => "|".toList ++ fqdnFragment (canonicalizeFQDNPattern tab p) := by
  induction ps generalizing sb i with
  | nil => simp [compileFQDNLoop]
  | cons p rest ih =>
    simp only [List.findSome?_cons] at h
    cases he : fqdnPatternError tab p with
    | some err => simp [he] at h
    | none =>
      simp only [he] at h
      unfold compileFQDNLoop
      simp only [gt_iff_lt, Nat.zero_lt_succ, if_true]
      have h1 := appendFQDNPatternRegexp_snd tab (sb ++ ['|']) p
      have h2 := appendFQDNPatternRegexp_fst tab (sb ++ ['|']) p he
      rcases hr : appendFQDNPatternRegexp tab (sb ++ ['|']) p with ⟨sb', e⟩
      rw [hr] at h1 h2
      simp only at h1 h2
      rw [he] at h1
      subst h1 h2
      simp [ih _ _ h]

theorem compileFQDNLoop_fst_zero (tab : Char → Char) (sb : Builder) (ps : List Str)
    (h : ps.findSome? (fqdnPatternError tab) = none) :
    (compileFQDNLoop tab sb 0 ps).1
      = sb ++ "|".toList.intercalate
          (ps.map fun p => fqdnFragment (canonicalizeFQDNPattern tab p)) := by
  cases ps with
  | nil => simp [compileFQDNLoop, List.intercalate]
  | cons p rest =>
    simp only [List.findSome?_cons] at h
    cases he : fqdnPatternError tab p with
    | some err => simp [he] at h
    | none =>
      simp only [he] at h
      unfold compileFQDNLoop
      simp only [gt_iff_lt, Nat.lt_irrefl, if_false]
      have h1 := appendFQDNPatternRegexp_snd tab sb p
      have h2 := appendFQDNPatternRegexp_fst tab sb p he
      rcases hr : appendFQDNPatternRegexp tab sb p with ⟨sb', e⟩
      rw [hr] at h1 h2
      simp only at h1 h2
      rw [he] at h1
      subst h1 h2
      simp [compileFQDNLoop_fst_succ tab _ 0 rest h, intercalate_cons, List.flatMap_map]

theorem nodeNamePatternError_cons (b : Nat) (rest : List Nat) :
    nodeNamePatternError (b :: rest)
      = if isNodeNameByte b then nodeNamePatternError rest else some (.invalidByte b) := by
  unfold nodeNamePatternError
  cases h : isNodeNameByte b <;> simp [List.find?, h]

theorem tokens_cons_of_ne (b : Nat) (rest : List Nat) (h : b ≠ '*'.toNat) :
    tokens (b :: rest) = .byte b :: tokens rest := by
  have h' : ¬ b = 42 := h
  cases rest <;> simp [tokens, h']

theorem tokens_star_star (rest : List Nat) :
    tokens ('*'.toNat :: '*'.toNat :: rest) = .doubleStar :: tokens rest := by
  simp [tokens]

theorem tokens_star_ne (b : Nat) (rest : List Nat) (h : b ≠ '*'.toNat) :
    tokens ('*'.toNat :: b :: rest) = .star :: tokens (b :: rest) := by
  have h' : ¬ b = 42 := h
  rw [tokens]
  simp [h']

theorem tokens_star_nil : tokens ['*'.toNat] = [.star] := by
  simp [tokens]

theorem appendNodeNameBytes_aux (n : Nat) : ∀ (sb : Builder) (p : List Nat), p.length ≤ n →
    (appendNodeNameBytes sb p).2 = nodeNamePatternError p
      ∧ (nodeNamePatternError p = none
          → (appendNodeNameBytes sb p).1 = sb ++ nodeNameFragment p) := by
  induction n with
  | zero =>
    intro sb p hp
    have : p = [] := List.length_eq_zero.1 (Nat.le_zero.1 hp)
    subst this
    simp [appendNodeNameBytes, nodeNamePatternError, nodeNameFragment, tokens]
  | succ n ih =>
    intro sb p hp
    cases p with
    | nil => simp [appendNodeNameBytes, nodeNamePatternError, nodeNameFragment, tokens]
    | cons b rest =>
      have hlen : rest.length ≤ n := by simpa using hp
      rw [nodeNamePatternError_cons]
      by_cases h1 : b = '.'.toNat
      · subst h1
        have hb : isNodeNameByte '.'.toNat = true := by decide
        have e : nodeNameFragment ('.'.toNat :: rest) = "\\.".toList ++ nodeNameFragment rest := by
          simp only [nodeNameFragment]
          rw [tokens_cons_of_ne _ _ (by decide)]
          rfl
        have := ih (sb ++ "\\.".toList) rest hlen
        rw [e]
        unfold appendNodeNameBytes
        simp only [hb, if_true]
        exact ⟨this.1, fun h => by rw [this.2 h, List.append_assoc]⟩
      by_cases h2 : b = '*'.toNat
      · subst h2
        have hb : isNodeNameByte '*'.toNat = true := by decide
        have hne : ¬ '*'.toNat = '.'.toNat := by decide
        cases rest with
        | nil =>
          have := ih (sb ++ "[\\-0-9a-z]*".toList) [] (Nat.zero_le _)
          have e : nodeNameFragment ['*'.toNat]
              = "[\\-0-9a-z]*".toList ++ nodeNameFragment [] := by
            simp only [nodeNameFragment]
            rw [tokens_star_nil]
            rfl
          rw [e]
          unfold appendNodeNameBytes
          simp only [hb, hne, if_true, if_false]
          exact ⟨this.1, fun h => by rw [this.2 h, List.append_assoc]⟩
        | cons b' rest' =>
          by_cases h3 : b' = '*'.toNat
          · subst h3
            have hl : rest'.length ≤ n := by
              simp only [List.length_cons] at hlen; omega
            have := ih (sb ++ "(?:[\\-0-9a-z]+(?:\\.(?:[\\-0-9a-z]+))*)".toList) rest' hl
            have e : nodeNameFragment ('*'.toNat :: '*'.toNat :: rest')
                = "(?:[\\-0-9a-z]+(?:\\.(?:[\\-0-9a-z]+))*)".toList ++ nodeNameFragment rest' := by
              simp only [nodeNameFragment]
              rw [tokens_star_star]
              rfl
            rw [e, nodeNamePatternError_cons]
            unfold appendNodeNameBytes
            simp only [hb, hne, if_true, if_false]
            exact ⟨this.1, fun h => by rw [this.2 h, List.append_assoc]⟩
          · have := ih (sb ++ "[\\-0-9a-z]*".toList) (b' :: rest') hlen
            have e : nodeNameFragment ('*'.toNat :: b' :: rest')
                = "[\\-0-9a-z]*".toList ++ nodeNameFragment (b' :: rest') := by
              simp only [nodeNameFragment]
              rw [tokens_star_ne _ _ h3]
              rfl
            rw [e]
            unfold appendNodeNameBytes
            simp only [hb, hne, h3, if_true, if_false]
            exact ⟨this.1, fun h => by rw [this.2 h, List.append_assoc]⟩
      by_cases h3 : b = '-'.toNat ∨ b = '/'.toNat ∨ ('0'.toNat ≤ b ∧ b ≤ '9'.toNat)
          ∨ ('a'.toNat ≤ b ∧ b ≤ 'z'.toNat)
      · have hb : isNodeNameByte b = true := by
          simp only [isNodeNameByte, Bool.or_eq_true, beq_iff_eq, Bool.and_eq_true,
            decide_eq_true_eq]
          tauto
        have e : nodeNameFragment (b :: rest) = [Char.ofNat b] ++ nodeNameFragment rest := by
          simp only [nodeNameFragment]
          rw [tokens_cons_of_ne _ _ h2]
          simp only [List.flatMap_cons, Token.regexp, h1, if_false]
        have := ih (sb ++ [Char.ofNat b]) rest hlen
        rw [e]
        unfold appendNodeNameBytes
        simp only [hb, h1, h2, h3, if_true, if_false]
        exact ⟨this.1, fun h => by rw [this.2 h, List.append_assoc]⟩
      · have hb : isNodeNameByte b = false := by
          rw [Bool.eq_false_iff]
          simp only [isNodeNameByte, Bool.or_eq_true, beq_iff_eq, Bool.and_eq_true,
            decide_eq_true_eq, ne_eq]
          tauto
        unfold appendNodeNameBytes
        simp only [hb, h1, h2, h3, if_false, Bool.false_eq_true]
        exact ⟨trivial, fun h => by cases h⟩

theorem appendNodeNameBytes_spec (sb : Builder) (p : List Nat) :
    (appendNodeNameBytes sb p).2 = nodeNamePatternError p
      ∧ (nodeNamePatternError p = none
          → (appendNodeNameBytes sb p).1 = sb ++ nodeNameFragment p) :=
  appendNodeNameBytes_aux p.length sb p (Nat.le_refl _)

theorem compileNodeNameLoop_snd (sb : Builder) (i : Nat) (ps : List (List Nat)) :
    (compileNodeNameLoop sb i ps).2 = ps.findSome? nodeNamePatternError := by
  induction ps generalizing sb i with
  | nil => rfl
  | cons p rest ih =>
    unfold compileNodeNameLoop
    simp only [List.findSome?_cons, appendNodeNamePatternRegexp]
    have h := (appendNodeNameBytes_spec (if i > 0 then sb ++ ['|'] else sb) p).1
    rcases hr : appendNodeNameBytes (if i > 0 then sb ++ ['|'] else sb) p with ⟨sb', e⟩
    rw [hr] at h
    simp only at h
    subst h
    cases he : nodeNamePatternError p with
    | none => simp [ih]
    | some err => simp

theorem compileNodeNameLoop_fst_succ (sb : Builder) (i : Nat) (ps : List (List Nat))
    (h : ps.findSome? nodeNamePatternError = none) :
    (compileNodeNameLoop sb (i + 1) ps).1
      = sb ++ ps.flatMap fun p => "|".toList ++ nodeNameFragment p := by
  induction ps generalizing sb i with
  | nil => simp [compileNodeNameLoop]
  | cons p rest ih =>
    simp only [List.findSome?_cons] at h
    cases he : nodeNamePatternError p with
    | some err => simp [he] at h
    | none =>
      simp only [he] at h
      unfold compileNodeNameLoop
      simp only [gt_iff_lt, Nat.zero_lt_succ, if_true, appendNodeNamePatternRegexp]
      have h1 := (appendNodeNameBytes_spec (sb ++ ['|']) p).1
      have h2 := (appendNodeNameBytes_spec (sb ++ ['|']) p).2 he
      rcases hr : appendNodeNameBytes (sb ++ ['|']) p with ⟨sb', e⟩
      rw [hr] at h1 h2
      simp only at h1 h2
      rw [he] at h1
      subst h1 h2
      simp [ih _ _ h]

theorem compileNodeNameLoop_fst_zero (sb : Builder) (ps : List (List Nat))
    (h : ps.findSome? nodeNamePatternError = none) :
    (compileNodeNameLoop sb 0 ps).1
      = sb ++ "|".toList.intercalate (ps.map nodeNameFragment) := by
  cases ps with
  | nil => simp [compileNodeNameLoop, List.intercalate]
  | cons p rest =>
    simp only [List.findSome?_cons] at h
    cases he : nodeNamePatternError p with
    | some err => simp [he] at h
    | none =>
      simp only [he] at h
      unfold compileNodeNameLoop
      simp only [gt_iff_lt, Nat.lt_irrefl, if_false, appendNodeNamePatternRegexp]
      have h1 := (appendNodeNameBytes_spec sb p).1
      have h2 := (appendNodeNameBytes_spec sb p).2 he
      rcases hr : appendNodeNameBytes sb p with ⟨sb', e⟩
      rw [hr] at h1 h2
      simp only at h1 h2
      rw [he] at h1
      subst h1 h2
      simp [compileNodeNameLoop_fst_succ _ 0 rest h, intercalate_cons, List.flatMap_map]

/-! ## Lemmas on the parser -/

theorem run_append (p : Parser) (s t : Str) :
    p.run (s ++ t) = (p.run s).bind fun q => q.run t := by
  simp [Parser.run, List.foldlM_append]

theorem emits_nil : Emits [] [] := by
  intro st f
  exact ⟨f.repeated, rfl⟩

theorem emits_append {t1 t2 : Str} {i1 i2 : List Rx} (h1 : Emits t1 i1) (h2 : Emits t2 i2) :
    Emits (t1 ++ t2) (i1 ++ i2) := by
  intro st f
  obtain ⟨b1, e1⟩ := h1 st f
  obtain ⟨b2, e2⟩ := h2 st ⟨f.branches, i1.reverse ++ f.items, b1⟩
  refine ⟨b2, ?_⟩
  rw [run_append, e1]
  simp only [Option.bind, e2, List.reverse_append, List.append_assoc]

theorem emits_flatMap {α : Type} (text : α → Str) (item : α → Rx) (l : List α)
    (h : ∀ a ∈ l, Emits (text a) [item a]) : Emits (l.flatMap text) (l.map item) := by
  induction l with
  | nil => exact emits_nil
  | cons a rest ih =>
    have h1 := h a (List.mem_cons_self _ _)
    have h2 := ih fun x hx => h x (List.mem_cons_of_mem _ hx)
    simpa using emits_append h1 h2

theorem isMeta_false_iff (r : Char) : isMeta r = false ↔
    r ≠ '(' ∧ r ≠ ')' ∧ r ≠ '|' ∧ r ≠ '*' ∧ r ≠ '+' ∧ r ≠ '?' ∧ r ≠ '[' ∧ r ≠ '\\' ∧ r ≠ '.'
      ∧ r ≠ '^' ∧ r ≠ '$' ∧ r ≠ '{' := by
  simp only [isMeta, Bool.or_eq_false_iff, beq_eq_false_iff_ne, ne_eq]
  tauto

theorem emits_literal (r : Char) (h : isMeta r = false) : Emits [r] [.literal r] := by
  intro st f
  refine ⟨false, ?_⟩
  obtain ⟨h1, h2, h3, h4, h5, _, h7, h8, _⟩ := (isMeta_false_iff r).1 h
  simp [Parser.run, Parser.step, h1, h2, h3, h4, h5, h7, h8, h, Frame.push]

theorem emits_dot : Emits "\\.".toList [.literal '.'] := fun _ _ => ⟨false, rfl⟩

theorem emits_fqdnStar : Emits "[\\-\\.0-9a-z]*".toList [.star (.charClass fqdnClass)] :=
  fun _ _ => ⟨true, rfl⟩

theorem emits_star : Emits "[\\-0-9a-z]*".toList [Token.rx .star] :=
  fun _ _ => ⟨true, rfl⟩

theorem emits_doubleStar :
    Emits "(?:[\\-0-9a-z]+(?:\\.(?:[\\-0-9a-z]+))*)".toList [Token.rx .doubleStar] :=
  fun _ _ => ⟨false, rfl⟩

theorem isMeta_fqdn_literal (r : Char)
    (h : r = '-' ∨ ('0' ≤ r ∧ r ≤ '9') ∨ ('a' ≤ r ∧ r ≤ 'z')) : isMeta r = false := by
  rw [isMeta_false_iff]
  refine ⟨?_, ?_, ?_, ?_, ?_, ?_, ?_, ?_, ?_, ?_, ?_, ?_⟩ <;>
    (rintro rfl; revert h; decide)

theorem emits_fqdnRune (r : Char) (h : isFQDNRune r = true) :
    Emits (fqdnRuneRegexp r) [fqdnItem r] := by
  unfold fqdnRuneRegexp fqdnItem
  by_cases h1 : r = '.'
  · subst h1; exact emits_dot
  by_cases h2 : r = '*'
  · subst h2; exact emits_fqdnStar
  simp only [h1, h2, if_false]
  apply emits_literal
  apply isMeta_fqdn_literal
  simp only [isFQDNRune, Bool.or_eq_true, beq_iff_eq, Bool.and_eq_true, decide_eq_true_eq] at h
  tauto

theorem emits_fqdnFragment (c : Str) (h : ∀ r ∈ c, isFQDNRune r = true) :
    Emits (fqdnFragment c) (c.map fqdnItem) :=
  emits_flatMap fqdnRuneRegexp fqdnItem c fun r hr => emits_fqdnRune r (h r hr)

theorem isMeta_nodeName_literal : ∀ b < 128, isNodeNameByte b = true → b ≠ '.'.toNat →
    b ≠ '*'.toNat → isMeta (Char.ofNat b) = false := by
  decide

theorem isNodeNameByte_lt (b : Nat) (h : isNodeNameByte b = true) : b < 128 := by
  simp only [isNodeNameByte, Bool.or_eq_true, beq_iff_eq, Bool.and_eq_true,
    decide_eq_true_eq] at h
  have e1 : '.'.toNat = 46 := rfl
  have e2 : '*'.toNat = 42 := rfl
  have e3 : '-'.toNat = 45 := rfl
  have e4 : '/'.toNat = 47 := rfl
  have e5 : '9'.toNat = 57 := rfl
  have e6 : 'z'.toNat = 122 := rfl
  omega

theorem mem_tokens_byte (p : List Nat) (b : Nat) (h : Token.byte b ∈ tokens p) :
    b ∈ p ∧ b ≠ '*'.toNat := by
  induction' hn : p.length using Nat.strong_induction_on with n ih generalizing p
  cases p with
  | nil => simp [tokens] at h
  | cons a rest =>
    by_cases ha : a = '*'.toNat
    · subst ha
      cases rest with
      | nil => rw [tokens_star_nil] at h; simp at h
      | cons a' rest' =>
        by_cases ha' : a' = '*'.toNat
        · subst ha'
          rw [tokens_star_star] at h
          simp only [List.mem_cons, reduceCtorEq, false_or] at h
          have := ih rest'.length (by subst hn; simp; omega) rest' h rfl
          exact ⟨List.mem_cons_of_mem _ (List.mem_cons_of_mem _ this.1), this.2⟩
        · rw [tokens_star_ne _ _ ha'] at h
          simp only [List.mem_cons, reduceCtorEq, false_or] at h
          have := ih (a' :: rest').length (by subst hn; simp) (a' :: rest') h rfl
          exact ⟨List.mem_cons_of_mem _ this.1, this.2⟩
    · rw [tokens_cons_of_ne _ _ ha] at h
      simp only [List.mem_cons, Token.byte.injEq] at h
      rcases h with h | h
      · subst h; exact ⟨List.mem_cons_self _ _, ha⟩
      · have := ih rest.length (by subst hn; simp) rest h rfl
        exact ⟨List.mem_cons_of_mem _ this.1, this.2⟩

theorem emits_token (t : Token)
    (h : ∀ b, t = .byte b → isNodeNameByte b = true ∧ b ≠ '*'.toNat) :
    Emits t.regexp [t.rx] := by
  cases t with
  | star => exact emits_star
  | doubleStar => exact emits_doubleStar
  | byte b =>
    obtain ⟨hb, hs⟩ := h b rfl
    unfold Token.regexp Token.rx
    by_cases h1 : b = '.'.toNat
    · subst h1; exact emits_dot
    · simp only [h1, if_false]
      exact emits_literal _ (isMeta_nodeName_literal b (isNodeNameByte_lt b hb) hb h1 hs)

theorem nodeNamePatternError_eq_none (p : List Nat) :
    nodeNamePatternError p = none ↔ ∀ b ∈ p, isNodeNameByte b = true := by
  simp [nodeNamePatternError, List.find?_eq_none]

theorem emits_nodeNameFragment (p : List Nat) (h : nodeNamePatternError p = none) :
    Emits (nodeNameFragment p) ((tokens p).map Token.rx) := by
  rw [nodeNamePatternError_eq_none] at h
  apply emits_flatMap Token.regexp Token.rx
  intro t ht
  apply emits_token
  rintro b rfl
  have := mem_tokens_byte p b ht
  exact ⟨h b this.1, this.2⟩

theorem fqdnPatternError_eq_none (tab : Char → Char) (p : Str) :
    fqdnPatternError tab p = none ↔
      canonicalizeFQDNPattern tab p ≠ [] ∧ (canonicalizeFQDNPattern tab p).getLast? ≠ some '.'
        ∧ ∀ r ∈ canonicalizeFQDNPattern tab p, isFQDNRune r = true := by
  unfold fqdnPatternError
  by_cases h1 : canonicalizeFQDNPattern tab p = []
  · simp [h1]
  by_cases h2 : (canonicalizeFQDNPattern tab p).getLast? = some '.'
  · simp [h1, h2]
  · simp [h1, h2, List.find?_eq_none]

/-- Reading the alternatives after the first one. -/
theorem run_alternatives (frags : List (Str × List Rx)) (h : ∀ x ∈ frags, Emits x.1 x.2) :
    ∀ (stack : List Frame) (br items : List Rx) (b : Bool), ∃ f,
      Parser.run ⟨stack, ⟨br, items, b⟩, .normal⟩ (frags.flatMap fun x => "|".toList ++ x.1)
          = some ⟨stack, f, .normal⟩
        ∧ f.close = alternateOf
            (br.reverse ++ concatOf items.reverse :: frags.map fun x => concatOf x.2) := by
  induction frags with
  | nil =>
    intro st br items b
    exact ⟨⟨br, items, b⟩, rfl, by simp [Frame.close, Frame.bar]⟩
  | cons x rest ih =>
    intro st br items b
    obtain ⟨b1, e1⟩ := h x (List.mem_cons_self _ _) st ⟨concatOf items.reverse :: br, [], false⟩
    obtain ⟨f, e2, e3⟩ := ih (fun y hy => h y (List.mem_cons_of_mem _ hy)) st
      (concatOf items.reverse :: br) (x.2.reverse ++ []) b1
    refine ⟨f, ?_, ?_⟩
    · rw [List.flatMap_cons, List.append_assoc, run_append]
      have e0 : Parser.run ⟨st, ⟨br, items, b⟩, .normal⟩ "|".toList
          = some ⟨st, ⟨concatOf items.reverse :: br, [], false⟩, .normal⟩ := rfl
      rw [e0]
      simp only [Option.bind]
      rw [run_append, e1]
      exact e2
    · rw [e3]
      simp

theorem parse_source (frags : List (Str × List Rx)) (h : ∀ x ∈ frags, Emits x.1 x.2) :
    parse ("\\A(?:".toList ++ "|".toList.intercalate (frags.map Prod.fst) ++ ")\\z".toList)
      = some (anchored (frags.map fun x => concatOf x.2)) := by
  have e0 : Parser.init.run "\\A(?:".toList
      = some ⟨[⟨[], [.beginText], false⟩], Frame.empty, .normal⟩ := rfl
  have e9 : ∀ f : Frame, (Parser.run ⟨[⟨[], [.beginText], false⟩], f, .normal⟩ ")\\z".toList).bind
      Parser.finish = some (anchored [f.close]) := fun f => rfl
  unfold parse
  rw [run_append, run_append, e0]
  simp only [Option.bind]
  show (Option.bind _ _).bind _ = _
  cases frags with
  | nil =>
    have := e9 Frame.empty
    simp only [List.map_nil, List.intercalate, List.intersperse, List.flatten_nil, Parser.run,
      List.foldlM_nil] at this ⊢
    exact this
  | cons x rest =>
    obtain ⟨b1, e1⟩ := h x (List.mem_cons_self _ _) [⟨[], [.beginText], false⟩] Frame.empty
    obtain ⟨f, e2, e3⟩ := run_alternatives rest (fun y hy => h y (List.mem_cons_of_mem _ hy))
      [⟨[], [.beginText], false⟩] [] (x.2.reverse ++ []) b1
    rw [List.map_cons, intercalate_cons, run_append, e1]
    simp only [Option.bind, Frame.empty, List.flatMap_map] at e2 ⊢
    rw [e2]
    have := e9 f
    simp only [Option.bind] at this
    rw [this, e3]
    simp [anchored, alternateOf]

/-! ## The two compilers in closed form -/

theorem findSome?_eq_none_iff' {α β : Type} (f : α → Option β) (l : List α) :
    l.findSome? f = none ↔ ∀ a ∈ l, f a = none := by
  induction l with
  | nil => simp
  | cons a rest ih =>
    simp only [List.findSome?_cons, List.mem_cons, forall_eq_or_imp]
    cases h : f a <;> simp [ih]

theorem regexpCompile_accepted (limits : Limits) (expr : Str) (rx : Rx)
    (hp : parse expr = some rx) (hl : limits expr = none) :
    regexpCompile limits expr = (some ⟨expr, rx⟩, none) := by
  simp only [regexpCompile, hl, hp]

theorem regexpCompile_refused (limits : Limits) (expr : Str) (code : LimitError)
    (hl : limits expr = some code) :
    regexpCompile limits expr = (none, some (.regexpLimit code expr)) := by
  simp only [regexpCompile, hl]

theorem compileFQDNPattern_eq {limits : Limits} (tab : Char → Char) (ps : List Str) :
    compileFQDNPattern limits tab ps =
      match ps.findSome? (fqdnPatternError tab) with
      | some e => (none, some e)
      | none =>
        match limits (fqdnSource tab ps) with
        | some code => (none, some (.regexpLimit code (fqdnSource tab ps)))
        | none => (some ⟨fqdnSource tab ps, fqdnRx tab ps⟩, none) := by
  unfold compileFQDNPattern
  have h1 := compileFQDNLoop_snd tab ([] ++ "\\A(?:".toList) 0 ps
  have h2 := compileFQDNLoop_fst_zero tab ([] ++ "\\A(?:".toList) ps
  rcases hr : compileFQDNLoop tab ([] ++ "\\A(?:".toList) 0 ps with ⟨sb, e⟩
  rw [hr] at h1 h2
  simp only at h1 h2
  subst h1
  cases he : ps.findSome? (fqdnPatternError tab) with
  | some err => simp only [hr, he]
  | none =>
    simp only [hr, he]
    rw [h2 he]
    have hp := parse_source
      (ps.map fun p => (fqdnFragment (canonicalizeFQDNPattern tab p),
        (canonicalizeFQDNPattern tab p).map fqdnItem))
      (by
        intro x hx
        obtain ⟨p, hp, rfl⟩ := List.mem_map.1 hx
        have := (findSome?_eq_none_iff' _ _).1 he p hp
        exact emits_fqdnFragment _ ((fqdnPatternError_eq_none tab p).1 this).2.2)
    simp only [List.map_map, Function.comp_def] at hp
    simp only [regexpCompile, List.nil_append, fqdnSource, fqdnRx, hp]

theorem compileNodeNamePattern_eq {limits : Limits} (ps : List (List Nat)) :
    compileNodeNamePattern limits ps =
      match ps.findSome? nodeNamePatternError with
      | some e => (none, some e)
      | none =>
        match limits (nodeNameSource ps) with
        | some code => (none, some (.regexpLimit code (nodeNameSource ps)))
        | none => (some ⟨nodeNameSource ps, nodeNameRx ps⟩, none) := by
  unfold compileNodeNamePattern
  have h1 := compileNodeNameLoop_snd ([] ++ "\\A(?:".toList) 0 ps
  have h2 := compileNodeNameLoop_fst_zero ([] ++ "\\A(?:".toList) ps
  rcases hr : compileNodeNameLoop ([] ++ "\\A(?:".toList) 0 ps with ⟨sb, e⟩
  rw [hr] at h1 h2
  simp only at h1 h2
  subst h1
  cases he : ps.findSome? nodeNamePatternError with
  | some err => simp only [hr, he]
  | none =>
    simp only [hr, he]
    rw [h2 he]
    have hp := parse_source
      (ps.map fun p => (nodeNameFragment p, (tokens p).map Token.rx))
      (by
        intro x hx
        obtain ⟨p, hp, rfl⟩ := List.mem_map.1 hx
        exact emits_nodeNameFragment _ ((findSome?_eq_none_iff' _ _).1 he p hp))
    simp only [List.map_map, Function.comp_def] at hp
    simp only [regexpCompile, List.nil_append, nodeNameSource, nodeNameRx, hp]

/-! ## Claims on the compiled text and on the errors -/

theorem compileFQDNPattern_accepted {limits : Limits} (tab : Char → Char) (ps : List Str)
    (he : ps.findSome? (fqdnPatternError tab) = none) (hl : limits (fqdnSource tab ps) = none) :
    compileFQDNPattern limits tab ps = (some ⟨fqdnSource tab ps, fqdnRx tab ps⟩, none) := by
  rw [compileFQDNPattern_eq, he]
  simp only [hl]

theorem compileFQDNPattern_refused {limits : Limits} (tab : Char → Char) (ps : List Str)
    (code : LimitError) (he : ps.findSome? (fqdnPatternError tab) = none)
    (hl : limits (fqdnSource tab ps) = some code) :
    compileFQDNPattern limits tab ps = (none, some (.regexpLimit code (fqdnSource tab ps))) := by
  rw [compileFQDNPattern_eq, he]
  simp only [hl]

theorem compileNodeNamePattern_accepted {limits : Limits} (ps : List (List Nat))
    (he : ps.findSome? nodeNamePatternError = none) (hl : limits (nodeNameSource ps) = none) :
    compileNodeNamePattern limits ps = (some ⟨nodeNameSource ps, nodeNameRx ps⟩, none) := by
  rw [compileNodeNamePattern_eq, he]
  simp only [hl]

theorem compileNodeNamePattern_refused {limits : Limits} (ps : List (List Nat))
    (code : LimitError) (he : ps.findSome? nodeNamePatternError = none)
    (hl : limits (nodeNameSource ps) = some code) :
    compileNodeNamePattern limits ps = (none, some (.regexpLimit code (nodeNameSource ps))) := by
  rw [compileNodeNamePattern_eq, he]
  simp only [hl]

theorem compileFQDNPattern_fst_none {limits : Limits} (tab : Char → Char) (ps : List Str)
    (h : (compileFQDNPattern limits tab ps).2 ≠ none) :
    (compileFQDNPattern limits tab ps).1 = none := by
  rw [compileFQDNPattern_eq] at h ⊢
  revert h
  cases ps.findSome? (fqdnPatternError tab) with
  | some e => intro _; rfl
  | none =>
    cases limits (fqdnSource tab ps) with
    | some code => intro _; rfl
    | none => intro h; exact absurd rfl h

theorem compileNodeNamePattern_fst_none {limits : Limits} (ps : List (List Nat))
    (h : (compileNodeNamePattern limits ps).2 ≠ none) :
    (compileNodeNamePattern limits ps).1 = none := by
  rw [compileNodeNamePattern_eq] at h ⊢
  revert h
  cases ps.findSome? nodeNamePatternError with
  | some e => intro _; rfl
  | none =>
    cases limits (nodeNameSource ps) with
    | some code => intro _; rfl
    | none => intro h; exact absurd rfl h

/-- C1, amended: for every list of FQDN patterns whose canonical forms are
non-empty, do not end in `.` and contain only runes of the alphabet,
`compileFQDNPattern` hands to `regexp.Compile` the text `\A(?:`, the fragments
of the canonical forms joined by `|` in input order, and `)\z`.  When the
library does not refuse this text for its size, the compilation succeeds and
the text of the returned expression is this text; when the library refuses it,
no expression is returned and the error is that of the library. -/
theorem compileFQDNPattern_source (limits : Limits) (caseTable : Char → Char)
    (fqdnPatterns : List Str)
    (h : ∀ p ∈ fqdnPatterns,
      canonicalizeFQDNPattern caseTable p ≠ []
        ∧ (canonicalizeFQDNPattern caseTable p).getLast? ≠ some '.'
        ∧ ∀ r ∈ canonicalizeFQDNPattern caseTable p, isFQDNRune r = true) :
    ∃ text, text = "\\A(?:".toList
          ++ "|".toList.intercalate
              (fqdnPatterns.map fun p => fqdnFragment (canonicalizeFQDNPattern caseTable p))
          ++ ")\\z".toList
      ∧ (limits text = none →
          ∃ re, compileFQDNPattern limits caseTable fqdnPatterns = (some re, none)
            ∧ re.expr = text)
      ∧ (∀ code, limits text = some code →
          compileFQDNPattern limits caseTable fqdnPatterns
            = (none, some (.regexpLimit code text))) := by
  have he : fqdnPatterns.findSome? (fqdnPatternError caseTable) = none :=
    (findSome?_eq_none_iff' _ _).2 fun p hp => (fqdnPatternError_eq_none caseTable p).2 (h p hp)
  refine ⟨fqdnSource caseTable fqdnPatterns, rfl, ?_, ?_⟩
  · intro hl
    exact ⟨_, compileFQDNPattern_accepted caseTable fqdnPatterns he hl, rfl⟩
  · intro code hl
    exact compileFQDNPattern_refused caseTable fqdnPatterns code he hl

theorem compileFQDNPattern_source_witness :
    (∀ p ∈ ["*.cilium.io".toList, "  EBPF.io.  ".toList],
      canonicalizeFQDNPattern asciiCaseTable p ≠ []
        ∧ (canonicalizeFQDNPattern asciiCaseTable p).getLast? ≠ some '.'
        ∧ ∀ r ∈ canonicalizeFQDNPattern asciiCaseTable p, isFQDNRune r = true)
    ∧ ∃ re, compileFQDNPattern unlimited asciiCaseTable
            ["*.cilium.io".toList, "  EBPF.io.  ".toList] = (some re, none)
        ∧ re.expr = "\\A(?:[\\-\\.0-9a-z]*\\.cilium\\.io|ebpf\\.io)\\z".toList :=
  ⟨by decide,
    by
      obtain ⟨text, ht, hacc, _⟩ := compileFQDNPattern_source unlimited asciiCaseTable
        ["*.cilium.io".toList, "  EBPF.io.  ".toList] (by decide)
      subst ht
      exact hacc rfl⟩

/-- C2, amended: for every list of node-name patterns all of whose bytes are in
the alphabet, `compileNodeNamePattern` hands to `regexp.Compile` the text
`\A(?:`, the fragments of the patterns joined by `|` in input order, and `)\z`;
the fragment of a pattern is the text of its tokens, read from left to right
without canonicalization.  When the library does not refuse this text for its
size, the compilation succeeds and the text of the returned expression is this
text; when the library refuses it, no expression is returned and the error is
that of the library. -/
theorem compileNodeNamePattern_source (limits : Limits) (nodeNamePatterns : List (List Nat))
    (h : ∀ p ∈ nodeNamePatterns, ∀ b ∈ p, isNodeNameByte b = true) :
    ∃ text, text = "\\A(?:".toList
          ++ "|".toList.intercalate (nodeNamePatterns.map nodeNameFragment)
          ++ ")\\z".toList
      ∧ (limits text = none →
          ∃ re, compileNodeNamePattern limits nodeNamePatterns = (some re, none)
            ∧ re.expr = text)
      ∧ (∀ code, limits text = some code →
          compileNodeNamePattern limits nodeNamePatterns
            = (none, some (.regexpLimit code text))) := by
  have he : nodeNamePatterns.findSome? nodeNamePatternError = none :=
    (findSome?_eq_none_iff' _ _).2 fun p hp => (nodeNamePatternError_eq_none p).2 (h p hp)
  refine ⟨nodeNameSource nodeNamePatterns, rfl, ?_, ?_⟩
  · intro hl
    exact ⟨_, compileNodeNamePattern_accepted nodeNamePatterns he hl, rfl⟩
  · intro code hl
    exact compileNodeNamePattern_refused nodeNamePatterns code he hl

theorem compileNodeNamePattern_source_witness :
    (∀ p ∈ [bytes "runtime1.domain.com".toList, bytes "test-cluster/k8s*".toList,
        bytes "c/**".toList], ∀ b ∈ p, isNodeNameByte b = true)
    ∧ ∃ re, compileNodeNamePattern unlimited [bytes "runtime1.domain.com".toList,
          bytes "test-cluster/k8s*".toList, bytes "c/**".toList] = (some re, none)
        ∧ re.expr = ("\\A(?:runtime1\\.domain\\.com|test-cluster/k8s[\\-0-9a-z]*|"
            ++ "c/(?:[\\-0-9a-z]+(?:\\.(?:[\\-0-9a-z]+))*))\\z").toList :=
  ⟨by decide,
    by
      obtain ⟨text, ht, hacc, _⟩ := compileNodeNamePattern_source unlimited
        [bytes "runtime1.domain.com".toList, bytes "test-cluster/k8s*".toList,
          bytes "c/**".toList] (by decide)
      subst ht
      exact hacc rfl⟩

/-- C3, amended: the classification of a single FQDN pattern by its canonical
form `c`: "empty pattern" if `c` is empty; otherwise "multiple trailing dots" if
`c` ends in `.`; otherwise "invalid rune in pattern" naming the first rune of `c`
outside the alphabet, if there is one; otherwise the error of `regexp.Compile`,
if the library refuses the compiled text for its size; otherwise success.  In
particular success is equivalent to `c` being non-empty, not ending in `.` and
lying in the alphabet, and the library not refusing the compiled text. -/
theorem compileFQDNPattern_single (limits : Limits) (caseTable : Char → Char) (p : Str) :
    (compileFQDNPattern limits caseTable [p] =
      if canonicalizeFQDNPattern caseTable p = [] then (none, some .emptyPattern)
      else if (canonicalizeFQDNPattern caseTable p).getLast? = some '.' then
        (none, some .multipleTrailingDots)
      else
        match (canonicalizeFQDNPattern caseTable p).find? fun r => !isFQDNRune r with
        | some r => (none, some (.invalidRune r))
        | none =>
          match limits (fqdnSource caseTable [p]) with
          | some code => (none, some (.regexpLimit code (fqdnSource caseTable [p])))
          | none => (some ⟨fqdnSource caseTable [p], fqdnRx caseTable [p]⟩, none))
    ∧ fqdnSource caseTable [p]
        = "\\A(?:".toList ++ fqdnFragment (canonicalizeFQDNPattern caseTable p) ++ ")\\z".toList
    ∧ ((∃ re, compileFQDNPattern limits caseTable [p] = (some re, none)) ↔
        canonicalizeFQDNPattern caseTable p ≠ []
          ∧ (canonicalizeFQDNPattern caseTable p).getLast? ≠ some '.'
          ∧ (∀ r ∈ canonicalizeFQDNPattern caseTable p, isFQDNRune r = true)
          ∧ limits (fqdnSource caseTable [p]) = none) := by
  have key : compileFQDNPattern limits caseTable [p] =
      match fqdnPatternError caseTable p with
      | some e => (none, some e)
      | none =>
        match limits (fqdnSource caseTable [p]) with
        | some code => (none, some (.regexpLimit code (fqdnSource caseTable [p])))
        | none => (some ⟨fqdnSource caseTable [p], fqdnRx caseTable [p]⟩, none) := by
    rw [compileFQDNPattern_eq]
    simp only [List.findSome?_cons, List.findSome?_nil]
    cases fqdnPatternError caseTable p <;> rfl
  refine ⟨?_, ?_, ?_⟩
  · rw [key]
    unfold fqdnPatternError
    by_cases h1 : canonicalizeFQDNPattern caseTable p = []
    · simp only [h1, if_true]
    by_cases h2 : (canonicalizeFQDNPattern caseTable p).getLast? = some '.'
    · simp only [h1, h2, if_true, if_false]
    · simp only [h1, h2, if_false]
      cases (canonicalizeFQDNPattern caseTable p).find? fun r => !isFQDNRune r <;> rfl
  · simp [fqdnSource, List.intercalate, List.intersperse]
  · rw [key, ← and_assoc, ← and_assoc, and_assoc (a := _ ≠ _), ← fqdnPatternError_eq_none]
    cases fqdnPatternError caseTable p with
    | some e => simp
    | none => cases limits (fqdnSource caseTable [p]) <;> simp

/-- C4, amended: `compileNodeNamePattern` fails exactly when some pattern of the
list contains a byte outside the alphabet or `regexp.Compile` refuses the
compiled text for its size.  In the first case it returns the "invalid byte in
node name pattern" error naming such a byte; in the second case, where every
byte is in the alphabet, it returns the error of the library.  In every case of
failure no matcher is returned, and without an error a matcher is returned.
Patterns are taken as given, so a pattern with an uppercase letter or a space
is rejected. -/
theorem compileNodeNamePattern_fails_iff (limits : Limits)
    (nodeNamePatterns : List (List Nat)) :
    ((compileNodeNamePattern limits nodeNamePatterns).2 ≠ none ↔
        (∃ p ∈ nodeNamePatterns, ∃ b ∈ p, isNodeNameByte b = false)
          ∨ limits (nodeNameSource nodeNamePatterns) ≠ none)
    ∧ ((∃ p ∈ nodeNamePatterns, ∃ b ∈ p, isNodeNameByte b = false) →
        ∃ p ∈ nodeNamePatterns, ∃ b ∈ p, isNodeNameByte b = false
          ∧ compileNodeNamePattern limits nodeNamePatterns = (none, some (.invalidByte b)))
    ∧ ((∀ p ∈ nodeNamePatterns, ∀ b ∈ p, isNodeNameByte b = true) →
        ∀ code, limits (nodeNameSource nodeNamePatterns) = some code →
          compileNodeNamePattern limits nodeNamePatterns
            = (none, some (.regexpLimit code (nodeNameSource nodeNamePatterns))))
    ∧ ((compileNodeNamePattern limits nodeNamePatterns).2 ≠ none →
        (compileNodeNamePattern limits nodeNamePatterns).1 = none)
    ∧ ((compileNodeNamePattern limits nodeNamePatterns).2 = none →
        ∃ re, compileNodeNamePattern limits nodeNamePatterns = (some re, none))
    ∧ ((∃ p ∈ nodeNamePatterns, ∃ b ∈ p,
          b = ' '.toNat ∨ ('A'.toNat ≤ b ∧ b ≤ 'Z'.toNat)) →
        ∃ b, compileNodeNamePattern limits nodeNamePatterns
          = (none, some (.invalidByte b))) := by
  have hsome : ∀ e, nodeNamePatterns.findSome? nodeNamePatternError = some e →
      ∃ p ∈ nodeNamePatterns, ∃ b ∈ p, isNodeNameByte b = false ∧ e = .invalidByte b := by
    intro e he
    obtain ⟨p, hp, hpe⟩ := List.exists_of_findSome?_eq_some he
    simp only [nodeNamePatternError, Option.map_eq_some'] at hpe
    obtain ⟨b, hb, rfl⟩ := hpe
    have hmem := List.mem_of_find?_eq_some hb
    have hbad := List.find?_some hb
    exact ⟨p, hp, b, hmem, by simpa using hbad, rfl⟩
  have hnone : nodeNamePatterns.findSome? nodeNamePatternError = none →
      ¬ ∃ p ∈ nodeNamePatterns, ∃ b ∈ p, isNodeNameByte b = false := by
    intro he ⟨p, hp, b, hb, hbad⟩
    have := (nodeNamePatternError_eq_none p).1 ((findSome?_eq_none_iff' _ _).1 he p hp) b hb
    rw [hbad] at this
    cases this
  have main : (∃ p ∈ nodeNamePatterns, ∃ b ∈ p, isNodeNameByte b = false) →
      ∃ p ∈ nodeNamePatterns, ∃ b ∈ p, isNodeNameByte b = false
        ∧ compileNodeNamePattern limits nodeNamePatterns = (none, some (.invalidByte b)) := by
    intro hbad
    rw [compileNodeNamePattern_eq]
    cases he : nodeNamePatterns.findSome? nodeNamePatternError with
    | none => exact absurd hbad (hnone he)
    | some e =>
      obtain ⟨p, hp, b, hb, hbad, rfl⟩ := hsome e he
      exact ⟨p, hp, b, hb, hbad, rfl⟩
  refine ⟨?_, main, ?_, compileNodeNamePattern_fst_none nodeNamePatterns, ?_, ?_⟩
  · rw [compileNodeNamePattern_eq]
    cases he : nodeNamePatterns.findSome? nodeNamePatternError with
    | none =>
      have := hnone he
      cases hl : limits (nodeNameSource nodeNamePatterns) <;> simp [this]
    | some e =>
      obtain ⟨p, hp, b, hb, hbad, _⟩ := hsome e he
      simp only [ne_eq, reduceCtorEq, not_false_eq_true, true_iff]
      exact Or.inl ⟨p, hp, b, hb, hbad⟩
  · intro hall code hl
    exact compileNodeNamePattern_refused nodeNamePatterns code
      ((findSome?_eq_none_iff' _ _).2 fun p hp => (nodeNamePatternError_eq_none p).2 (hall p hp))
      hl
  · rw [compileNodeNamePattern_eq]
    cases he : nodeNamePatterns.findSome? nodeNamePatternError with
    | none =>
      cases hl : limits (nodeNameSource nodeNamePatterns) with
      | none => intro _; exact ⟨_, rfl⟩
      | some code => intro h; simp at h
    | some e => intro h; simp at h
  · rintro ⟨p, hp, b, hb, hcase⟩
    have hbad : isNodeNameByte b = false := by
      rw [Bool.eq_false_iff]
      simp only [isNodeNameByte, Bool.or_eq_true, beq_iff_eq, Bool.and_eq_true,
        decide_eq_true_eq, ne_eq]
      have e0 : ' '.toNat = 32 := rfl
      have e1 : 'A'.toNat = 65 := rfl
      have e2 : 'Z'.toNat = 90 := rfl
      have e3 : '.'.toNat = 46 := rfl
      have e4 : '*'.toNat = 42 := rfl
      have e5 : '-'.toNat = 45 := rfl
      have e6 : '/'.toNat = 47 := rfl
      have e7 : '0'.toNat = 48 := rfl
      have e8 : 'a'.toNat = 97 := rfl
      have e9 : '9'.toNat = 57 := rfl
      omega
    obtain ⟨_, _, b', _, _, h⟩ := main ⟨p, hp, b, hb, hbad⟩
    exact ⟨b', h⟩

theorem findSome?_append_cons {α β : Type} (f : α → Option β) (pre post : List α) (a : α)
    (b : β) (hpre : ∀ q ∈ pre, f q = none) (ha : f a = some b) :
    (pre ++ a :: post).findSome? f = some b := by
  induction pre with
  | nil => simp [ha]
  | cons q rest ih =>
    have hq := hpre q (List.mem_cons_self _ _)
    simp only [List.cons_append, List.findSome?_cons, hq]
    exact ih fun x hx => hpre x (List.mem_cons_of_mem _ hx)

theorem compileFQDNPattern_single_snd {limits : Limits} (tab : Char → Char) (p : Str) :
    (compileFQDNPattern limits tab [p]).2 =
      match fqdnPatternError tab p with
      | some e => some e
      | none =>
        (limits (fqdnSource tab [p])).map fun code => .regexpLimit code (fqdnSource tab [p]) := by
  rw [compileFQDNPattern_eq]
  simp only [List.findSome?_cons, List.findSome?_nil]
  cases fqdnPatternError tab p with
  | some e => rfl
  | none => cases limits (fqdnSource tab [p]) <;> rfl

theorem compileNodeNamePattern_single_snd {limits : Limits} (p : List Nat) :
    (compileNodeNamePattern limits [p]).2 =
      match nodeNamePatternError p with
      | some e => some e
      | none =>
        (limits (nodeNameSource [p])).map fun code => .regexpLimit code (nodeNameSource [p]) := by
  rw [compileNodeNamePattern_eq]
  simp only [List.findSome?_cons, List.findSome?_nil]
  cases nodeNamePatternError p with
  | some e => rfl
  | none => cases limits (nodeNameSource [p]) <;> rfl

theorem fqdn_valid_of_compiled {limits : Limits} (tab : Char → Char) (p : Str)
    (h : (compileFQDNPattern limits tab [p]).2 = none) : fqdnPatternError tab p = none := by
  rw [compileFQDNPattern_single_snd] at h
  cases he : fqdnPatternError tab p with
  | none => rfl
  | some e => rw [he] at h; cases h

theorem fqdn_error_of_rejected {limits : Limits} (tab : Char → Char) (p : Str)
    (e : PatternError) (h : (compileFQDNPattern limits tab [p]).2 = some e)
    (hpat : ∀ code expr, e ≠ .regexpLimit code expr) : fqdnPatternError tab p = some e := by
  rw [compileFQDNPattern_single_snd] at h
  cases he : fqdnPatternError tab p with
  | some e' => rw [he] at h; exact h
  | none =>
    rw [he] at h
    cases hl : limits (fqdnSource tab [p]) with
    | none => rw [hl] at h; cases h
    | some code =>
      rw [hl] at h
      simp only [Option.map_some', Option.some.injEq] at h
      exact absurd h.symm (hpat code _)

theorem nodeName_valid_of_compiled {limits : Limits} (p : List Nat)
    (h : (compileNodeNamePattern limits [p]).2 = none) : nodeNamePatternError p = none := by
  rw [compileNodeNamePattern_single_snd] at h
  cases he : nodeNamePatternError p with
  | none => rfl
  | some e => rw [he] at h; cases h

theorem nodeName_error_of_rejected {limits : Limits} (p : List Nat)
    (e : PatternError) (h : (compileNodeNamePattern limits [p]).2 = some e)
    (hpat : ∀ code expr, e ≠ .regexpLimit code expr) : nodeNamePatternError p = some e := by
  rw [compileNodeNamePattern_single_snd] at h
  cases he : nodeNamePatternError p with
  | some e' => rw [he] at h; exact h
  | none =>
    rw [he] at h
    cases hl : limits (nodeNameSource [p]) with
    | none => rw [hl] at h; cases h
    | some code =>
      rw [hl] at h
      simp only [Option.map_some', Option.some.injEq] at h
      exact absurd h.symm (hpat code _)

/-- C5, the claim as stated fails: the FQDN pattern `_..` has the invalid
character `_`, yet the error returned for the list holding it is "multiple
trailing dots", which names no character. -/
theorem fail_fast_names_character_counterexample :
    compileFQDNPattern unlimited asciiCaseTable ["_..".toList]
        = (none, some .multipleTrailingDots)
      ∧ "_..".toList.find? (fun r => !isFQDNRune r) = some '_'
      ∧ (compileFQDNPattern unlimited asciiCaseTable ["_..".toList]).2
          ≠ some (.invalidRune '_') := by
  decide

/-- C5, amended: both compilers fail fast.  When the patterns before `p` are
valid and `p` alone is rejected with the error `e` of the pattern compiler,
every list that continues with `p` is rejected with `e`, whatever follows `p`
and whatever the limits of the library.  For node-name patterns `e` names the
first byte of `p` outside the alphabet; for FQDN patterns `e` is the
classification of the canonical form of `p`: "empty pattern", else "multiple
trailing dots", else the first rune outside the alphabet. -/
theorem compile_fail_fast (limits : Limits) (caseTable : Char → Char) :
    (∀ (pre : List Str) (p : Str) (post : List Str) (e : PatternError),
      (∀ q ∈ pre, (compileFQDNPattern limits caseTable [q]).2 = none) →
      (compileFQDNPattern limits caseTable [p]).2 = some e →
      (∀ code expr, e ≠ .regexpLimit code expr) →
        compileFQDNPattern limits caseTable (pre ++ p :: post) = (none, some e)
          ∧ some e = fqdnPatternError caseTable p)
    ∧ (∀ (pre : List (List Nat)) (p : List Nat) (post : List (List Nat)) (e : PatternError),
      (∀ q ∈ pre, (compileNodeNamePattern limits [q]).2 = none) →
      (compileNodeNamePattern limits [p]).2 = some e →
      (∀ code expr, e ≠ .regexpLimit code expr) →
        compileNodeNamePattern limits (pre ++ p :: post) = (none, some e)
          ∧ ∃ u b v, p = u ++ b :: v ∧ (∀ x ∈ u, isNodeNameByte x = true)
              ∧ isNodeNameByte b = false ∧ e = .invalidByte b) := by
  constructor
  · intro pre p post e hpre hp hpat
    have hpre' : ∀ q ∈ pre, fqdnPatternError caseTable q = none :=
      fun q hq => fqdn_valid_of_compiled caseTable q (hpre q hq)
    have hp' := fqdn_error_of_rejected caseTable p e hp hpat
    refine ⟨?_, hp'.symm⟩
    rw [compileFQDNPattern_eq, findSome?_append_cons _ pre post p e hpre' hp']
  · intro pre p post e hpre hp hpat
    have hpre' : ∀ q ∈ pre, nodeNamePatternError q = none :=
      fun q hq => nodeName_valid_of_compiled q (hpre q hq)
    have hp' := nodeName_error_of_rejected p e hp hpat
    refine ⟨?_, ?_⟩
    · rw [compileNodeNamePattern_eq, findSome?_append_cons _ pre post p e hpre' hp']
    · simp only [nodeNamePatternError, Option.map_eq_some'] at hp'
      obtain ⟨b, hb, rfl⟩ := hp'
      rw [List.find?_eq_some] at hb
      obtain ⟨hbad, u, v, rfl, hu⟩ := hb
      refine ⟨u, b, v, rfl, ?_, by simpa using hbad, rfl⟩
      intro x hx
      simpa using hu x hx

theorem compile_fail_fast_witness :
    (compileFQDNPattern unlimited asciiCaseTable
          (["a.io".toList] ++ "b_c!".toList :: ["".toList])
        = (none, some (.invalidRune '_'))
      ∧ some (PatternError.invalidRune '_') = fqdnPatternError asciiCaseTable "b_c!".toList)
    ∧ (compileNodeNamePattern unlimited
          ([bytes "k8s*".toList] ++ bytes "a_B".toList :: [bytes "?".toList])
        = (none, some (.invalidByte '_'.toNat))
      ∧ ∃ u b v, bytes "a_B".toList = u ++ b :: v ∧ (∀ x ∈ u, isNodeNameByte x = true)
          ∧ isNodeNameByte b = false ∧ PatternError.invalidByte '_'.toNat = .invalidByte b) :=
  ⟨(compile_fail_fast unlimited asciiCaseTable).1 ["a.io".toList] "b_c!".toList ["".toList]
      (.invalidRune '_') (by decide) (by decide) (fun _ _ h => PatternError.noConfusion h),
    (compile_fail_fast unlimited asciiCaseTable).2 [bytes "k8s*".toList] (bytes "a_B".toList)
      [bytes "?".toList] (.invalidByte '_'.toNat) (by decide) (by decide)
      (fun _ _ h => PatternError.noConfusion h)⟩

/-! ## Canonicalization -/

theorem trimSpace_eq_self (l : Str) (h1 : ∀ x, l.head? = some x → isSpace x = false)
    (h2 : ∀ x, l.getLast? = some x → isSpace x = false) : TrimSpace l = l := by
  unfold TrimSpace
  have e1 : l.dropWhile isSpace = l := by
    cases l with
    | nil => rfl
    | cons x xs => simp [List.dropWhile, h1 x rfl]
  rw [e1, List.rdropWhile_eq_self_iff]
  intro hl
  have := h2 (l.getLast hl) (List.getLast?_eq_getLast _ hl)
  simp [this]

theorem trimSuffix_dot_eq_self (l : Str) (h : l.getLast? ≠ some '.') :
    TrimSuffix l ".".toList = l := by
  unfold TrimSuffix
  have : HasSuffix l ".".toList = false := by
    rw [Bool.eq_false_iff]; exact fun hh => h ((hasSuffix_dot _).1 hh)
  simp only [this, Bool.false_eq_true, if_false]

theorem trimSuffix_initial (l s : Str) : TrimSuffix l s <+: l := by
  unfold TrimSuffix
  split
  · exact List.take_prefix _ _
  · exact List.prefix_refl _

theorem head?_eq_of_initial {l1 l2 : Str} (h : l1 <+: l2) (hne : l1 ≠ []) :
    l1.head? = l2.head? := by
  obtain ⟨t, rfl⟩ := h
  cases l1 with
  | nil => exact absurd rfl hne
  | cons x xs => rfl

theorem head?_canonical (tab : Char → Char) (p : Str) (x : Char)
    (h : (canonicalizeFQDNPattern tab p).head? = some x) :
    ∃ y, x = toLowerRune tab y ∧ isSpace y = false := by
  unfold canonicalizeFQDNPattern ToLower at h
  simp only [List.head?_map, Option.map_eq_some'] at h
  obtain ⟨y, hy, rfl⟩ := h
  refine ⟨y, rfl, ?_⟩
  have hne : TrimSuffix (TrimSpace p) ".".toList ≠ [] := by
    intro e; rw [e] at hy; cases hy
  have hpre : TrimSuffix (TrimSpace p) ".".toList <+: p.dropWhile isSpace :=
    (trimSuffix_initial _ _).trans ( List.rdropWhile_prefix _ _)
  rw [head?_eq_of_initial hpre hne] at hy
  have := List.head?_dropWhile_not isSpace p
  rw [hy] at this
  simpa using this

/-- C6, the claim as stated fails: whatever the case table, the canonical form
of `a..` is `a.`, whose canonical form is `a`. -/
theorem canonicalize_not_idempotent :
    ¬ ∃ caseTable : Char → Char,
      canonicalizeFQDNPattern caseTable (canonicalizeFQDNPattern caseTable "a..".toList)
        = canonicalizeFQDNPattern caseTable "a..".toList := by
  rintro ⟨tab, h⟩
  have e1 : canonicalizeFQDNPattern tab "a..".toList = "a.".toList := rfl
  have e2 : canonicalizeFQDNPattern tab "a.".toList = "a".toList := rfl
  rw [e1, e2] at h
  exact absurd h (by decide)

/-- C6, amended: canonicalization is idempotent on every pattern whose canonical
form does not end in `.` or in white space, lower-casing a rune being idempotent
and never producing white space from another rune. -/
theorem canonicalize_idempotent_of (caseTable : Char → Char) (p : Str)
    (hlower : ∀ r, toLowerRune caseTable (toLowerRune caseTable r) = toLowerRune caseTable r)
    (hspace : ∀ r, isSpace (toLowerRune caseTable r) = true → isSpace r = true)
    (hdot : (canonicalizeFQDNPattern caseTable p).getLast? ≠ some '.')
    (hend : ∀ x, (canonicalizeFQDNPattern caseTable p).getLast? = some x → isSpace x = false) :
    canonicalizeFQDNPattern caseTable (canonicalizeFQDNPattern caseTable p)
      = canonicalizeFQDNPattern caseTable p := by
  have h1 : TrimSpace (canonicalizeFQDNPattern caseTable p) = canonicalizeFQDNPattern caseTable p := by
    apply trimSpace_eq_self _ _ hend
    intro x hx
    obtain ⟨y, rfl, hy⟩ := head?_canonical caseTable p x hx
    rw [Bool.eq_false_iff]
    intro hs
    rw [hspace y hs] at hy
    cases hy
  have h2 := trimSuffix_dot_eq_self _ hdot
  show ToLower caseTable
      (TrimSuffix (TrimSpace (canonicalizeFQDNPattern caseTable p)) ".".toList) = _
  rw [h1, h2]
  unfold canonicalizeFQDNPattern ToLower
  simp only [List.map_map]
  apply List.map_congr_left
  intro r _
  exact hlower r

theorem toLowerRune_ascii_table : ∀ n < 128,
    toLowerRune asciiCaseTable (toLowerRune asciiCaseTable (Char.ofNat n))
        = toLowerRune asciiCaseTable (Char.ofNat n)
      ∧ (isSpace (toLowerRune asciiCaseTable (Char.ofNat n)) = true
          → isSpace (Char.ofNat n) = true) := by
  decide

theorem asciiCaseTable_lower (r : Char) :
    toLowerRune asciiCaseTable (toLowerRune asciiCaseTable r) = toLowerRune asciiCaseTable r := by
  by_cases h : r.toNat < 128
  · have := (toLowerRune_ascii_table r.toNat h).1
    rwa [Char.ofNat_toNat] at this
  · have e : toLowerRune asciiCaseTable r = r := by
      simp only [toLowerRune, h, if_false, asciiCaseTable]
    rw [e, e]

theorem asciiCaseTable_space (r : Char) (h : isSpace (toLowerRune asciiCaseTable r) = true) :
    isSpace r = true := by
  by_cases h' : r.toNat < 128
  · have := (toLowerRune_ascii_table r.toNat h').2
    rw [Char.ofNat_toNat] at this
    exact this h
  · have e : toLowerRune asciiCaseTable r = r := by
      simp only [toLowerRune, h', if_false, asciiCaseTable]
    rwa [e] at h

theorem canonicalize_idempotent_of_witness :
    (canonicalizeFQDNPattern asciiCaseTable "  CILIUM.io.  ".toList).getLast? ≠ some '.'
      ∧ canonicalizeFQDNPattern asciiCaseTable
          (canonicalizeFQDNPattern asciiCaseTable "  CILIUM.io.  ".toList)
        = canonicalizeFQDNPattern asciiCaseTable "  CILIUM.io.  ".toList :=
  ⟨by decide,
    canonicalize_idempotent_of asciiCaseTable "  CILIUM.io.  ".toList asciiCaseTable_lower
      asciiCaseTable_space (by decide) (by decide)⟩

theorem toLowerRune_of_ascii (tab : Char → Char) (r : Char) (h : r.toNat < 128) :
    toLowerRune tab r = toLowerRune asciiCaseTable r := by
  simp only [toLowerRune, h, if_true]

theorem fqdnRune_cases_table : ∀ n < 128, isFQDNRune (Char.ofNat n) = true →
    ∀ y ∈ [Char.ofNat n, (Char.ofNat n).toUpper],
      toLowerRune asciiCaseTable y = Char.ofNat n ∧ isSpace y = false
        ∧ (y = '.' → Char.ofNat n = '.') ∧ y.toNat < 128 := by
  decide

theorem isFQDNRune_lt (r : Char) (h : isFQDNRune r = true) : r.toNat < 128 := by
  simp only [isFQDNRune, Bool.or_eq_true, beq_iff_eq, Bool.and_eq_true, decide_eq_true_eq,
    char_le_iff] at h
  have e5 : '9'.toNat = 57 := rfl
  have e6 : 'z'.toNat = 122 := rfl
  rcases h with (((h | h) | h) | h) | h
  · subst h; decide
  · subst h; decide
  · subst h; decide
  · omega
  · omega

theorem fqdnRune_cases (tab : Char → Char) (x y : Char) (hx : isFQDNRune x = true)
    (hy : y = x ∨ y = x.toUpper) :
    toLowerRune tab y = x ∧ isSpace y = false ∧ (y = '.' → x = '.') := by
  have hlt := isFQDNRune_lt x hx
  have := fqdnRune_cases_table x.toNat hlt (by rwa [Char.ofNat_toNat]) y
    (by rw [Char.ofNat_toNat]; rcases hy with h | h <;> simp [h])
  rw [Char.ofNat_toNat] at this
  obtain ⟨h1, h2, h3, h4⟩ := this
  exact ⟨by rw [toLowerRune_of_ascii tab y h4, h1], h2, h3⟩

theorem dropWhile_replicate_space (n : Nat) (l : Str)
    (h : ∀ x, l.head? = some x → isSpace x = false) :
    (List.replicate n ' ' ++ l).dropWhile isSpace = l := by
  induction n with
  | zero =>
    cases l with
    | nil => rfl
    | cons x xs => simp [List.dropWhile, h x rfl]
  | succ n ih =>
    have : isSpace ' ' = true := by decide
    simp only [List.replicate_succ, List.cons_append, List.dropWhile_cons, this, if_true, ih]

theorem trimSpace_pad (lead trail : Nat) (w : Str) (hne : w ≠ [])
    (h1 : ∀ x, w.head? = some x → isSpace x = false)
    (h2 : ∀ x, w.getLast? = some x → isSpace x = false) :
    TrimSpace (List.replicate lead ' ' ++ w ++ List.replicate trail ' ') = w := by
  unfold TrimSpace
  have h1' : ∀ x, (w ++ List.replicate trail ' ').head? = some x → isSpace x = false := by
    intro x hx
    cases w with
    | nil => exact absurd rfl hne
    | cons y ys => exact h1 x (by simpa using hx)
  rw [List.append_assoc, dropWhile_replicate_space lead _ h1']
  unfold List.rdropWhile
  rw [List.reverse_append, List.reverse_replicate,
    dropWhile_replicate_space trail _ (by simpa using h2), List.reverse_reverse]

theorem forall₂_toLower (tab : Char → Char) (c u : Str)
    (halpha : ∀ r ∈ c, isFQDNRune r = true)
    (hu : List.Forall₂ (fun x y => y = x ∨ y = x.toUpper) c u) :
    ToLower tab u = c
      ∧ (∀ y, u.head? = some y → isSpace y = false)
      ∧ (∀ y, u.getLast? = some y → isSpace y = false ∧ (y = '.' → c.getLast? = some '.'))
      ∧ (c ≠ [] → u ≠ []) := by
  induction hu with
  | nil => simp [ToLower]
  | @cons x y c' u' hxy hrest ih =>
    have hx := halpha x (List.mem_cons_self _ _)
    obtain ⟨i1, i2, i3, i4⟩ := ih fun r hr => halpha r (List.mem_cons_of_mem _ hr)
    obtain ⟨k1, k2, k3⟩ := fqdnRune_cases tab x y hx hxy
    refine ⟨?_, ?_, ?_, by simp⟩
    · simp only [ToLower, List.map_cons, k1] at i1 ⊢
      rw [i1]
    · intro z hz
      simp only [List.head?_cons, Option.some.injEq] at hz
      subst hz; exact k2
    · intro z hz
      cases hrest with
      | nil =>
        simp only [List.getLast?_singleton, Option.some.injEq] at hz
        subst hz
        exact ⟨k2, fun h => by rw [k3 h]; rfl⟩
      | @cons x' y' c'' u'' hxy' hrest' =>
        rw [List.getLast?_cons_cons] at hz ⊢
        exact i3 z hz

theorem canonicalize_variant (tab : Char → Char) (c u : Str) (lead trail : Nat) (dot : Bool)
    (hne : c ≠ []) (hdot : c.getLast? ≠ some '.') (halpha : ∀ r ∈ c, isFQDNRune r = true)
    (hu : List.Forall₂ (fun x y => y = x ∨ y = x.toUpper) c u) :
    canonicalizeFQDNPattern tab
        (List.replicate lead ' ' ++ (u ++ if dot then ".".toList else [])
          ++ List.replicate trail ' ') = c := by
  obtain ⟨h1, h2, h3, h4⟩ := forall₂_toLower tab c u halpha hu
  have hune := h4 hne
  unfold canonicalizeFQDNPattern
  have hw : TrimSpace (List.replicate lead ' ' ++ (u ++ if dot then ".".toList else [])
      ++ List.replicate trail ' ') = u ++ if dot then ".".toList else [] := by
    apply trimSpace_pad
    · simp [hune]
    · intro x hx
      cases u with
      | nil => exact absurd rfl hune
      | cons y ys => exact h2 x (by simpa using hx)
    · intro x hx
      cases dot with
      | true =>
        simp only [if_true, String.toList, List.getLast?_append, List.getLast?_singleton,
          Option.or, Option.some.injEq] at hx
        subst hx; decide
      | false =>
        simp only [Bool.false_eq_true, if_false, List.append_nil] at hx
        exact (h3 x hx).1
  simp only [hw]
  have ht : TrimSuffix (u ++ if dot then ".".toList else []) ".".toList = u := by
    cases dot with
    | true =>
      have : HasSuffix (u ++ ".".toList) ".".toList = true := by
        rw [hasSuffix_dot]; simp
      simp only [if_true, TrimSuffix, this]
      simp
    | false =>
      simp only [Bool.false_eq_true, if_false, List.append_nil]
      apply trimSuffix_dot_eq_self
      intro hl
      exact hdot ((h3 '.' hl).2 rfl)
  simp only [ht, h1]

theorem compileFQDNPattern_congr_single {limits : Limits} (tab : Char → Char) (p q : Str)
    (h : canonicalizeFQDNPattern tab p = canonicalizeFQDNPattern tab q) :
    compileFQDNPattern limits tab [p] = compileFQDNPattern limits tab [q] := by
  rw [compileFQDNPattern_eq, compileFQDNPattern_eq]
  simp only [List.findSome?_cons, List.findSome?_nil, fqdnPatternError, fqdnSource, fqdnRx,
    List.map_cons, List.map_nil, h]

/-- C7, amended: FQDN compilation is insensitive to case, to one trailing dot
and to surrounding spaces.  For a pattern `c` that is non-empty, does not end in
`.` and lies in the alphabet, every `p` made of leading spaces, `c` with any of
its letters upper-cased, at most one `.`, and trailing spaces gives the same
result as `c`, as the same text is handed to `regexp.Compile`: when the library
does not refuse this text for its size, both compile, and to the same
expression; when the library refuses it, both fail with the error of the
library. -/
theorem compileFQDNPattern_insensitive (limits : Limits) (caseTable : Char → Char) (c u : Str)
    (lead trail : Nat) (dot : Bool)
    (hne : c ≠ []) (hdot : c.getLast? ≠ some '.') (halpha : ∀ r ∈ c, isFQDNRune r = true)
    (hu : List.Forall₂ (fun x y => y = x ∨ y = x.toUpper) c u) :
    compileFQDNPattern limits caseTable
        [List.replicate lead ' ' ++ (u ++ if dot then ".".toList else [])
          ++ List.replicate trail ' '] = compileFQDNPattern limits caseTable [c]
      ∧ (limits ("\\A(?:".toList ++ fqdnFragment c ++ ")\\z".toList) = none →
          ∃ re, compileFQDNPattern limits caseTable
                [List.replicate lead ' ' ++ (u ++ if dot then ".".toList else [])
                  ++ List.replicate trail ' '] = (some re, none)
            ∧ compileFQDNPattern limits caseTable [c] = (some re, none)
            ∧ re.expr = "\\A(?:".toList ++ fqdnFragment c ++ ")\\z".toList)
      ∧ (∀ code, limits ("\\A(?:".toList ++ fqdnFragment c ++ ")\\z".toList) = some code →
          compileFQDNPattern limits caseTable
              [List.replicate lead ' ' ++ (u ++ if dot then ".".toList else [])
                ++ List.replicate trail ' ']
            = (none, some (.regexpLimit code
                ("\\A(?:".toList ++ fqdnFragment c ++ ")\\z".toList)))) := by
  have hp := canonicalize_variant caseTable c u lead trail dot hne hdot halpha hu
  have hrefl : List.Forall₂ (fun x y => y = x ∨ y = x.toUpper) c c :=
    List.forall₂_same.2 fun x _ => Or.inl rfl
  have hc := canonicalize_variant caseTable c c 0 0 false hne hdot halpha hrefl
  simp only [List.replicate_zero, List.nil_append, Bool.false_eq_true, if_false,
    List.append_nil] at hc
  have hsame := @compileFQDNPattern_congr_single limits caseTable _ c (hp.trans hc.symm)
  have he : [c].findSome? (fqdnPatternError caseTable) = none := by
    simp only [List.findSome?_cons, List.findSome?_nil]
    rw [(fqdnPatternError_eq_none caseTable c).2 (by rw [hc]; exact ⟨hne, hdot, halpha⟩)]
  have hsrc : fqdnSource caseTable [c]
      = "\\A(?:".toList ++ fqdnFragment c ++ ")\\z".toList := by
    simp [fqdnSource, List.intercalate, List.intersperse, hc]
  rw [← hsrc, hsame]
  refine ⟨rfl, ?_, ?_⟩
  · intro hl
    exact ⟨_, compileFQDNPattern_accepted caseTable [c] he hl,
      compileFQDNPattern_accepted caseTable [c] he hl, rfl⟩
  · intro code hl
    exact compileFQDNPattern_refused caseTable [c] code he hl

theorem compileFQDNPattern_insensitive_witness :
    List.Forall₂ (fun x y => y = x ∨ y = x.toUpper) "cilium.io".toList "CiLIUM.IO".toList
      ∧ ∃ re, compileFQDNPattern unlimited asciiCaseTable ["  CiLIUM.IO.  ".toList]
            = (some re, none)
          ∧ compileFQDNPattern unlimited asciiCaseTable ["cilium.io".toList] = (some re, none)
          ∧ re.expr = "\\A(?:cilium\\.io)\\z".toList :=
  ⟨by repeat (first | exact .nil | refine .cons (by decide) ?_),
    (compileFQDNPattern_insensitive unlimited asciiCaseTable "cilium.io".toList
      "CiLIUM.IO".toList 2 2 true (by decide) (by decide) (by decide)
      (by repeat (first | exact .nil | refine .cons (by decide) ?_))).2.1 rfl⟩

/-! ## Lemmas on matching -/

theorem mem_splits (w : Str) (p : Str × Str) : p ∈ splits w ↔ p.1 ++ p.2 = w := by
  induction w generalizing p with
  | nil =>
    obtain ⟨a, b⟩ := p
    simp [splits]
  | cons c cs ih =>
    obtain ⟨a, b⟩ := p
    simp only [splits, List.mem_cons, List.mem_map, Prod.mk.injEq]
    constructor
    · rintro (⟨rfl, rfl⟩ | ⟨q, hq, rfl, rfl⟩)
      · rfl
      · simp [(ih q).1 hq]
    · intro h
      cases a with
      | nil => left; exact ⟨rfl, by simpa using h⟩
      | cons x xs =>
        right
        simp only [List.cons_append, List.cons.injEq] at h
        obtain ⟨rfl, h⟩ := h
        exact ⟨(xs, b), (ih _).2 h, rfl, rfl⟩

theorem any_splits (w : Str) (f : Str × Str → Bool) :
    (splits w).any f = true ↔ ∃ u v, w = u ++ v ∧ f (u, v) = true := by
  simp only [List.any_eq_true, mem_splits]
  constructor
  · rintro ⟨⟨u, v⟩, h, hf⟩; exact ⟨u, v, h.symm, hf⟩
  · rintro ⟨u, v, h, hf⟩; exact ⟨(u, v), h.symm, hf⟩

theorem accepts_concat (a b : Rx) (bf ef : Bool) (w : Str) :
    (Rx.concat a b).accepts bf w ef = true ↔
      ∃ u v, w = u ++ v ∧ a.accepts bf u (ef && v.isEmpty) = true
        ∧ b.accepts (bf && u.isEmpty) v ef = true := by
  simp only [Rx.accepts, any_splits, Bool.and_eq_true]

theorem starLoop_congr (f g : Bool → Str → Bool → Bool)
    (h : ∀ b u e b' e', f b u e = g b' u e') (n : Nat) :
    ∀ (w : Str) (b e b' e' : Bool), starLoop f n b w e = starLoop g n b' w e' := by
  induction n with
  | zero => intro w b e b' e'; rfl
  | succ n ih =>
    intro w b e b' e'
    simp only [starLoop]
    congr 1
    congr 1
    funext p
    rw [h b p.1 (e && p.2.isEmpty) b' (e' && p.2.isEmpty), ih p.2 false e false e']

theorem accepts_flags (r : Rx) (h : r.anchorFree = true) :
    ∀ (w : Str) (b e b' e' : Bool), r.accepts b w e = r.accepts b' w e' := by
  induction r with
  | emptyMatch => intro w b e b' e'; rfl
  | literal c => intro w b e b' e'; rfl
  | charClass rs => intro w b e b' e'; rfl
  | beginText => cases h
  | endText => cases h
  | star sub ih =>
    intro w b e b' e'
    simp only [Rx.accepts]
    exact starLoop_congr _ _ (fun b u e b' e' => ih h u b e b' e') _ _ _ _ _ _
  | plus sub ih =>
    intro w b e b' e'
    simp only [Rx.accepts]
    congr 1
    funext p
    rw [ih h p.1 b (e && p.2.isEmpty) b' (e' && p.2.isEmpty),
      starLoop_congr _ _ (fun b u e b' e' => ih h u b e b' e') _ p.2 (b && p.1.isEmpty) e
        (b' && p.1.isEmpty) e']
  | concat x y ihx ihy =>
    intro w b e b' e'
    simp only [Rx.anchorFree, Bool.and_eq_true] at h
    simp only [Rx.accepts]
    congr 1
    funext p
    rw [ihx h.1 p.1 b (e && p.2.isEmpty) b' (e' && p.2.isEmpty),
      ihy h.2 p.2 (b && p.1.isEmpty) e (b' && p.1.isEmpty) e']
  | alternate x y ihx ihy =>
    intro w b e b' e'
    simp only [Rx.anchorFree, Bool.and_eq_true] at h
    simp only [Rx.accepts]
    rw [ihx h.1 w b e b' e', ihy h.2 w b e b' e']

theorem starLoop_iff (one : Bool → Str → Bool → Bool)
    (hind : ∀ b u e b' e', one b u e = one b' u e') (n : Nat) :
    ∀ (w : Str) (b e : Bool), w.length ≤ n →
      (starLoop one n b w e = true ↔
        ∃ pieces : List Str, w = pieces.flatten
          ∧ ∀ u ∈ pieces, u ≠ [] ∧ one false u false = true) := by
  induction n with
  | zero =>
    intro w b e hn
    have hw : w = [] := List.length_eq_zero.1 (Nat.le_zero.1 hn)
    subst hw
    simp only [starLoop, List.isEmpty_nil, true_iff]
    exact ⟨[], rfl, by simp⟩
  | succ n ih =>
    intro w b e hn
    simp only [starLoop, Bool.or_eq_true, any_splits, Bool.and_eq_true, Bool.not_eq_true',
      List.isEmpty_eq_false_iff_exists_mem]
    constructor
    · rintro (h | ⟨u, v, rfl, ⟨⟨x, hx⟩, h1⟩, h2⟩)
      · have hw : w = [] := by simpa using h
        exact ⟨[], by simp [hw], by simp⟩
      · have hu : u ≠ [] := List.ne_nil_of_mem hx
        have hlen : v.length ≤ n := by
          have : 0 < u.length := List.length_pos.2 hu
          simp only [List.length_append] at hn
          omega
        obtain ⟨pieces, rfl, hp⟩ := (ih v false e hlen).1 h2
        refine ⟨u :: pieces, by simp, ?_⟩
        intro y hy
        rcases List.mem_cons.1 hy with rfl | hy
        · exact ⟨hu, by rw [← h1]; exact hind _ _ _ _ _⟩
        · exact hp y hy
    · rintro ⟨pieces, rfl, hp⟩
      cases pieces with
      | nil => left; simp
      | cons u ps =>
        right
        obtain ⟨hu, h1⟩ := hp u (List.mem_cons_self _ _)
        have hlen : ps.flatten.length ≤ n := by
          have : 0 < u.length := List.length_pos.2 hu
          simp only [List.flatten_cons, List.length_append] at hn
          omega
        refine ⟨u, ps.flatten, by simp, ⟨?_, ?_⟩, ?_⟩
        · obtain ⟨x, hx⟩ := List.exists_mem_of_ne_nil u hu
          exact ⟨x, hx⟩
        · rw [← h1]; exact hind _ _ _ _ _
        · exact (ih ps.flatten false e hlen).2
            ⟨ps, rfl, fun y hy => hp y (List.mem_cons_of_mem _ hy)⟩

theorem accepts_star (sub : Rx) (h : sub.anchorFree = true) (b e : Bool) (w : Str) :
    (Rx.star sub).accepts b w e = true ↔
      ∃ pieces : List Str, w = pieces.flatten
        ∧ ∀ u ∈ pieces, u ≠ [] ∧ sub.accepts false u false = true := by
  simp only [Rx.accepts]
  exact starLoop_iff _ (fun b u e b' e' => accepts_flags sub h u b e b' e') _ w b e
    (Nat.le_refl _)

theorem accepts_plus (sub : Rx) (h : sub.anchorFree = true) (b e : Bool) (w : Str) :
    (Rx.plus sub).accepts b w e = true ↔
      ∃ (u : Str) (pieces : List Str), w = u ++ pieces.flatten
        ∧ sub.accepts false u false = true
        ∧ ∀ v ∈ pieces, v ≠ [] ∧ sub.accepts false v false = true := by
  simp only [Rx.accepts, any_splits, Bool.and_eq_true]
  constructor
  · rintro ⟨u, v, rfl, h1, h2⟩
    obtain ⟨pieces, rfl, hp⟩ := (starLoop_iff _
      (fun b u e b' e' => accepts_flags sub h u b e b' e') _ v _ e (Nat.le_refl _)).1 h2
    exact ⟨u, pieces, rfl, by rw [← h1]; exact accepts_flags sub h _ _ _ _ _, hp⟩
  · rintro ⟨u, pieces, rfl, h1, hp⟩
    refine ⟨u, pieces.flatten, rfl, by rw [← h1]; exact accepts_flags sub h _ _ _ _ _, ?_⟩
    exact (starLoop_iff _ (fun b u e b' e' => accepts_flags sub h u b e b' e') _ _ _ e
      (Nat.le_refl _)).2 ⟨pieces, rfl, hp⟩

theorem accepts_charClass (rs : List (Char × Char)) (b e : Bool) (w : Str) :
    (Rx.charClass rs).accepts b w e = true ↔ ∃ x, w = [x] ∧ inRanges rs x = true := by
  cases w with
  | nil => simp [Rx.accepts]
  | cons x xs =>
    cases xs with
    | nil => simp [Rx.accepts]
    | cons y ys => simp [Rx.accepts]

theorem accepts_literal (r : Char) (b e : Bool) (w : Str) :
    (Rx.literal r).accepts b w e = true ↔ w = [r] := by
  simp [Rx.accepts]

theorem flatten_singletons (pieces : List Str) (P : Char → Prop)
    (h : ∀ u ∈ pieces, ∃ x, u = [x] ∧ P x) : ∀ x ∈ pieces.flatten, P x := by
  induction pieces with
  | nil => simp
  | cons u ps ih =>
    obtain ⟨y, rfl, hy⟩ := h u (List.mem_cons_self _ _)
    intro x hx
    simp only [List.flatten_cons, List.singleton_append, List.mem_cons] at hx
    rcases hx with rfl | hx
    · exact hy
    · exact ih (fun v hv => h v (List.mem_cons_of_mem _ hv)) x hx

theorem accepts_star_charClass (rs : List (Char × Char)) (b e : Bool) (w : Str) :
    (Rx.star (.charClass rs)).accepts b w e = true ↔ ∀ x ∈ w, inRanges rs x = true := by
  rw [accepts_star (.charClass rs) rfl]
  constructor
  · rintro ⟨pieces, rfl, hp⟩
    exact flatten_singletons pieces _ fun u hu => (accepts_charClass rs false false u).1 (hp u hu).2
  · intro h
    refine ⟨w.map fun x => [x], ?_, ?_⟩
    · clear h
      induction w with
      | nil => rfl
      | cons x xs ih => simp [← ih]
    · intro u hu
      obtain ⟨x, hx, rfl⟩ := List.mem_map.1 hu
      exact ⟨by simp, (accepts_charClass rs false false [x]).2 ⟨x, rfl, h x hx⟩⟩

theorem accepts_plus_charClass (rs : List (Char × Char)) (b e : Bool) (w : Str) :
    (Rx.plus (.charClass rs)).accepts b w e = true ↔
      w ≠ [] ∧ ∀ x ∈ w, inRanges rs x = true := by
  rw [accepts_plus (.charClass rs) rfl]
  constructor
  · rintro ⟨u, pieces, rfl, h1, hp⟩
    obtain ⟨x, rfl, hx⟩ := (accepts_charClass rs false false u).1 h1
    refine ⟨by simp, ?_⟩
    intro y hy
    simp only [List.singleton_append, List.mem_cons] at hy
    rcases hy with rfl | hy
    · exact hx
    · exact flatten_singletons pieces _
        (fun u hu => (accepts_charClass rs false false u).1 (hp u hu).2) y hy
  · rintro ⟨hne, h⟩
    cases w with
    | nil => exact absurd rfl hne
    | cons x xs =>
      have hs := (accepts_star_charClass rs false false xs).2
        fun y hy => h y (List.mem_cons_of_mem _ hy)
      rw [accepts_star (.charClass rs) rfl] at hs
      obtain ⟨pieces, hxs, hp⟩ := hs
      exact ⟨[x], pieces, by simp [hxs],
        (accepts_charClass rs false false [x]).2 ⟨x, rfl, h x (List.mem_cons_self _ _)⟩, hp⟩

theorem anchorFree_concatOf (items : List Rx) (h : ∀ x ∈ items, x.anchorFree = true) :
    (concatOf items).anchorFree = true := by
  induction items with
  | nil => rfl
  | cons x rest ih =>
    cases rest with
    | nil => exact h x (List.mem_cons_self _ _)
    | cons y ys =>
      simp only [concatOf, Rx.anchorFree, Bool.and_eq_true]
      exact ⟨h x (List.mem_cons_self _ _), ih fun z hz => h z (List.mem_cons_of_mem _ hz)⟩

theorem anchorFree_alternateOf (alts : List Rx) (h : ∀ x ∈ alts, x.anchorFree = true) :
    (alternateOf alts).anchorFree = true := by
  induction alts with
  | nil => rfl
  | cons x rest ih =>
    cases rest with
    | nil => exact h x (List.mem_cons_self _ _)
    | cons y ys =>
      simp only [alternateOf, Rx.anchorFree, Bool.and_eq_true]
      exact ⟨h x (List.mem_cons_self _ _), ih fun z hz => h z (List.mem_cons_of_mem _ hz)⟩

theorem accepts_concatOf (items : List Rx) (h : ∀ x ∈ items, x.anchorFree = true) :
    ∀ (b e : Bool) (w : Str), (concatOf items).accepts b w e = true ↔ seqAccepts items w := by
  induction items with
  | nil => intro b e w; simp [concatOf, Rx.accepts, seqAccepts]
  | cons x rest ih =>
    intro b e w
    have hx := h x (List.mem_cons_self _ _)
    have hrest : ∀ z ∈ rest, z.anchorFree = true := fun z hz => h z (List.mem_cons_of_mem _ hz)
    cases rest with
    | nil =>
      simp only [concatOf, seqAccepts]
      rw [accepts_flags x hx w b e false false]
      constructor
      · intro hw; exact ⟨w, [], by simp, hw, rfl⟩
      · rintro ⟨u, v, rfl, hu, rfl⟩; simpa using hu
    | cons y ys =>
      have ih' := ih hrest
      simp only [concatOf] at ih' ⊢
      rw [accepts_concat]
      simp only [seqAccepts] at ih' ⊢
      constructor
      · rintro ⟨u, v, rfl, h1, h2⟩
        exact ⟨u, v, rfl, by rw [← h1]; exact accepts_flags x hx _ _ _ _ _, (ih' _ _ v).1 h2⟩
      · rintro ⟨u, v, rfl, h1, h2⟩
        exact ⟨u, v, rfl, by rw [← h1]; exact accepts_flags x hx _ _ _ _ _, (ih' _ _ v).2 h2⟩

theorem accepts_alternateOf (alts : List Rx) (hne : alts ≠ []) (b e : Bool) (w : Str) :
    (alternateOf alts).accepts b w e = true ↔ ∃ a ∈ alts, a.accepts b w e = true := by
  induction alts with
  | nil => exact absurd rfl hne
  | cons x rest ih =>
    cases rest with
    | nil => simp [alternateOf]
    | cons y ys =>
      have ih' := ih (by simp)
      simp only [alternateOf] at ih' ⊢
      simp only [Rx.accepts, Bool.or_eq_true, ih', List.mem_cons, exists_eq_or_imp]

theorem matchString_anchored (src : Str) (alts : List Rx)
    (h : ∀ a ∈ alts, a.anchorFree = true) (s : Str) :
    Regexp.MatchString ⟨src, anchored alts⟩ s = true ↔
      (alternateOf alts).accepts false s false = true := by
  have hX := anchorFree_alternateOf alts h
  simp only [Regexp.MatchString, any_splits, anchored, accepts_concat, Rx.accepts,
    Bool.and_eq_true, List.isEmpty_iff]
  constructor
  · rintro ⟨pre, rest, rfl, mid, post, rfl, u, v, rfl, ⟨hpre, hu⟩, u', v', rfl, hacc, hpost, hv'⟩
    subst hpre hu hpost hv'
    simp only [List.nil_append, List.append_nil]
    rw [← hacc]
    exact accepts_flags _ hX _ _ _ _ _
  · intro hacc
    refine ⟨[], s, rfl, s, [], by simp, [], s, rfl, ⟨rfl, rfl⟩, s, [], by simp, ?_, rfl, rfl⟩
    rw [← hacc]
    exact accepts_flags _ hX _ _ _ _ _

theorem char_range_single (a x : Char) : (a ≤ x ∧ x ≤ a) ↔ x = a :=
  ⟨fun h => le_antisymm h.2 h.1, fun h => by subst h; exact ⟨le_refl _, le_refl _⟩⟩

theorem inRanges_fqdnClass (x : Char) : inRanges fqdnClass x = isFQDNWordRune x := by
  rw [Bool.eq_iff_iff]
  simp only [inRanges, fqdnClass, List.any_cons, List.any_nil, Bool.or_false, Bool.or_eq_true,
    Bool.and_eq_true, decide_eq_true_eq, isFQDNWordRune, beq_iff_eq, char_range_single]
  tauto

theorem inRanges_labelClass (x : Char) : inRanges labelClass x = isLabelRune x := by
  rw [Bool.eq_iff_iff]
  simp only [inRanges, labelClass, List.any_cons, List.any_nil, Bool.or_false, Bool.or_eq_true,
    Bool.and_eq_true, decide_eq_true_eq, isLabelRune, beq_iff_eq, char_range_single]
  tauto

theorem splitOn_star_cons (r : Char) (rest : Str) :
    (r :: rest).splitOn '*'
      = if r = '*' then [] :: rest.splitOn '*'
        else (rest.splitOn '*').modifyHead (List.cons r) := by
  simp only [List.splitOn, List.splitOnP_cons, beq_iff_eq]

theorem splitOn_star_ne_nil (c : Str) : c.splitOn '*' ≠ [] := List.splitOnP_ne_nil _ _

theorem interleaves_cons_head (r : Char) (u : Str) (us : List Str) (s : Str) :
    interleaves ((r :: u) :: us) s ↔ ∃ v, s = r :: v ∧ interleaves (u :: us) v := by
  cases us with
  | nil =>
    simp only [interleaves]
    constructor
    · rintro rfl; exact ⟨u, rfl, rfl⟩
    · rintro ⟨v, rfl, rfl⟩; rfl
  | cons u' us' =>
    simp only [interleaves]
    constructor
    · rintro ⟨w, v, rfl, hw, hv⟩
      exact ⟨u ++ w ++ v, by simp, w, v, rfl, hw, hv⟩
    · rintro ⟨v', rfl, w, v, rfl, hw, hv⟩
      exact ⟨w, v, by simp, hw, hv⟩

theorem seqAccepts_fqdn (c : Str) : ∀ s : Str,
    seqAccepts (c.map fqdnItem) s ↔ fqdnGlob c s := by
  unfold fqdnGlob
  induction c with
  | nil =>
    intro s
    simp [seqAccepts, interleaves, List.splitOn_nil]
  | cons r rest ih =>
    intro s
    rw [splitOn_star_cons]
    obtain ⟨u, us, hsplit⟩ := List.exists_cons_of_ne_nil (splitOn_star_ne_nil rest)
    simp only [List.map_cons, seqAccepts]
    by_cases hr : r = '*'
    · subst hr
      simp only [if_true, fqdnItem, hsplit, interleaves, List.nil_append]
      constructor
      · rintro ⟨w, v, rfl, hw, hv⟩
        refine ⟨w, v, rfl, ?_, ?_⟩
        · intro x hx
          rw [← inRanges_fqdnClass]
          exact (accepts_star_charClass fqdnClass false false w).1 hw x hx
        · rw [← hsplit]; exact (ih v).1 hv
      · rintro ⟨w, v, rfl, hw, hv⟩
        refine ⟨w, v, rfl, ?_, ?_⟩
        · apply (accepts_star_charClass fqdnClass false false w).2
          intro x hx
          rw [inRanges_fqdnClass]
          exact hw x hx
        · apply (ih v).2; rw [hsplit]; exact hv
    · simp only [hr, if_false, fqdnItem, hsplit, List.modifyHead_cons, interleaves_cons_head,
        accepts_literal]
      constructor
      · rintro ⟨w, v, rfl, rfl, hv⟩
        exact ⟨v, rfl, by rw [← hsplit]; exact (ih v).1 hv⟩
      · rintro ⟨v, rfl, hv⟩
        exact ⟨[r], v, rfl, rfl, (ih v).2 (by rw [hsplit]; exact hv)⟩

theorem anchorFree_fqdnItem (r : Char) : (fqdnItem r).anchorFree = true := by
  unfold fqdnItem
  split <;> rfl

theorem anchorFree_tokenRx (t : Token) : t.rx.anchorFree = true := by
  cases t <;> rfl

/-! ## Claims on matching -/

theorem compileFQDNPattern_some {limits : Limits} (tab : Char → Char) (ps : List Str) (re : Regexp)
    (h : compileFQDNPattern limits tab ps = (some re, none)) :
    ps.findSome? (fqdnPatternError tab) = none ∧ re = ⟨fqdnSource tab ps, fqdnRx tab ps⟩ := by
  rw [compileFQDNPattern_eq] at h
  cases he : ps.findSome? (fqdnPatternError tab) with
  | some e => rw [he] at h; simp at h
  | none =>
    rw [he] at h
    cases hl : limits (fqdnSource tab ps) with
    | some code => rw [hl] at h; simp at h
    | none =>
      rw [hl] at h
      simp only [Prod.mk.injEq, Option.some.injEq, and_true] at h
      exact ⟨rfl, h.symm⟩

theorem compileFQDNPattern_some_limits {limits : Limits} (tab : Char → Char) (ps : List Str)
    (re : Regexp) (h : compileFQDNPattern limits tab ps = (some re, none)) :
    limits (fqdnSource tab ps) = none := by
  rw [compileFQDNPattern_eq] at h
  cases he : ps.findSome? (fqdnPatternError tab) with
  | some e => rw [he] at h; simp at h
  | none =>
    rw [he] at h
    cases hl : limits (fqdnSource tab ps) with
    | some code => rw [hl] at h; simp at h
    | none => rfl

theorem compileNodeNamePattern_some {limits : Limits} (ps : List (List Nat)) (re : Regexp)
    (h : compileNodeNamePattern limits ps = (some re, none)) :
    ps.findSome? nodeNamePatternError = none ∧ re = ⟨nodeNameSource ps, nodeNameRx ps⟩ := by
  rw [compileNodeNamePattern_eq] at h
  cases he : ps.findSome? nodeNamePatternError with
  | some e => rw [he] at h; simp at h
  | none =>
    rw [he] at h
    cases hl : limits (nodeNameSource ps) with
    | some code => rw [hl] at h; simp at h
    | none =>
      rw [hl] at h
      simp only [Prod.mk.injEq, Option.some.injEq, and_true] at h
      exact ⟨rfl, h.symm⟩

theorem compileNodeNamePattern_some_limits {limits : Limits} (ps : List (List Nat))
    (re : Regexp) (h : compileNodeNamePattern limits ps = (some re, none)) :
    limits (nodeNameSource ps) = none := by
  rw [compileNodeNamePattern_eq] at h
  cases he : ps.findSome? nodeNamePatternError with
  | some e => rw [he] at h; simp at h
  | none =>
    rw [he] at h
    cases hl : limits (nodeNameSource ps) with
    | some code => rw [hl] at h; simp at h
    | none => rfl

theorem matchString_fqdn (tab : Char → Char) (ps : List Str) (hne : ps ≠ []) (src s : Str) :
    Regexp.MatchString ⟨src, fqdnRx tab ps⟩ s = true ↔
      ∃ p ∈ ps, fqdnGlob (canonicalizeFQDNPattern tab p) s := by
  unfold fqdnRx
  rw [matchString_anchored, accepts_alternateOf _ (by simpa using hne)]
  · simp only [List.mem_map, exists_exists_and_eq_and]
    constructor
    · rintro ⟨p, hp, hacc⟩
      refine ⟨p, hp, (seqAccepts_fqdn _ s).1 ?_⟩
      exact (accepts_concatOf _ (by simp [anchorFree_fqdnItem]) _ _ s).1 hacc
    · rintro ⟨p, hp, hg⟩
      refine ⟨p, hp, ?_⟩
      exact (accepts_concatOf _ (by simp [anchorFree_fqdnItem]) _ _ s).2
        ((seqAccepts_fqdn _ s).2 hg)
  · intro a ha
    obtain ⟨p, _, rfl⟩ := List.mem_map.1 ha
    exact anchorFree_concatOf _ (by simp [anchorFree_fqdnItem])

/-- C8, the claim as stated fails on the empty pattern list: it compiles to
`\A(?:)\z`, which matches the empty string although the list holds no pattern. -/
theorem fqdn_glob_empty_list_counterexample :
    ∃ re, compileFQDNPattern unlimited asciiCaseTable [] = (some re, none)
      ∧ re.expr = "\\A(?:)\\z".toList
      ∧ re.MatchString [] = true
      ∧ ¬ ∃ p ∈ ([] : List Str), fqdnGlob (canonicalizeFQDNPattern asciiCaseTable p) [] :=
  ⟨⟨fqdnSource asciiCaseTable [], fqdnRx asciiCaseTable []⟩, by decide, by decide, by decide,
    by simp⟩

/-- C8, amended: the matcher compiled from a non-empty list of FQDN patterns
implements whole-string glob matching.  It matches `s` exactly when, for some
pattern of the list, `s` is the literal pieces of the canonical form (the form
split at its `*` runes) with words over `a-z`, `0-9`, `-`, `.` in between; the
whole of `s` is consumed. -/
theorem compileFQDNPattern_glob (limits : Limits) (caseTable : Char → Char) (fqdnPatterns : List Str)
    (re : Regexp) (s : Str) (hne : fqdnPatterns ≠ [])
    (h : compileFQDNPattern limits caseTable fqdnPatterns = (some re, none)) :
    re.MatchString s = true ↔
      ∃ p ∈ fqdnPatterns, fqdnGlob (canonicalizeFQDNPattern caseTable p) s := by
  obtain ⟨_, rfl⟩ := compileFQDNPattern_some caseTable fqdnPatterns re h
  exact matchString_fqdn caseTable fqdnPatterns hne _ s

theorem compileFQDNPattern_glob_witness :
    ["*.cilium.io".toList, "EBPF.io.".toList] ≠ []
      ∧ compileFQDNPattern unlimited asciiCaseTable ["*.cilium.io".toList, "EBPF.io.".toList]
          = (some ⟨"\\A(?:[\\-\\.0-9a-z]*\\.cilium\\.io|ebpf\\.io)\\z".toList,
              fqdnRx asciiCaseTable ["*.cilium.io".toList, "EBPF.io.".toList]⟩, none)
      ∧ (Regexp.MatchString ⟨"\\A(?:[\\-\\.0-9a-z]*\\.cilium\\.io|ebpf\\.io)\\z".toList,
            fqdnRx asciiCaseTable ["*.cilium.io".toList, "EBPF.io.".toList]⟩
            "www.cilium.io".toList = true ↔
          ∃ p ∈ ["*.cilium.io".toList, "EBPF.io.".toList],
            fqdnGlob (canonicalizeFQDNPattern asciiCaseTable p) "www.cilium.io".toList) :=
  ⟨by decide, by decide,
    compileFQDNPattern_glob unlimited asciiCaseTable
      ["*.cilium.io".toList, "EBPF.io.".toList] _
      "www.cilium.io".toList (by decide) (by decide)⟩

theorem accepts_labelPlus (b e : Bool) (w : Str) :
    (Rx.plus (.charClass labelClass)).accepts b w e = true ↔
      w ≠ [] ∧ ∀ x ∈ w, isLabelRune x = true := by
  rw [accepts_plus_charClass]
  simp only [inRanges_labelClass]

theorem accepts_dotLabel (b e : Bool) (w : Str) :
    (Rx.concat (.literal '.') (.plus (.charClass labelClass))).accepts b w e = true ↔
      ∃ l, w = '.' :: l ∧ l ≠ [] ∧ ∀ x ∈ l, isLabelRune x = true := by
  rw [accepts_concat]
  simp only [accepts_literal, accepts_labelPlus]
  constructor
  · rintro ⟨u, v, rfl, rfl, hv⟩; exact ⟨v, rfl, hv⟩
  · rintro ⟨l, rfl, hl⟩; exact ⟨['.'], l, rfl, rfl, hl⟩

theorem flatten_dotLabels (pieces : List Str)
    (h : ∀ u ∈ pieces, ∃ l, u = '.' :: l ∧ l ≠ [] ∧ ∀ x ∈ l, isLabelRune x = true) :
    ∃ ls : List Str, pieces.flatten = ls.flatMap (fun l => ".".toList ++ l)
      ∧ ∀ l ∈ ls, l ≠ [] ∧ ∀ x ∈ l, isLabelRune x = true := by
  induction pieces with
  | nil => exact ⟨[], rfl, by simp⟩
  | cons u ps ih =>
    obtain ⟨l, rfl, hl⟩ := h u (List.mem_cons_self _ _)
    obtain ⟨ls, e, hls⟩ := ih fun v hv => h v (List.mem_cons_of_mem _ hv)
    refine ⟨l :: ls, by simp [e], ?_⟩
    intro x hx
    rcases List.mem_cons.1 hx with rfl | hx
    · exact hl
    · exact hls x hx

theorem accepts_dotLabelStar (b e : Bool) (v : Str) :
    (Rx.star (.concat (.literal '.') (.plus (.charClass labelClass)))).accepts b v e = true ↔
      ∃ ls : List Str, v = ls.flatMap (fun l => ".".toList ++ l)
        ∧ ∀ l ∈ ls, l ≠ [] ∧ ∀ x ∈ l, isLabelRune x = true := by
  rw [accepts_star (.concat (.literal '.') (.plus (.charClass labelClass))) rfl]
  constructor
  · rintro ⟨pieces, rfl, hp⟩
    exact flatten_dotLabels pieces fun u hu => (accepts_dotLabel false false u).1 (hp u hu).2
  · rintro ⟨ls, rfl, hls⟩
    refine ⟨ls.map fun l => ".".toList ++ l, by simp [List.flatMap], ?_⟩
    intro u hu
    obtain ⟨l, hl, rfl⟩ := List.mem_map.1 hu
    exact ⟨by simp, (accepts_dotLabel false false _).2 ⟨l, rfl, hls l hl⟩⟩

theorem accepts_doubleStar (w : Str) :
    (Token.rx .doubleStar).accepts false w false = true ↔ isLabels w := by
  unfold Token.rx isLabels
  rw [accepts_concat]
  simp only [Bool.false_and, accepts_labelPlus, accepts_dotLabelStar]
  constructor
  · rintro ⟨u, v, rfl, hu, ls, rfl, hls⟩
    refine ⟨u :: ls, by simp, ?_, by rw [intercalate_cons]⟩
    intro l hl
    rcases List.mem_cons.1 hl with rfl | hl
    · exact hu
    · exact hls l hl
  · rintro ⟨labels, hne, hl, rfl⟩
    cases labels with
    | nil => exact absurd rfl hne
    | cons u ls =>
      exact ⟨u, ls.flatMap fun l => ".".toList ++ l, by rw [intercalate_cons],
        hl u (List.mem_cons_self _ _), ls, rfl, fun l h => hl l (List.mem_cons_of_mem _ h)⟩

theorem accepts_token (t : Token) (w : Str) :
    t.rx.accepts false w false = true ↔ t.Matches w := by
  cases t with
  | byte b => simp only [Token.rx, Token.Matches, accepts_literal]
  | star =>
    simp only [Token.rx, Token.Matches, accepts_star_charClass, inRanges_labelClass]
  | doubleStar => exact accepts_doubleStar w

theorem seqAccepts_tokens (ts : List Token) : ∀ s : Str,
    seqAccepts (ts.map Token.rx) s ↔
      ∃ pieces : List Str, s = pieces.flatten ∧ List.Forall₂ Token.Matches ts pieces := by
  induction ts with
  | nil =>
    intro s
    simp only [List.map_nil, seqAccepts, List.forall₂_nil_left_iff]
    constructor
    · rintro rfl; exact ⟨[], rfl, rfl⟩
    · rintro ⟨_, rfl, rfl⟩; rfl
  | cons t rest ih =>
    intro s
    simp only [List.map_cons, seqAccepts, accepts_token, ih]
    constructor
    · rintro ⟨u, v, rfl, hu, pieces, rfl, hp⟩
      exact ⟨u :: pieces, rfl, List.Forall₂.cons hu hp⟩
    · rintro ⟨pieces, rfl, hp⟩
      cases hp with
      | cons hu hp' => exact ⟨_, _, rfl, hu, _, rfl, hp'⟩

theorem matchString_nodeName (ps : List (List Nat)) (hne : ps ≠ []) (src s : Str) :
    Regexp.MatchString ⟨src, nodeNameRx ps⟩ s = true ↔ ∃ p ∈ ps, nodeNameGlob p s := by
  unfold nodeNameRx nodeNameGlob
  rw [matchString_anchored, accepts_alternateOf _ (by simpa using hne)]
  · simp only [List.mem_map, exists_exists_and_eq_and]
    constructor
    · rintro ⟨p, hp, hacc⟩
      refine ⟨p, hp, (seqAccepts_tokens _ s).1 ?_⟩
      exact (accepts_concatOf _ (by simp [anchorFree_tokenRx]) _ _ s).1 hacc
    · rintro ⟨p, hp, hg⟩
      refine ⟨p, hp, ?_⟩
      exact (accepts_concatOf _ (by simp [anchorFree_tokenRx]) _ _ s).2
        ((seqAccepts_tokens _ s).2 hg)
  · intro a ha
    obtain ⟨p, _, rfl⟩ := List.mem_map.1 ha
    exact anchorFree_concatOf _ (by simp [anchorFree_tokenRx])

theorem matchString_single (src : Str) (a : Rx) (h : a.anchorFree = true) (s : Str) :
    Regexp.MatchString ⟨src, anchored [a]⟩ s = a.accepts false s false := by
  rw [Bool.eq_iff_iff, matchString_anchored _ _ (by simpa using h)]
  rfl

theorem matchString_nodeName_single (src : Str) (p : List Nat) (s : Str) :
    Regexp.MatchString ⟨src, nodeNameRx [p]⟩ s
      = (concatOf ((tokens p).map Token.rx)).accepts false s false :=
  matchString_single src _ (anchorFree_concatOf _ (by simp [anchorFree_tokenRx])) s

/-- C9, the claim as stated fails on the empty pattern list: it compiles to
`\A(?:)\z`, which matches the empty string although the list holds no pattern. -/
theorem nodeName_glob_empty_list_counterexample :
    ∃ re, compileNodeNamePattern unlimited [] = (some re, none)
      ∧ re.expr = "\\A(?:)\\z".toList
      ∧ re.MatchString [] = true
      ∧ ¬ ∃ p ∈ ([] : List (List Nat)), nodeNameGlob p [] :=
  ⟨⟨nodeNameSource [], nodeNameRx []⟩, by decide, by decide, by decide, by simp⟩

/-- C9, amended: the matcher compiled from a non-empty list of node-name
patterns implements the documented glob semantics on the whole candidate.  It
matches `s` exactly when, for some pattern of the list, `s` can be cut into
consecutive pieces, one per token: a literal token matched by itself, a single
star by zero or more runes of `a-z`, `0-9`, `-`, a double star by one or more
non-empty labels over these runes separated by single dots.  The matchers of
`k8s*` and of `cluster-name/**.com` behave as in the tests. -/
theorem compileNodeNamePattern_glob (limits : Limits) (nodeNamePatterns : List (List Nat)) (re : Regexp)
    (s : Str) (hne : nodeNamePatterns ≠ [])
    (h : compileNodeNamePattern limits nodeNamePatterns = (some re, none)) :
    (re.MatchString s = true ↔ ∃ p ∈ nodeNamePatterns, nodeNameGlob p s)
      ∧ (∃ k8s, compileNodeNamePattern unlimited [bytes "k8s*".toList] = (some k8s, none)
          ∧ k8s.MatchString "k8s1".toList = true
          ∧ k8s.MatchString "runtime1".toList = false)
      ∧ (∃ com, compileNodeNamePattern unlimited [bytes "cluster-name/**.com".toList]
            = (some com, none)
          ∧ com.MatchString "cluster-name/foo.com".toList = true
          ∧ com.MatchString "cluster-name/foo.bar.com".toList = true
          ∧ com.MatchString "cluster-name/foo.com.org".toList = false) := by
  refine ⟨?_, ?_, ?_⟩
  · obtain ⟨_, rfl⟩ := compileNodeNamePattern_some nodeNamePatterns re h
    exact matchString_nodeName nodeNamePatterns hne _ s
  · refine ⟨⟨nodeNameSource [bytes "k8s*".toList], nodeNameRx [bytes "k8s*".toList]⟩,
      by decide, ?_, ?_⟩
    · rw [matchString_nodeName_single]; decide
    · rw [matchString_nodeName_single]; decide
  · refine ⟨⟨nodeNameSource [bytes "cluster-name/**.com".toList],
      nodeNameRx [bytes "cluster-name/**.com".toList]⟩, by decide, ?_, ?_, ?_⟩
    · rw [matchString_nodeName_single]; decide
    · rw [matchString_nodeName_single]; decide
    · rw [matchString_nodeName_single]; decide

theorem compileNodeNamePattern_glob_witness :
    [bytes "k8s*".toList, bytes "a/**".toList] ≠ []
      ∧ compileNodeNamePattern unlimited [bytes "k8s*".toList, bytes "a/**".toList]
          = (some ⟨"\\A(?:k8s[\\-0-9a-z]*|a/(?:[\\-0-9a-z]+(?:\\.(?:[\\-0-9a-z]+))*))\\z".toList,
              nodeNameRx [bytes "k8s*".toList, bytes "a/**".toList]⟩, none)
      ∧ (Regexp.MatchString
            ⟨"\\A(?:k8s[\\-0-9a-z]*|a/(?:[\\-0-9a-z]+(?:\\.(?:[\\-0-9a-z]+))*))\\z".toList,
              nodeNameRx [bytes "k8s*".toList, bytes "a/**".toList]⟩ "a/b.c".toList = true ↔
          ∃ p ∈ [bytes "k8s*".toList, bytes "a/**".toList], nodeNameGlob p "a/b.c".toList) :=
  ⟨by decide, by decide,
    (compileNodeNamePattern_glob unlimited [bytes "k8s*".toList, bytes "a/**".toList] _
      "a/b.c".toList
      (by decide) (by decide)).1⟩

theorem compileNodeNamePattern_single_eq {limits : Limits} (p : List Nat)
    (h : nodeNamePatternError p = none) (hl : limits (nodeNameSource [p]) = none) :
    compileNodeNamePattern limits [p] = (some ⟨nodeNameSource [p], nodeNameRx [p]⟩, none) := by
  rw [compileNodeNamePattern_eq]
  simp only [List.findSome?_cons, List.findSome?_nil, h, hl]

theorem compileFQDNPattern_single_eq {limits : Limits} (tab : Char → Char) (p : Str)
    (h : fqdnPatternError tab p = none) (hl : limits (fqdnSource tab [p]) = none) :
    compileFQDNPattern limits tab [p] = (some ⟨fqdnSource tab [p], fqdnRx tab [p]⟩, none) := by
  rw [compileFQDNPattern_eq]
  simp only [List.findSome?_cons, List.findSome?_nil, h, hl]

theorem findSome?_none_perm {α β : Type} (f : α → Option β) (l l' : List α)
    (hp : l'.Perm l) (h : l.findSome? f = none) : l'.findSome? f = none := by
  rw [findSome?_eq_none_iff'] at h ⊢
  exact fun a ha => h a (hp.mem_iff.1 ha)

/-- C10: a matcher compiled from a non-empty list of patterns is the disjunction
of the matchers of the single patterns, for node-name and for FQDN patterns
alike: when every pattern of the list compiles on its own, the matcher of the
list matches `s` exactly when, for some pattern `p` of the list, the matcher
compiled from `[p]` matches `s`.  A pattern of an accepted list can fail to
compile on its own only by the limits of the library, and every reordering of
the list either compiles, and then matches the same strings, or is refused by
the library for its size. -/
theorem compile_disjunction (limits : Limits) (caseTable : Char → Char) :
    (∀ (ps : List (List Nat)) (re : Regexp) (s : Str), ps ≠ [] →
      compileNodeNamePattern limits ps = (some re, none) →
        ((∀ p ∈ ps, (compileNodeNamePattern limits [p]).2 = none) →
          (re.MatchString s = true ↔
            ∃ p ∈ ps, ∃ re', compileNodeNamePattern limits [p] = (some re', none)
              ∧ re'.MatchString s = true))
        ∧ (∀ p ∈ ps, (∃ re', compileNodeNamePattern limits [p] = (some re', none))
            ∨ ∃ code expr,
                compileNodeNamePattern limits [p] = (none, some (.regexpLimit code expr)))
        ∧ ∀ ps' : List (List Nat), ps'.Perm ps →
            (∃ re', compileNodeNamePattern limits ps' = (some re', none)
              ∧ re'.MatchString s = re.MatchString s)
            ∨ ∃ code expr,
                compileNodeNamePattern limits ps' = (none, some (.regexpLimit code expr)))
    ∧ (∀ (ps : List Str) (re : Regexp) (s : Str), ps ≠ [] →
      compileFQDNPattern limits caseTable ps = (some re, none) →
        ((∀ p ∈ ps, (compileFQDNPattern limits caseTable [p]).2 = none) →
          (re.MatchString s = true ↔
            ∃ p ∈ ps, ∃ re', compileFQDNPattern limits caseTable [p] = (some re', none)
              ∧ re'.MatchString s = true))
        ∧ (∀ p ∈ ps, (∃ re', compileFQDNPattern limits caseTable [p] = (some re', none))
            ∨ ∃ code expr,
                compileFQDNPattern limits caseTable [p]
                  = (none, some (.regexpLimit code expr)))
        ∧ ∀ ps' : List Str, ps'.Perm ps →
            (∃ re', compileFQDNPattern limits caseTable ps' = (some re', none)
              ∧ re'.MatchString s = re.MatchString s)
            ∨ ∃ code expr,
                compileFQDNPattern limits caseTable ps'
                  = (none, some (.regexpLimit code expr))) := by
  constructor
  · intro ps re s hne h
    obtain ⟨he, rfl⟩ := compileNodeNamePattern_some ps re h
    have hall := (findSome?_eq_none_iff' _ _).1 he
    constructor
    · intro hs
      have hacc : ∀ p ∈ ps, compileNodeNamePattern limits [p]
          = (some ⟨nodeNameSource [p], nodeNameRx [p]⟩, none) := by
        intro p hp
        have h2 := hs p hp
        rw [compileNodeNamePattern_eq] at h2 ⊢
        simp only [List.findSome?_cons, List.findSome?_nil, hall p hp] at h2 ⊢
        revert h2
        cases limits (nodeNameSource [p]) with
        | some code => intro h2; cases h2
        | none => intro _; rfl
      rw [matchString_nodeName ps hne]
      constructor
      · rintro ⟨p, hp, hg⟩
        exact ⟨p, hp, _, hacc p hp,
          (matchString_nodeName [p] (by simp) _ s).2 ⟨p, by simp, hg⟩⟩
      · rintro ⟨p, hp, re', hre', hm⟩
        obtain ⟨_, rfl⟩ := compileNodeNamePattern_some [p] re' hre'
        obtain ⟨q, hq, hg⟩ := (matchString_nodeName [p] (by simp) _ s).1 hm
        rw [List.mem_singleton] at hq
        subst hq
        exact ⟨q, hp, hg⟩
    refine ⟨?_, ?_⟩
    · intro p hp
      have he1 : [p].findSome? nodeNamePatternError = none := by
        simp only [List.findSome?_cons, List.findSome?_nil, hall p hp]
      cases hl : limits (nodeNameSource [p]) with
      | some code => exact Or.inr ⟨code, _, compileNodeNamePattern_refused [p] code he1 hl⟩
      | none => exact Or.inl ⟨_, compileNodeNamePattern_accepted [p] he1 hl⟩
    · intro ps' hperm
      have he' := findSome?_none_perm _ ps ps' hperm he
      have hne' : ps' ≠ [] := fun e => hne (by rw [e] at hperm; exact hperm.symm.eq_nil)
      cases hl : limits (nodeNameSource ps') with
      | some code =>
        exact Or.inr ⟨code, _, compileNodeNamePattern_refused ps' code he' hl⟩
      | none =>
        refine Or.inl ⟨⟨nodeNameSource ps', nodeNameRx ps'⟩,
          compileNodeNamePattern_accepted ps' he' hl, ?_⟩
        rw [Bool.eq_iff_iff, matchString_nodeName ps' hne', matchString_nodeName ps hne]
        exact ⟨fun ⟨p, hp, hg⟩ => ⟨p, hperm.mem_iff.1 hp, hg⟩,
          fun ⟨p, hp, hg⟩ => ⟨p, hperm.mem_iff.2 hp, hg⟩⟩
  · intro ps re s hne h
    obtain ⟨he, rfl⟩ := compileFQDNPattern_some caseTable ps re h
    have hall := (findSome?_eq_none_iff' _ _).1 he
    constructor
    · intro hs
      have hacc : ∀ p ∈ ps, compileFQDNPattern limits caseTable [p]
          = (some ⟨fqdnSource caseTable [p], fqdnRx caseTable [p]⟩, none) := by
        intro p hp
        have h2 := hs p hp
        rw [compileFQDNPattern_eq] at h2 ⊢
        simp only [List.findSome?_cons, List.findSome?_nil, hall p hp] at h2 ⊢
        revert h2
        cases limits (fqdnSource caseTable [p]) with
        | some code => intro h2; cases h2
        | none => intro _; rfl
      rw [matchString_fqdn caseTable ps hne]
      constructor
      · rintro ⟨p, hp, hg⟩
        exact ⟨p, hp, _, hacc p hp,
          (matchString_fqdn caseTable [p] (by simp) _ s).2 ⟨p, by simp, hg⟩⟩
      · rintro ⟨p, hp, re', hre', hm⟩
        obtain ⟨_, rfl⟩ := compileFQDNPattern_some caseTable [p] re' hre'
        obtain ⟨q, hq, hg⟩ := (matchString_fqdn caseTable [p] (by simp) _ s).1 hm
        rw [List.mem_singleton] at hq
        subst hq
        exact ⟨q, hp, hg⟩
    refine ⟨?_, ?_⟩
    · intro p hp
      have he1 : [p].findSome? (fqdnPatternError caseTable) = none := by
        simp only [List.findSome?_cons, List.findSome?_nil, hall p hp]
      cases hl : limits (fqdnSource caseTable [p]) with
      | some code =>
        exact Or.inr ⟨code, _, compileFQDNPattern_refused caseTable [p] code he1 hl⟩
      | none => exact Or.inl ⟨_, compileFQDNPattern_accepted caseTable [p] he1 hl⟩
    · intro ps' hperm
      have he' := findSome?_none_perm _ ps ps' hperm he
      have hne' : ps' ≠ [] := fun e => hne (by rw [e] at hperm; exact hperm.symm.eq_nil)
      cases hl : limits (fqdnSource caseTable ps') with
      | some code =>
        exact Or.inr ⟨code, _, compileFQDNPattern_refused caseTable ps' code he' hl⟩
      | none =>
        refine Or.inl ⟨⟨fqdnSource caseTable ps', fqdnRx caseTable ps'⟩,
          compileFQDNPattern_accepted caseTable ps' he' hl, ?_⟩
        rw [Bool.eq_iff_iff, matchString_fqdn caseTable ps' hne',
          matchString_fqdn caseTable ps hne]
        exact ⟨fun ⟨p, hp, hg⟩ => ⟨p, hperm.mem_iff.1 hp, hg⟩,
          fun ⟨p, hp, hg⟩ => ⟨p, hperm.mem_iff.2 hp, hg⟩⟩

theorem compile_disjunction_witness :
    ((Regexp.MatchString ⟨nodeNameSource [bytes "k8s1".toList, bytes "runtime*".toList],
          nodeNameRx [bytes "k8s1".toList, bytes "runtime*".toList]⟩ "runtime1".toList = true ↔
        ∃ p ∈ [bytes "k8s1".toList, bytes "runtime*".toList], ∃ re',
          compileNodeNamePattern unlimited [p] = (some re', none)
            ∧ re'.MatchString "runtime1".toList = true)
      ∧ ∀ ps' : List (List Nat), ps'.Perm [bytes "k8s1".toList, bytes "runtime*".toList] →
          (∃ re', compileNodeNamePattern unlimited ps' = (some re', none)
            ∧ re'.MatchString "runtime1".toList
              = Regexp.MatchString ⟨nodeNameSource [bytes "k8s1".toList, bytes "runtime*".toList],
                  nodeNameRx [bytes "k8s1".toList, bytes "runtime*".toList]⟩ "runtime1".toList)
          ∨ ∃ code expr,
              compileNodeNamePattern unlimited ps' = (none, some (.regexpLimit code expr)))
    ∧ ((Regexp.MatchString ⟨fqdnSource asciiCaseTable ["cilium.io".toList, "*.io".toList],
          fqdnRx asciiCaseTable ["cilium.io".toList, "*.io".toList]⟩ "ebpf.io".toList = true ↔
        ∃ p ∈ ["cilium.io".toList, "*.io".toList], ∃ re',
          compileFQDNPattern unlimited asciiCaseTable [p] = (some re', none)
            ∧ re'.MatchString "ebpf.io".toList = true)
      ∧ ∀ ps' : List Str, ps'.Perm ["cilium.io".toList, "*.io".toList] →
          (∃ re', compileFQDNPattern unlimited asciiCaseTable ps' = (some re', none)
            ∧ re'.MatchString "ebpf.io".toList
              = Regexp.MatchString ⟨fqdnSource asciiCaseTable ["cilium.io".toList, "*.io".toList],
                  fqdnRx asciiCaseTable ["cilium.io".toList, "*.io".toList]⟩ "ebpf.io".toList)
          ∨ ∃ code expr,
              compileFQDNPattern unlimited asciiCaseTable ps'
                = (none, some (.regexpLimit code expr))) :=
  have h1 := (compile_disjunction unlimited asciiCaseTable).1
    [bytes "k8s1".toList, bytes "runtime*".toList] _ "runtime1".toList (by decide) (by decide)
  have h2 := (compile_disjunction unlimited asciiCaseTable).2
    ["cilium.io".toList, "*.io".toList] _ "ebpf.io".toList (by decide) (by decide)
  ⟨⟨h1.1 (by decide), h1.2.2⟩, ⟨h2.1 (by decide), h2.2.2⟩⟩

/-! ## `Version.String` -/

/-- C20: `Version.String` is determined by the three fields: empty if
`component` is empty; `component` if `Core` is empty; `component + " v" + Core`
if `Revision` is empty; `component + " v" + Core + "-g" + Revision` otherwise.
Hence the result is empty exactly when `component` is empty, and `component` is
always an initial part of the result. -/
theorem version_string (v : Version) :
    (v.component = [] → v.String = [])
      ∧ (v.component ≠ [] → v.Core = [] → v.String = v.component)
      ∧ (v.component ≠ [] → v.Core ≠ [] → v.Revision = [] →
          v.String = v.component ++ " v".toList ++ v.Core)
      ∧ (v.component ≠ [] → v.Core ≠ [] → v.Revision ≠ [] →
          v.String = v.component ++ " v".toList ++ v.Core ++ "-g".toList ++ v.Revision)
      ∧ (v.String = [] ↔ v.component = [])
      ∧ v.component <+: v.String := by
  obtain ⟨c, k, r⟩ := v
  simp only [Version.String]
  by_cases hc : c = []
  · subst hc; simp
  by_cases hk : k = []
  · subst hk; simp [hc]
  by_cases hr : r = []
  · subst hr
    simp [hc, hk, List.append_assoc]
  · simp [hc, hk, hr, List.append_assoc]

/-! ## Further claims on the compilers -/

theorem canonical_fixed (tab : Char → Char) (c : Str) (hne : c ≠ [])
    (hdot : c.getLast? ≠ some '.') (halpha : ∀ r ∈ c, isFQDNRune r = true) :
    canonicalizeFQDNPattern tab c = c := by
  have hrefl : List.Forall₂ (fun x y => y = x ∨ y = x.toUpper) c c :=
    List.forall₂_same.2 fun x _ => Or.inl rfl
  have hc := canonicalize_variant tab c c 0 0 false hne hdot halpha hrefl
  simpa using hc

/-- C19: the canonical form of every accepted FQDN pattern is a fixed point of
canonicalization, and compiling the canonical form succeeds with the same
expression as compiling the pattern. -/
theorem canonical_form_of_accepted (limits : Limits) (caseTable : Char → Char) (p : Str)
    (re : Regexp) (h : compileFQDNPattern limits caseTable [p] = (some re, none)) :
    canonicalizeFQDNPattern caseTable (canonicalizeFQDNPattern caseTable p)
        = canonicalizeFQDNPattern caseTable p
      ∧ compileFQDNPattern limits caseTable [canonicalizeFQDNPattern caseTable p]
          = (some re, none) := by
  obtain ⟨he, _⟩ := compileFQDNPattern_some caseTable [p] re h
  have hp : fqdnPatternError caseTable p = none :=
    (findSome?_eq_none_iff' _ _).1 he p (List.mem_singleton_self p)
  obtain ⟨h1, h2, h3⟩ := (fqdnPatternError_eq_none caseTable p).1 hp
  have hfix := canonical_fixed caseTable _ h1 h2 h3
  exact ⟨hfix, by rw [compileFQDNPattern_congr_single caseTable _ p hfix, h]⟩

theorem canonical_form_of_accepted_witness :
    compileFQDNPattern unlimited asciiCaseTable ["  *.CILIUM.io.  ".toList]
        = (some ⟨"\\A(?:[\\-\\.0-9a-z]*\\.cilium\\.io)\\z".toList,
            fqdnRx asciiCaseTable ["  *.CILIUM.io.  ".toList]⟩, none)
      ∧ canonicalizeFQDNPattern asciiCaseTable
            (canonicalizeFQDNPattern asciiCaseTable "  *.CILIUM.io.  ".toList)
          = canonicalizeFQDNPattern asciiCaseTable "  *.CILIUM.io.  ".toList
      ∧ compileFQDNPattern unlimited asciiCaseTable
            [canonicalizeFQDNPattern asciiCaseTable "  *.CILIUM.io.  ".toList]
          = (some ⟨"\\A(?:[\\-\\.0-9a-z]*\\.cilium\\.io)\\z".toList,
              fqdnRx asciiCaseTable ["  *.CILIUM.io.  ".toList]⟩, none) :=
  ⟨by decide,
    canonical_form_of_accepted unlimited asciiCaseTable "  *.CILIUM.io.  ".toList _
      (by decide)⟩

theorem seqAccepts_fqdn_alphabet (c : Str) (h : ∀ r ∈ c, isFQDNRune r = true) :
    ∀ s : Str, seqAccepts (c.map fqdnItem) s → ∀ x ∈ s, isFQDNWordRune x = true := by
  induction c with
  | nil =>
    intro s hs x hx
    simp only [List.map_nil, seqAccepts] at hs
    subst hs; cases hx
  | cons r rest ih =>
    intro s hs x hx
    simp only [List.map_cons, seqAccepts] at hs
    obtain ⟨u, v, rfl, hu, hv⟩ := hs
    have hr := h r (List.mem_cons_self _ _)
    rcases List.mem_append.1 hx with hxu | hxv
    · unfold fqdnItem at hu
      by_cases hstar : r = '*'
      · simp only [hstar, if_true] at hu
        rw [← inRanges_fqdnClass]
        exact (accepts_star_charClass fqdnClass false false u).1 hu x hxu
      · simp only [hstar, if_false] at hu
        rw [accepts_literal] at hu
        subst hu
        rw [List.mem_singleton] at hxu
        subst hxu
        simp only [isFQDNRune, Bool.or_eq_true, beq_iff_eq, Bool.and_eq_true,
          decide_eq_true_eq] at hr
        simp only [isFQDNWordRune, Bool.or_eq_true, beq_iff_eq, Bool.and_eq_true,
          decide_eq_true_eq]
        tauto
    · exact ih (fun y hy => h y (List.mem_cons_of_mem _ hy)) v hv x hxv

theorem nodeNameByte_rune_table : ∀ b < 128, isNodeNameByte b = true → b ≠ '*'.toNat →
    isNodeNameRune (Char.ofNat b) = true := by
  decide

theorem isLabelRune_nodeName (x : Char) (h : isLabelRune x = true) :
    isNodeNameRune x = true := by
  simp only [isLabelRune, Bool.or_eq_true, beq_iff_eq, Bool.and_eq_true,
    decide_eq_true_eq] at h
  simp only [isNodeNameRune, Bool.or_eq_true, beq_iff_eq, Bool.and_eq_true,
    decide_eq_true_eq]
  tauto

theorem mem_dotLabels (ls : List Str) (x : Char)
    (hx : x ∈ ls.flatMap fun l => ".".toList ++ l) : x = '.' ∨ ∃ l ∈ ls, x ∈ l := by
  simp only [List.mem_flatMap, List.mem_append, String.toList, List.mem_singleton] at hx
  obtain ⟨l, hl, h | h⟩ := hx
  · exact Or.inl h
  · exact Or.inr ⟨l, hl, h⟩

theorem isLabels_mem (w : Str) (h : isLabels w) (x : Char) (hx : x ∈ w) :
    x = '.' ∨ isLabelRune x = true := by
  obtain ⟨labels, hne, hl, rfl⟩ := h
  cases labels with
  | nil => exact absurd rfl hne
  | cons a ls =>
    rw [intercalate_cons] at hx
    rcases List.mem_append.1 hx with hxa | hxl
    · exact Or.inr ((hl a (List.mem_cons_self _ _)).2 x hxa)
    · rcases mem_dotLabels ls x hxl with h | ⟨l, hlm, hxl'⟩
      · exact Or.inl h
      · exact Or.inr ((hl l (List.mem_cons_of_mem _ hlm)).2 x hxl')

theorem token_matches_alphabet (t : Token) (u : Str) (hm : t.Matches u)
    (hv : ∀ b, t = .byte b → isNodeNameByte b = true ∧ b ≠ '*'.toNat) :
    ∀ x ∈ u, isNodeNameRune x = true := by
  intro x hx
  cases t with
  | byte b =>
    obtain ⟨hb, hs⟩ := hv b rfl
    simp only [Token.Matches] at hm
    subst hm
    rw [List.mem_singleton] at hx
    subst hx
    exact nodeNameByte_rune_table b (isNodeNameByte_lt b hb) hb hs
  | star => exact isLabelRune_nodeName x (hm x hx)
  | doubleStar =>
    rcases isLabels_mem u hm x hx with h | h
    · subst h; decide
    · exact isLabelRune_nodeName x h

theorem forall₂_matches_alphabet (ts : List Token) (pieces : List Str)
    (h : List.Forall₂ Token.Matches ts pieces)
    (hv : ∀ t ∈ ts, ∀ b, t = .byte b → isNodeNameByte b = true ∧ b ≠ '*'.toNat) :
    ∀ x ∈ pieces.flatten, isNodeNameRune x = true := by
  induction h with
  | nil => intro x hx; cases hx
  | @cons t u ts' ps' htu _ ih =>
    intro x hx
    simp only [List.flatten_cons, List.mem_append] at hx
    rcases hx with hx | hx
    · exact token_matches_alphabet t u htu (hv t (List.mem_cons_self _ _)) x hx
    · exact ih (fun t' ht' => hv t' (List.mem_cons_of_mem _ ht')) x hx

theorem nodeNameGlob_alphabet (p : List Nat) (s : Str) (hp : nodeNamePatternError p = none)
    (h : nodeNameGlob p s) : ∀ x ∈ s, isNodeNameRune x = true := by
  obtain ⟨pieces, rfl, hf⟩ := h
  rw [nodeNamePatternError_eq_none] at hp
  apply forall₂_matches_alphabet (tokens p) pieces hf
  rintro t ht b rfl
  have := mem_tokens_byte p b ht
  exact ⟨hp b this.1, this.2⟩

theorem matchString_empty_alts (src s : Str) :
    Regexp.MatchString ⟨src, anchored []⟩ s = true ↔ s = [] := by
  rw [matchString_anchored _ _ (by simp)]
  simp [alternateOf, Rx.accepts]

theorem matched_fqdn_alphabet {limits : Limits} (tab : Char → Char) (ps : List Str) (re : Regexp) (s : Str)
    (h : compileFQDNPattern limits tab ps = (some re, none)) (hm : re.MatchString s = true) :
    ∀ x ∈ s, isFQDNWordRune x = true := by
  obtain ⟨he, rfl⟩ := compileFQDNPattern_some tab ps re h
  by_cases hne : ps = []
  · subst hne
    have : s = [] := (matchString_empty_alts _ s).1 hm
    subst this
    intro x hx; cases hx
  · obtain ⟨p, hp, hg⟩ := (matchString_fqdn tab ps hne _ s).1 hm
    have hv := (fqdnPatternError_eq_none tab p).1 ((findSome?_eq_none_iff' _ _).1 he p hp)
    exact seqAccepts_fqdn_alphabet _ hv.2.2 s ((seqAccepts_fqdn _ s).2 hg)

theorem matched_nodeName_alphabet {limits : Limits} (ps : List (List Nat)) (re : Regexp) (s : Str)
    (h : compileNodeNamePattern limits ps = (some re, none)) (hm : re.MatchString s = true) :
    ∀ x ∈ s, isNodeNameRune x = true := by
  obtain ⟨he, rfl⟩ := compileNodeNamePattern_some ps re h
  by_cases hne : ps = []
  · subst hne
    have : s = [] := (matchString_empty_alts _ s).1 hm
    subst this
    intro x hx; cases hx
  · obtain ⟨p, hp, hg⟩ := (matchString_nodeName ps hne _ s).1 hm
    exact nodeNameGlob_alphabet p s ((findSome?_eq_none_iff' _ _).1 he p hp) hg

theorem alphabet_rune_table : ∀ n < 128,
    (isFQDNWordRune (Char.ofNat n) = true ∨ isNodeNameRune (Char.ofNat n) = true) →
      ¬ ('A' ≤ Char.ofNat n ∧ Char.ofNat n ≤ 'Z') ∧ isSpace (Char.ofNat n) = false := by
  decide

theorem isNodeNameRune_lt (r : Char) (h : isNodeNameRune r = true) : r.toNat < 128 := by
  simp only [isNodeNameRune, Bool.or_eq_true, beq_iff_eq, Bool.and_eq_true, decide_eq_true_eq,
    char_le_iff] at h
  have e5 : '9'.toNat = 57 := rfl
  have e6 : 'z'.toNat = 122 := rfl
  rcases h with (((h | h) | h) | h) | h
  · subst h; decide
  · subst h; decide
  · subst h; decide
  · omega
  · omega

theorem isFQDNWordRune_nodeName (r : Char) (h : isFQDNWordRune r = true) :
    isNodeNameRune r = true := by
  simp only [isFQDNWordRune, Bool.or_eq_true, beq_iff_eq, Bool.and_eq_true,
    decide_eq_true_eq] at h
  simp only [isNodeNameRune, Bool.or_eq_true, beq_iff_eq, Bool.and_eq_true,
    decide_eq_true_eq]
  tauto

theorem nodeNameRune_plain (r : Char) (h : isNodeNameRune r = true) :
    ¬ ('A' ≤ r ∧ r ≤ 'Z') ∧ isSpace r = false := by
  have := alphabet_rune_table r.toNat (isNodeNameRune_lt r h)
    (by rw [Char.ofNat_toNat]; exact Or.inr h)
  rwa [Char.ofNat_toNat] at this

theorem matchString_fqdn_single (src : Str) (tab : Char → Char) (p : Str) (s : Str) :
    Regexp.MatchString ⟨src, fqdnRx tab [p]⟩ s
      = (concatOf ((canonicalizeFQDNPattern tab p).map fqdnItem)).accepts false s false :=
  matchString_single src _ (anchorFree_concatOf _ (by simp [anchorFree_fqdnItem])) s

/-- C18: compiled matchers only accept strings over the alphabet of their
grammar, and candidates are not canonicalized.  A string matched by a matcher
from `compileFQDNPattern` consists of runes of `a-z`, `0-9`, `-`, `.`; one
matched by a matcher from `compileNodeNamePattern` of runes of `a-z`, `0-9`, `-`,
`.`, `/`; so neither holds an uppercase letter or white space.  The matcher
compiled from `CILIUM.IO` matches `cilium.io` and not `CILIUM.IO`. -/
theorem matched_alphabet (limits : Limits) (caseTable : Char → Char) :
    (∀ (ps : List Str) (re : Regexp) (s : Str),
      compileFQDNPattern limits caseTable ps = (some re, none) → re.MatchString s = true →
        ∀ x ∈ s, isFQDNWordRune x = true ∧ ¬ ('A' ≤ x ∧ x ≤ 'Z') ∧ isSpace x = false)
    ∧ (∀ (ps : List (List Nat)) (re : Regexp) (s : Str),
      compileNodeNamePattern limits ps = (some re, none) → re.MatchString s = true →
        ∀ x ∈ s, isNodeNameRune x = true ∧ ¬ ('A' ≤ x ∧ x ≤ 'Z') ∧ isSpace x = false)
    ∧ ∃ re, compileFQDNPattern unlimited caseTable ["CILIUM.IO".toList] = (some re, none)
        ∧ re.MatchString "cilium.io".toList = true
        ∧ re.MatchString "CILIUM.IO".toList = false := by
  refine ⟨?_, ?_, ?_⟩
  · intro ps re s h hm x hx
    have hw := matched_fqdn_alphabet caseTable ps re s h hm x hx
    exact ⟨hw, nodeNameRune_plain x (isFQDNWordRune_nodeName x hw)⟩
  · intro ps re s h hm x hx
    have hw := matched_nodeName_alphabet ps re s h hm x hx
    exact ⟨hw, nodeNameRune_plain x hw⟩
  · have hcanon : canonicalizeFQDNPattern caseTable "CILIUM.IO".toList = "cilium.io".toList :=
      rfl
    have he : fqdnPatternError caseTable "CILIUM.IO".toList = none := by
      rw [fqdnPatternError_eq_none, hcanon]
      decide
    refine ⟨_, compileFQDNPattern_single_eq caseTable _ he rfl, ?_, ?_⟩
    · rw [matchString_fqdn_single, hcanon]; decide
    · rw [matchString_fqdn_single, hcanon]; decide

theorem matched_alphabet_witness :
    (∀ x ∈ "www.cilium.io".toList,
        isFQDNWordRune x = true ∧ ¬ ('A' ≤ x ∧ x ≤ 'Z') ∧ isSpace x = false)
      ∧ (∀ x ∈ "a/b.c".toList,
        isNodeNameRune x = true ∧ ¬ ('A' ≤ x ∧ x ≤ 'Z') ∧ isSpace x = false) :=
  ⟨(matched_alphabet unlimited asciiCaseTable).1 ["*.cilium.io".toList]
      ⟨fqdnSource asciiCaseTable ["*.cilium.io".toList],
        fqdnRx asciiCaseTable ["*.cilium.io".toList]⟩ "www.cilium.io".toList
      (by decide) (by rw [matchString_fqdn_single]; decide),
    (matched_alphabet unlimited asciiCaseTable).2.1 [bytes "a/**".toList]
      ⟨nodeNameSource [bytes "a/**".toList], nodeNameRx [bytes "a/**".toList]⟩ "a/b.c".toList
      (by decide) (by rw [matchString_nodeName_single]; decide)⟩

theorem byte_rune_table : ∀ b < 128,
    (Char.ofNat b = '/' ↔ b = '/'.toNat) ∧ (Char.ofNat b = '.' ↔ b = '.'.toNat) := by
  decide

theorem count_tokens_byte (b : Nat) (hb : b ≠ '*'.toNat) (p : List Nat) :
    (tokens p).count (.byte b) = p.count b := by
  induction' hn : p.length using Nat.strong_induction_on with n ih generalizing p
  cases p with
  | nil => simp [tokens]
  | cons a rest =>
    by_cases ha : a = '*'.toNat
    · subst ha
      have hne : ¬ ('*'.toNat = b) := fun e => hb e.symm
      cases rest with
      | nil =>
        have hne' : ¬ (42 = b) := hne
        rw [tokens_star_nil]
        simp [List.count_cons, hne']
      | cons a' rest' =>
        by_cases ha' : a' = '*'.toNat
        · subst ha'
          rw [tokens_star_star]
          have := ih rest'.length (by subst hn; simp; omega) rest' rfl
          simp only [List.count_cons, this, beq_iff_eq, reduceCtorEq, if_false, hne,
            Nat.add_zero]
        · rw [tokens_star_ne _ _ ha']
          have := ih (a' :: rest').length (by subst hn; simp) (a' :: rest') rfl
          rw [List.count_cons, this]
          simp only [beq_iff_eq, reduceCtorEq, if_false, Nat.add_zero]
          have hne' : ¬ (42 = b) := hne
          conv_rhs => rw [List.count_cons]
          simp [hne']
    · rw [tokens_cons_of_ne _ _ ha]
      have := ih rest.length (by subst hn; simp) rest rfl
      simp only [List.count_cons, this, beq_iff_eq, Token.byte.injEq]

theorem doubleStar_mem_tokens (p : List Nat) (h : Token.doubleStar ∈ tokens p) :
    ['*'.toNat, '*'.toNat] <:+: p := by
  induction' hn : p.length using Nat.strong_induction_on with n ih generalizing p
  cases p with
  | nil => simp [tokens] at h
  | cons a rest =>
    by_cases ha : a = '*'.toNat
    · subst ha
      cases rest with
      | nil => rw [tokens_star_nil] at h; simp at h
      | cons a' rest' =>
        by_cases ha' : a' = '*'.toNat
        · subst ha'
          exact ⟨[], rest', rfl⟩
        · rw [tokens_star_ne _ _ ha'] at h
          simp only [List.mem_cons, reduceCtorEq, false_or] at h
          obtain ⟨u, v, e⟩ := ih (a' :: rest').length (by subst hn; simp) (a' :: rest') h rfl
          exact ⟨'*'.toNat :: u, v, by rw [← e]; rfl⟩
    · rw [tokens_cons_of_ne _ _ ha] at h
      simp only [List.mem_cons, reduceCtorEq, false_or] at h
      obtain ⟨u, v, e⟩ := ih rest.length (by subst hn; simp) rest h rfl
      exact ⟨a :: u, v, by rw [← e]; rfl⟩

theorem count_of_not_mem_runes (u : Str) (c : Char) (P : Char → Prop) (hc : ¬ P c)
    (h : ∀ x ∈ u, P x) : u.count c = 0 :=
  List.count_eq_zero.2 fun hmem => hc (h c hmem)

theorem token_piece_counts (t : Token) (u : Str) (hm : t.Matches u)
    (hv : ∀ b, t = .byte b → isNodeNameByte b = true ∧ b ≠ '*'.toNat) :
    u.count '/' = [t].count (.byte '/'.toNat)
      ∧ (t ≠ .doubleStar → u.count '.' = [t].count (.byte '.'.toNat)) := by
  cases t with
  | byte b =>
    obtain ⟨hb, _⟩ := hv b rfl
    obtain ⟨h1, h2⟩ := byte_rune_table b (isNodeNameByte_lt b hb)
    simp only [Token.Matches] at hm
    subst hm
    simp only [List.count_cons, List.count_nil, Nat.zero_add, beq_iff_eq, Token.byte.injEq,
      h1, h2]
    exact ⟨trivial, fun _ => trivial⟩
  | star =>
    simp only [Token.Matches] at hm
    refine ⟨?_, fun _ => ?_⟩
    · rw [count_of_not_mem_runes u '/' (fun x => isLabelRune x = true) (by decide) hm]
      simp [List.count_cons]
    · rw [count_of_not_mem_runes u '.' (fun x => isLabelRune x = true) (by decide) hm]
      simp [List.count_cons]
  | doubleStar =>
    refine ⟨?_, fun h => absurd rfl h⟩
    rw [count_of_not_mem_runes u '/' (fun x => x = '.' ∨ isLabelRune x = true) (by decide)
      (isLabels_mem u hm)]
    simp [List.count_cons]

theorem pieces_counts (ts : List Token) (pieces : List Str)
    (h : List.Forall₂ Token.Matches ts pieces)
    (hv : ∀ t ∈ ts, ∀ b, t = .byte b → isNodeNameByte b = true ∧ b ≠ '*'.toNat) :
    pieces.flatten.count '/' = ts.count (.byte '/'.toNat)
      ∧ (Token.doubleStar ∉ ts → pieces.flatten.count '.' = ts.count (.byte '.'.toNat)) := by
  induction h with
  | nil => simp
  | @cons t u ts' ps' htu _ ih =>
    obtain ⟨i1, i2⟩ := ih fun t' ht' => hv t' (List.mem_cons_of_mem _ ht')
    obtain ⟨k1, k2⟩ := token_piece_counts t u htu (hv t (List.mem_cons_self _ _))
    have e : ∀ x : Token, (t :: ts').count x = [t].count x + ts'.count x := by
      intro x
      rw [show t :: ts' = [t] ++ ts' from rfl, List.count_append]
    refine ⟨?_, ?_⟩
    · rw [List.flatten_cons, List.count_append, k1, i1, e]
    · intro hd
      have hd1 : t ≠ .doubleStar := fun e' => hd (by rw [e']; exact List.mem_cons_self _ _)
      have hd2 : Token.doubleStar ∉ ts' := fun hm => hd (List.mem_cons_of_mem _ hm)
      rw [List.flatten_cons, List.count_append, k2 hd1, i2 hd2, e]

/-- C16: node-name wildcards never cross a `/`, and a single star never crosses
a `.`.  Every string matched by the matcher compiled from one valid pattern `p`
contains exactly as many `/` as `p`, and exactly as many `.` as `p` when `p` has
no two adjacent `*`. -/
theorem wildcards_do_not_cross (limits : Limits) (p : List Nat) (re : Regexp) (s : Str)
    (h : compileNodeNamePattern limits [p] = (some re, none)) (hm : re.MatchString s = true) :
    s.count '/' = p.count '/'.toNat
      ∧ (¬ ['*'.toNat, '*'.toNat] <:+: p → s.count '.' = p.count '.'.toNat) := by
  obtain ⟨he, rfl⟩ := compileNodeNamePattern_some [p] re h
  have hp : nodeNamePatternError p = none :=
    (findSome?_eq_none_iff' _ _).1 he p (List.mem_singleton_self p)
  obtain ⟨q, hq, pieces, rfl, hf⟩ := (matchString_nodeName [p] (by simp) _ s).1 hm
  rw [List.mem_singleton] at hq
  subst hq
  have hall := (nodeNamePatternError_eq_none q).1 hp
  obtain ⟨c1, c2⟩ := pieces_counts (tokens q) pieces hf (by
    rintro t ht b rfl
    have := mem_tokens_byte q b ht
    exact ⟨hall b this.1, this.2⟩)
  refine ⟨?_, ?_⟩
  · rw [c1, count_tokens_byte _ (by decide)]
  · intro hno
    rw [c2 (fun hd => hno (doubleStar_mem_tokens q hd)), count_tokens_byte _ (by decide)]

theorem wildcards_do_not_cross_witness :
    compileNodeNamePattern unlimited [bytes "c/*.k8s*".toList]
        = (some ⟨nodeNameSource [bytes "c/*.k8s*".toList],
            nodeNameRx [bytes "c/*.k8s*".toList]⟩, none)
      ∧ ¬ ['*'.toNat, '*'.toNat] <:+: bytes "c/*.k8s*".toList
      ∧ "c/ab.k8s12".toList.count '/' = (bytes "c/*.k8s*".toList).count '/'.toNat
      ∧ "c/ab.k8s12".toList.count '.' = (bytes "c/*.k8s*".toList).count '.'.toNat :=
  have h := wildcards_do_not_cross unlimited (bytes "c/*.k8s*".toList)
    ⟨nodeNameSource [bytes "c/*.k8s*".toList], nodeNameRx [bytes "c/*.k8s*".toList]⟩
    "c/ab.k8s12".toList (by decide) (by rw [matchString_nodeName_single]; decide)
  ⟨by decide, by decide, h.1, h.2 (by decide)⟩

/-! ## The pairing of stars and the indexed loop -/

theorem tokens_append (pre rest : List Nat) (h : pre.getLast? ≠ some '*'.toNat) :
    tokens (pre ++ rest) = tokens pre ++ tokens rest := by
  induction' hn : pre.length using Nat.strong_induction_on with n ih generalizing pre
  cases pre with
  | nil => simp [tokens]
  | cons a tl =>
    by_cases ha : a = '*'.toNat
    · subst ha
      cases tl with
      | nil => simp at h
      | cons a' tl' =>
        rw [List.getLast?_cons_cons] at h
        by_cases ha' : a' = '*'.toNat
        · subst ha'
          have hlast : tl'.getLast? ≠ some '*'.toNat := by
            cases tl' with
            | nil => simp at h
            | cons x xs => rwa [List.getLast?_cons_cons] at h
          have := ih tl'.length (by subst hn; simp; omega) tl' hlast rfl
          simp only [List.cons_append, tokens_star_star, this]
        · have := ih (a' :: tl').length (by subst hn; simp) (a' :: tl') h rfl
          simp only [List.cons_append] at this ⊢
          rw [tokens_star_ne _ _ ha', tokens_star_ne _ _ ha', this, List.cons_append]
    · have hlast : tl.getLast? ≠ some '*'.toNat := by
        cases tl with
        | nil => simp
        | cons x xs => rwa [List.getLast?_cons_cons] at h
      have := ih tl.length (by subst hn; simp) tl hlast rfl
      simp only [List.cons_append]
      rw [tokens_cons_of_ne _ _ ha, tokens_cons_of_ne _ _ ha, this, List.cons_append]

theorem tokens_stars (k : Nat) (post : List Nat) (h : post.head? ≠ some '*'.toNat) :
    tokens (List.replicate k '*'.toNat ++ post)
      = List.replicate (k / 2) Token.doubleStar ++ List.replicate (k % 2) Token.star
          ++ tokens post := by
  induction' k using Nat.strong_induction_on with k ih
  match k with
  | 0 => simp
  | 1 =>
    cases post with
    | nil => simp [tokens]
    | cons b rest =>
      have hb : b ≠ '*'.toNat := by simpa using h
      simp only [List.replicate_one, List.singleton_append]
      rw [tokens_star_ne _ _ hb]
      rfl
  | k + 2 =>
    have := ih k (by omega)
    simp only [List.replicate_succ, List.cons_append, tokens_star_star] at this ⊢
    rw [this]
    have e1 : (k + 1 + 1) / 2 = k / 2 + 1 := by omega
    have e2 : (k + 1 + 1) % 2 = k % 2 := by omega
    rw [e1, e2, List.replicate_succ]
    rfl

theorem flatMap_replicate (n : Nat) (t : Token) :
    (List.replicate n t).flatMap Token.regexp = (List.replicate n t.regexp).flatten := by
  induction n with
  | zero => rfl
  | succ n ih => simp [List.replicate_succ, ih]

theorem appendNodeNameIndexed_eq (p : List Nat) (fuel : Nat) :
    ∀ (i : Nat) (sb : Builder), i ≤ p.length → p.length - i < fuel →
      appendNodeNameIndexed p fuel i sb
        = .returned (appendNodeNameBytes sb (p.drop i)).1 (appendNodeNameBytes sb (p.drop i)).2 := by
  induction fuel with
  | zero => intro i sb _ h; omega
  | succ fuel ih =>
    intro i sb hi hf
    unfold appendNodeNameIndexed
    by_cases hlt : i < p.length
    · have hdrop : p.drop i = p[i] :: p.drop (i + 1) := List.drop_eq_getElem_cons hlt
      have hget : p[i]? = some p[i] := List.getElem?_eq_getElem hlt
      simp only [hlt, if_true, hget]
      rw [hdrop]
      generalize p[i] = b
      have ih1 := fun sb' => ih (i + 1) sb' (by omega) (by omega)
      by_cases h1 : b = '.'.toNat
      · subst h1
        rw [ih1]
        conv_rhs => unfold appendNodeNameBytes
        simp
      by_cases h2 : b = '*'.toNat
      · subst h2
        have hne : ¬ '*'.toNat = '.'.toNat := by decide
        simp only [hne, if_false, if_true]
        by_cases hlt2 : i + 1 < p.length
        · have hint : (i : Int) < (p.length : Int) - 1 := by omega
          have hdrop2 : p.drop (i + 1) = p[i + 1] :: p.drop (i + 1 + 1) :=
            List.drop_eq_getElem_cons hlt2
          have hget2 : p[i + 1]? = some p[i + 1] := List.getElem?_eq_getElem hlt2
          simp only [hint, if_true, hget2]
          rw [hdrop2]
          generalize hb' : p[i + 1] = b' at hdrop2 ⊢
          by_cases h3 : b' = '*'.toNat
          · subst h3
            rw [if_pos rfl, ih (i + 1 + 1) _ (by omega) (by omega)]
            conv_rhs => unfold appendNodeNameBytes
            simp
          · rw [if_neg h3, ih1, hdrop2]
            conv_rhs => unfold appendNodeNameBytes
            simp only [hne, h3, if_false, if_true]
        · have hint : ¬ ((i : Int) < (p.length : Int) - 1) := by omega
          have hnil : p.drop (i + 1) = [] := List.drop_eq_nil_of_le (by omega)
          simp only [hint, if_false]
          rw [ih1, hnil]
          conv_rhs => unfold appendNodeNameBytes
          simp only [hne, if_false, if_true]
      by_cases h3 : b = '-'.toNat ∨ b = '/'.toNat ∨ ('0'.toNat ≤ b ∧ b ≤ '9'.toNat)
          ∨ ('a'.toNat ≤ b ∧ b ≤ 'z'.toNat)
      · simp only [h1, h2, h3, if_false, if_true]
        rw [ih1]
        conv_rhs => unfold appendNodeNameBytes
        simp only [h1, h2, h3, if_false, if_true]
      · simp only [h1, h2, h3, if_false]
        conv_rhs => unfold appendNodeNameBytes
        simp only [h1, h2, h3, if_false]
    · have : i = p.length := by omega
      subst this
      simp [appendNodeNameBytes]

/-- C17, the claim as stated fails in its last part: in the pattern `**` the
last byte is a `*`, and it is the second half of a double star, not a single
star. -/
theorem last_star_counterexample :
    (bytes "**".toList).getLast? = some '*'.toNat
      ∧ appendNodeNamePatternRegexp [] (bytes "**".toList)
          = ("(?:[\\-0-9a-z]+(?:\\.(?:[\\-0-9a-z]+))*)".toList, none)
      ∧ Token.star ∉ tokens (bytes "**".toList) := by
  decide

/-- C17, amended: stars are paired greedily from the left.  A maximal run of
`k` bytes `*` is translated into `k / 2` copies of the multi-label fragment
followed by `k % 2` copies of the single-label fragment.  A `*` that the loop
reaches as the last byte of the pattern is a single star, and the loop never
indexes the pattern out of range: run with its index, it returns what the
function returns. -/
theorem stars_paired_from_the_left (sb : Builder) (pre post : List Nat) (k : Nat)
    (hpre : pre.getLast? ≠ some '*'.toNat) (hpost : post.head? ≠ some '*'.toNat)
    (hvalid : ∀ b ∈ pre ++ post, isNodeNameByte b = true) :
    appendNodeNamePatternRegexp sb (pre ++ List.replicate k '*'.toNat ++ post)
        = (sb ++ nodeNameFragment pre
            ++ (List.replicate (k / 2) "(?:[\\-0-9a-z]+(?:\\.(?:[\\-0-9a-z]+))*)".toList).flatten
            ++ (List.replicate (k % 2) "[\\-0-9a-z]*".toList).flatten
            ++ nodeNameFragment post, none)
      ∧ (∀ (p : List Nat) (i : Nat) (sb' : Builder) (fuel : Nat),
          i + 1 = p.length → p[i]? = some '*'.toNat →
            appendNodeNameIndexed p (fuel + 2) i sb'
              = .returned (sb' ++ "[\\-0-9a-z]*".toList) none)
      ∧ (∀ (p : List Nat) (sb' : Builder),
          appendNodeNameIndexed p (p.length + 1) 0 sb'
            = .returned (appendNodeNamePatternRegexp sb' p).1
                (appendNodeNamePatternRegexp sb' p).2) := by
  refine ⟨?_, ?_, ?_⟩
  · have hv : nodeNamePatternError (pre ++ List.replicate k '*'.toNat ++ post) = none := by
      rw [nodeNamePatternError_eq_none]
      intro b hb
      simp only [List.mem_append, List.mem_replicate] at hb
      rcases hb with (hb | ⟨_, rfl⟩) | hb
      · exact hvalid b (List.mem_append_left _ hb)
      · decide
      · exact hvalid b (List.mem_append_right _ hb)
    obtain ⟨h1, h2⟩ := appendNodeNameBytes_spec sb (pre ++ List.replicate k '*'.toNat ++ post)
    have hfrag : nodeNameFragment (pre ++ List.replicate k '*'.toNat ++ post)
        = nodeNameFragment pre
          ++ (List.replicate (k / 2) "(?:[\\-0-9a-z]+(?:\\.(?:[\\-0-9a-z]+))*)".toList).flatten
          ++ (List.replicate (k % 2) "[\\-0-9a-z]*".toList).flatten
          ++ nodeNameFragment post := by
      unfold nodeNameFragment
      rw [List.append_assoc, tokens_append _ _ hpre, tokens_stars k post hpost]
      simp only [List.flatMap_append, flatMap_replicate, List.append_assoc]
      rfl
    unfold appendNodeNamePatternRegexp
    rw [Prod.ext_iff]
    exact ⟨by rw [h2 hv, hfrag]; simp only [List.append_assoc], by rw [h1, hv]⟩
  · intro p i sb' fuel hi hget
    have hlt : i < p.length := by omega
    rw [appendNodeNameIndexed_eq p (fuel + 2) i sb' (by omega) (by omega)]
    have hdrop : p.drop i = ['*'.toNat] := by
      rw [List.drop_eq_getElem_cons hlt, List.drop_eq_nil_of_le (by omega)]
      rw [List.getElem?_eq_getElem hlt, Option.some.injEq] at hget
      rw [hget]
    rw [hdrop]
    rfl
  · intro p sb'
    rw [appendNodeNameIndexed_eq p (p.length + 1) 0 sb' (by omega) (by omega)]
    rfl

theorem stars_paired_from_the_left_witness :
    appendNodeNamePatternRegexp "\\A(?:".toList
        (bytes "a/".toList ++ List.replicate 3 '*'.toNat ++ bytes ".io".toList)
      = ("\\A(?:a/(?:[\\-0-9a-z]+(?:\\.(?:[\\-0-9a-z]+))*)[\\-0-9a-z]*\\.io".toList, none) :=
  (stars_paired_from_the_left "\\A(?:".toList (bytes "a/".toList) (bytes ".io".toList) 3
    (by decide) (by decide) (by decide)).1

/-! ## The node name filter -/

theorem filterByNodeNames_eq {limits : Limits} (ps : List (List Nat)) :
    filterByNodeNames limits ps =
      match ps.findSome? nodeNamePatternError with
      | some e => (none, some e)
      | none =>
        match limits (nodeNameSource ps) with
        | some code => (none, some (.regexpLimit code (nodeNameSource ps)))
        | none =>
          (some fun ev =>
            if Flow.GetNodeName ev.GetFlow = [] then false
            else Regexp.MatchString ⟨nodeNameSource ps, nodeNameRx ps⟩
              (Flow.GetNodeName ev.GetFlow), none) := by
  unfold filterByNodeNames
  rw [compileNodeNamePattern_eq]
  cases ps.findSome? nodeNamePatternError with
  | some e => rfl
  | none => cases limits (nodeNameSource ps) <;> rfl

theorem onBuildFilter_present {limits : Limits} (nodeNames : List (List Nat)) :
    NodeNameFilter.OnBuildFilter limits ⟨some nodeNames⟩ =
      match nodeNames.findSome? nodeNamePatternError with
      | some e => (none, some e)
      | none =>
        match limits (nodeNameSource nodeNames) with
        | some code => (none, some (.regexpLimit code (nodeNameSource nodeNames)))
        | none =>
          (some [some fun ev =>
            if Flow.GetNodeName ev.GetFlow = [] then false
            else Regexp.MatchString ⟨nodeNameSource nodeNames, nodeNameRx nodeNames⟩
              (Flow.GetNodeName ev.GetFlow)], none) := by
  unfold NodeNameFilter.OnBuildFilter
  simp only [FlowFilter.GetNodeName]
  rw [filterByNodeNames_eq]
  cases nodeNames.findSome? nodeNamePatternError with
  | some e => rfl
  | none => cases limits (nodeNameSource nodeNames) <;> rfl

theorem nodeNameGlob_nil_nil : nodeNameGlob [] [] :=
  ⟨[], rfl, by simp [tokens]⟩

theorem nodeNameGlob_star_nil : nodeNameGlob ['*'.toNat] [] :=
  ⟨[[]], rfl, by
    rw [tokens_star_nil]
    exact List.Forall₂.cons (by simp [Token.Matches]) List.Forall₂.nil⟩

/-- C11: for every valid list of node-name patterns, the predicate returned by
`filterByNodeNames` holds on an event exactly when the node name of the event is
non-empty and the matcher compiled from the list matches it.  So an event with
an empty node name is rejected, also for the empty list and for lists with the
pattern `""` or `*`, whose matchers accept the empty string. -/
theorem filterByNodeNames_predicate (limits : Limits) (nodeNames : List (List Nat))
    (re : Regexp) (h : compileNodeNamePattern limits nodeNames = (some re, none)) :
    ∃ f, filterByNodeNames limits nodeNames = (some f, none)
      ∧ (∀ ev : Event, f ev = true ↔
          Flow.GetNodeName ev.GetFlow ≠ []
            ∧ re.MatchString (Flow.GetNodeName ev.GetFlow) = true)
      ∧ (∀ ev : Event, Flow.GetNodeName ev.GetFlow = [] → f ev = false)
      ∧ ((nodeNames = [] ∨ [] ∈ nodeNames ∨ ['*'.toNat] ∈ nodeNames) →
          re.MatchString [] = true) := by
  have hl := compileNodeNamePattern_some_limits nodeNames re h
  obtain ⟨he, rfl⟩ := compileNodeNamePattern_some nodeNames re h
  have hf : filterByNodeNames limits nodeNames =
      (some fun ev =>
        if Flow.GetNodeName ev.GetFlow = [] then false
        else Regexp.MatchString ⟨nodeNameSource nodeNames, nodeNameRx nodeNames⟩
          (Flow.GetNodeName ev.GetFlow), none) := by
    rw [filterByNodeNames_eq, he]
    simp only [hl]
  refine ⟨_, hf, ?_, ?_, ?_⟩
  · intro ev
    by_cases hn : Flow.GetNodeName ev.GetFlow = []
    · simp [hn]
    · simp [hn]
  · intro ev hn
    simp [hn]
  · intro hcase
    by_cases hne : nodeNames = []
    · subst hne
      exact (matchString_empty_alts _ []).2 rfl
    · rw [matchString_nodeName nodeNames hne]
      rcases hcase with h0 | h1 | h2
      · exact absurd h0 hne
      · exact ⟨[], h1, nodeNameGlob_nil_nil⟩
      · exact ⟨_, h2, nodeNameGlob_star_nil⟩

theorem filterByNodeNames_predicate_witness :
    compileNodeNamePattern unlimited [bytes "k8s*".toList, bytes "".toList]
        = (some ⟨nodeNameSource [bytes "k8s*".toList, bytes "".toList],
            nodeNameRx [bytes "k8s*".toList, bytes "".toList]⟩, none)
      ∧ ∃ f, filterByNodeNames unlimited [bytes "k8s*".toList, bytes "".toList]
            = (some f, none)
          ∧ f ⟨some ⟨"k8s1".toList⟩⟩ = true ∧ f ⟨some ⟨"".toList⟩⟩ = false
          ∧ f ⟨none⟩ = false :=
  have h := filterByNodeNames_predicate unlimited [bytes "k8s*".toList, bytes "".toList]
    ⟨nodeNameSource [bytes "k8s*".toList, bytes "".toList],
      nodeNameRx [bytes "k8s*".toList, bytes "".toList]⟩ (by decide)
  ⟨by decide, h.choose, h.choose_spec.1,
    (h.choose_spec.2.1 ⟨some ⟨"k8s1".toList⟩⟩).2 ⟨by decide, by
      rw [matchString_nodeName _ (by decide)]
      exact ⟨bytes "k8s*".toList, by decide,
        ["k".toList, "8".toList, "s".toList, "1".toList], by decide, by
          rw [show tokens (bytes "k8s*".toList)
            = [.byte 'k'.toNat, .byte '8'.toNat, .byte 's'.toNat, .star] by decide]
          exact .cons rfl (.cons rfl (.cons rfl
            (.cons (show ∀ x ∈ "1".toList, isLabelRune x = true by decide) .nil)))⟩⟩,
    h.choose_spec.2.2.1 ⟨some ⟨"".toList⟩⟩ rfl, h.choose_spec.2.2.1 ⟨none⟩ rfl⟩

/-- C13, the claim as stated fails: the matcher compiled from the empty list of
node-name patterns matches the empty string. -/
theorem empty_list_matcher_counterexample :
    ∃ re, compileNodeNamePattern unlimited [] = (some re, none)
      ∧ re.MatchString "".toList = true :=
  ⟨⟨nodeNameSource [], nodeNameRx []⟩, by decide, by decide⟩

/-- C13, amended: `compileNodeNamePattern` succeeds on the empty list of
patterns, with the text `\A(?:)\z`, which the library does not refuse, and the
resulting matcher matches the empty string and no other candidate. -/
theorem empty_list_matcher (limits : Limits) (h : limits "\\A(?:)\\z".toList = none) :
    ∃ re, compileNodeNamePattern limits [] = (some re, none)
      ∧ re.expr = "\\A(?:)\\z".toList
      ∧ ∀ s : Str, re.MatchString s = true ↔ s = [] :=
  ⟨⟨nodeNameSource [], nodeNameRx []⟩,
    compileNodeNamePattern_accepted [] rfl h, by decide,
    fun s => matchString_empty_alts _ s⟩

theorem empty_list_matcher_witness :
    ∃ re, compileNodeNamePattern unlimited [] = (some re, none)
      ∧ re.expr = "\\A(?:)\\z".toList
      ∧ ∀ s : Str, re.MatchString s = true ↔ s = [] :=
  empty_list_matcher unlimited rfl

/-- C14, amended: builder failure is atomic.  When the node-name pattern set of
the specification is present and holds an invalid pattern, `OnBuildFilter`
returns the error of the compiler and a nil list.  When the present set is
entirely valid, it returns exactly one predicate and no error if
`regexp.Compile` does not refuse the compiled text for its size, and the error
of the library and a nil list if it does.  Whenever it returns an error, the
list it returns is nil. -/
theorem onBuildFilter_atomic (limits : Limits) (ff : FlowFilter)
    (nodeNames : List (List Nat)) (h : ff.GetNodeName = some nodeNames) :
    ((∃ p ∈ nodeNames, ∃ b ∈ p, isNodeNameByte b = false) →
        ∃ e, NodeNameFilter.OnBuildFilter limits ff = (none, some e)
          ∧ compileNodeNamePattern limits nodeNames = (none, some e))
      ∧ ((∀ p ∈ nodeNames, ∀ b ∈ p, isNodeNameByte b = true) →
        (limits (nodeNameSource nodeNames) = none →
          ∃ f, NodeNameFilter.OnBuildFilter limits ff = (some [some f], none))
        ∧ (∀ code, limits (nodeNameSource nodeNames) = some code →
          NodeNameFilter.OnBuildFilter limits ff
              = (none, some (.regexpLimit code (nodeNameSource nodeNames)))
            ∧ compileNodeNamePattern limits nodeNames
              = (none, some (.regexpLimit code (nodeNameSource nodeNames)))))
      ∧ ((NodeNameFilter.OnBuildFilter limits ff).2 ≠ none →
        (NodeNameFilter.OnBuildFilter limits ff).1 = none) := by
  obtain ⟨nn⟩ := ff
  simp only [FlowFilter.GetNodeName] at h
  subst h
  rw [onBuildFilter_present, compileNodeNamePattern_eq]
  refine ⟨?_, ?_, ?_⟩
  · rintro ⟨p, hp, b, hb, hbad⟩
    cases he : nodeNames.findSome? nodeNamePatternError with
    | none =>
      have := (nodeNamePatternError_eq_none p).1 ((findSome?_eq_none_iff' _ _).1 he p hp) b hb
      rw [hbad] at this
      cases this
    | some e => exact ⟨e, rfl, rfl⟩
  · intro hall
    have he : nodeNames.findSome? nodeNamePatternError = none :=
      (findSome?_eq_none_iff' _ _).2 fun p hp => (nodeNamePatternError_eq_none p).2 (hall p hp)
    rw [he]
    refine ⟨?_, ?_⟩
    · intro hl
      simp only [hl]
      exact ⟨_, rfl⟩
    · intro code hl
      simp only [hl, and_self]
  · cases nodeNames.findSome? nodeNamePatternError with
    | some e => intro _; rfl
    | none =>
      cases limits (nodeNameSource nodeNames) with
      | some code => intro _; rfl
      | none => intro h; exact absurd rfl h

theorem onBuildFilter_atomic_witness :
    (∃ e, NodeNameFilter.OnBuildFilter unlimited
            ⟨some [bytes "k8s1".toList, bytes "cluster_name".toList]⟩ = (none, some e)
        ∧ compileNodeNamePattern unlimited [bytes "k8s1".toList, bytes "cluster_name".toList]
          = (none, some e))
      ∧ ∃ f, NodeNameFilter.OnBuildFilter unlimited ⟨some [bytes "k8s1".toList]⟩
          = (some [some f], none) :=
  ⟨(onBuildFilter_atomic unlimited
      ⟨some [bytes "k8s1".toList, bytes "cluster_name".toList]⟩ _ rfl).1
      ⟨bytes "cluster_name".toList, by decide, '_'.toNat, by decide, by decide⟩,
    ((onBuildFilter_atomic unlimited ⟨some [bytes "k8s1".toList]⟩ _ rfl).2.1
      (by decide)).1 rfl⟩

/-! ## The filter list -/

theorem matchAll_iff (ev : Event) (g : List FilterFunc) :
    matchAll ev g = true ↔ ∀ f ∈ g, f.holds ev = true := by
  induction g with
  | nil => simp [matchAll]
  | cons f rest ih =>
    simp only [matchAll, List.mem_cons, forall_eq_or_imp]
    cases hf : f.holds ev <;> simp [ih]

theorem matchAny_iff (ev : Event) (gs : List (List FilterFunc)) :
    matchAny ev gs = true ↔ ∃ g ∈ gs, matchAll ev g = true := by
  induction gs with
  | nil => simp [matchAny]
  | cons g rest ih =>
    simp only [matchAny, List.mem_cons, exists_eq_or_imp]
    cases hg : matchAll ev g <;> simp [ih]

theorem buildGroup_some (ff : FlowFilter) (builders : List OnBuildFilter) :
    ∀ (fs g : List FilterFunc), buildGroup ff builders fs = (some g, none) →
      g = fs ++ builders.flatMap fun b => (b ff).1.getD [] := by
  induction builders with
  | nil =>
    intro fs g h
    simp only [buildGroup, Prod.mk.injEq, Option.some.injEq, and_true] at h
    simp [h]
  | cons b rest ih =>
    intro fs g h
    unfold buildGroup at h
    rcases hb : b ff with ⟨fl, e⟩
    rw [hb] at h
    cases e with
    | some err => simp at h
    | none =>
      simp only at h
      rw [ih _ g h, List.flatMap_cons, hb, List.append_assoc]

theorem buildGroup_result (ff : FlowFilter) (builders : List OnBuildFilter) :
    ∀ (fs : List FilterFunc) (r : Option (List FilterFunc)),
      buildGroup ff builders fs = (r, none) → ∃ g, r = some g := by
  induction builders with
  | nil =>
    intro fs r h
    simp only [buildGroup, Prod.mk.injEq, and_true] at h
    exact ⟨fs, h.symm⟩
  | cons b rest ih =>
    intro fs r h
    unfold buildGroup at h
    rcases hb : b ff with ⟨fl, e⟩
    rw [hb] at h
    cases e with
    | some err => simp at h
    | none => exact ih _ r h

theorem buildGroups_some (builders : List OnBuildFilter) (ffs : List FlowFilter) :
    ∀ (groups : List (List FilterFunc)) (fl : FilterList),
      buildGroups builders ffs groups = (some fl, none) →
        fl.groups = groups
          ++ ffs.map fun ff => builders.flatMap fun b => (b ff).1.getD [] := by
  induction ffs with
  | nil =>
    intro groups fl h
    simp only [buildGroups, Prod.mk.injEq, Option.some.injEq, and_true] at h
    simp [← h]
  | cons ff rest ih =>
    intro groups fl h
    unfold buildGroups at h
    rcases hg : buildGroup ff builders [] with ⟨r, e⟩
    rw [hg] at h
    cases e with
    | some err => simp at h
    | none =>
      obtain ⟨g, rfl⟩ := buildGroup_result ff builders [] r hg
      have hg' := buildGroup_some ff builders [] g hg
      simp only [Option.getD_some] at h
      rw [ih _ fl h, hg']
      simp

theorem buildFilterList_groups (ffs : List FlowFilter) (builders : List OnBuildFilter)
    (fl : FilterList) (h : BuildFilterList ffs builders = (some fl, none)) :
    fl.groups = ffs.map fun ff => builders.flatMap fun b => (b ff).1.getD [] := by
  have := buildGroups_some builders ffs [] fl h
  simpa using this

theorem onBuildFilter_single {limits : Limits} (p : List Nat)
    (hp : nodeNamePatternError p = none) (hl : limits (nodeNameSource [p]) = none) :
    NodeNameFilter.OnBuildFilter limits ⟨some [p]⟩ =
      (some [some fun ev =>
        if Flow.GetNodeName ev.GetFlow = [] then false
        else (concatOf ((tokens p).map Token.rx)).accepts false
          (Flow.GetNodeName ev.GetFlow) false], none) := by
  rw [onBuildFilter_present]
  simp only [List.findSome?_cons, List.findSome?_nil, hp, hl, matchString_nodeName_single]

/-- C15: the evaluator of the Filter List combines predicates as AND within a
specification and OR across specifications.  When the list builds, `MatchOne`
holds on an event exactly when there is a specification all of whose produced
predicates hold on the event, a specification without predicates holding on
every event.  Two specifications, for the node names `k8s1` and `runtime1`,
match an event of node `runtime1` and do not match one of node `k8s2`. -/
theorem matchOne_and_or (ff : List FlowFilter) (auxFilters : List OnBuildFilter)
    (fl : FilterList) (ev : Event) (h : BuildFilterList ff auxFilters = (some fl, none)) :
    (fl.MatchOne ev = true ↔
        ∃ spec ∈ ff, ∀ b ∈ auxFilters, ∀ f ∈ (b spec).1.getD [], f.holds ev = true)
      ∧ ∃ two, BuildFilterList [⟨some [bytes "k8s1".toList]⟩, ⟨some [bytes "runtime1".toList]⟩]
            [NodeNameFilter.OnBuildFilter unlimited] = (some two, none)
          ∧ two.MatchOne ⟨some ⟨"runtime1".toList⟩⟩ = true
          ∧ two.MatchOne ⟨some ⟨"k8s2".toList⟩⟩ = false := by
  constructor
  · rw [FilterList.MatchOne, buildFilterList_groups ff auxFilters fl h, matchAny_iff]
    simp only [List.mem_map, exists_exists_and_eq_and, matchAll_iff, List.mem_flatMap,
      forall_exists_index, and_imp]
    constructor
    · rintro ⟨spec, hs, hall⟩
      exact ⟨spec, hs, fun b hb f hf => hall f b hb hf⟩
    · rintro ⟨spec, hs, hall⟩
      exact ⟨spec, hs, fun f b hb hf => hall b hb f hf⟩
  · have e1 := @onBuildFilter_single unlimited (bytes "k8s1".toList) (by decide) rfl
    have e2 := @onBuildFilter_single unlimited (bytes "runtime1".toList) (by decide) rfl
    have hb : BuildFilterList
        [⟨some [bytes "k8s1".toList]⟩, ⟨some [bytes "runtime1".toList]⟩]
        [NodeNameFilter.OnBuildFilter unlimited]
        = (some ⟨[[some fun ev =>
              if Flow.GetNodeName ev.GetFlow = [] then false
              else (concatOf ((tokens (bytes "k8s1".toList)).map Token.rx)).accepts false
                (Flow.GetNodeName ev.GetFlow) false],
            [some fun ev =>
              if Flow.GetNodeName ev.GetFlow = [] then false
              else (concatOf ((tokens (bytes "runtime1".toList)).map Token.rx)).accepts false
                (Flow.GetNodeName ev.GetFlow) false]]⟩, none) := by
      simp only [BuildFilterList, buildGroups, buildGroup, e1, e2, Option.getD_some,
        List.nil_append]
      rfl
    refine ⟨_, hb, ?_, ?_⟩
    · simp only [FilterList.MatchOne, matchAny, matchAll, FilterFunc.holds, Flow.GetNodeName,
        Event.GetFlow]
      decide
    · simp only [FilterList.MatchOne, matchAny, matchAll, FilterFunc.holds, Flow.GetNodeName,
        Event.GetFlow]
      decide

theorem matchOne_and_or_witness :
    BuildFilterList [⟨none⟩] [NodeNameFilter.OnBuildFilter unlimited] = (some ⟨[[]]⟩, none)
      ∧ (FilterList.MatchOne ⟨[[]]⟩ ⟨some ⟨"k8s1".toList⟩⟩ = true ↔
          ∃ spec ∈ [(⟨none⟩ : FlowFilter)], ∀ b ∈ [NodeNameFilter.OnBuildFilter unlimited],
            ∀ f ∈ (b spec).1.getD [], f.holds ⟨some ⟨"k8s1".toList⟩⟩ = true) :=
  ⟨rfl, (matchOne_and_or [⟨none⟩] [NodeNameFilter.OnBuildFilter unlimited] ⟨[[]]⟩
    ⟨some ⟨"k8s1".toList⟩⟩ rfl).1⟩

/-- C12, the claim as stated fails for a pattern set that is present but empty:
`OnBuildFilter` then returns one predicate, not an empty list, and the predicate
rejects the event of node `k8s1`. -/
theorem onBuildFilter_empty_set_counterexample :
    ∃ f, NodeNameFilter.OnBuildFilter unlimited ⟨some []⟩ = (some [some f], none)
      ∧ f ⟨some ⟨"k8s1".toList⟩⟩ = false :=
  ⟨_, rfl, by decide⟩

/-- C12, amended: if the node-name pattern set of the filter specification is
absent, `OnBuildFilter` returns an empty list of predicates and no error, so
that a Filter List built from the specification matches every event, whatever
its node name. -/
theorem onBuildFilter_absent (limits : Limits) (ff : FlowFilter) (h : ff.GetNodeName = none) :
    NodeNameFilter.OnBuildFilter limits ff = (none, none)
      ∧ ∃ fl, BuildFilterList [ff] [NodeNameFilter.OnBuildFilter limits] = (some fl, none)
          ∧ ∀ ev : Event, fl.MatchOne ev = true := by
  obtain ⟨nn⟩ := ff
  simp only [FlowFilter.GetNodeName] at h
  subst h
  exact ⟨rfl, ⟨[[]]⟩, rfl, fun ev => rfl⟩

theorem onBuildFilter_absent_witness :
    NodeNameFilter.OnBuildFilter unlimited ⟨none⟩ = (none, none)
      ∧ ∃ fl, BuildFilterList [⟨none⟩] [NodeNameFilter.OnBuildFilter unlimited] = (some fl, none)
          ∧ ∀ ev : Event, fl.MatchOne ev = true :=
  onBuildFilter_absent unlimited ⟨none⟩ rfl

/-! ## Valid patterns whose compiled expression the library refuses -/

theorem mem_ladder (n : Nat) (p : Str) (h : p ∈ ladder n) :
    ∃ k, p = List.replicate (k + 1) 'a' := by
  simp only [ladder, List.mem_map] at h
  obtain ⟨i, _, rfl⟩ := h
  exact ⟨i, rfl⟩

theorem replicate_valid (tab : Char → Char) (k : Nat) (a : Char)
    (ha : isFQDNRune a = true) (hdot : a ≠ '.') :
    List.replicate (k + 1) a ≠ []
      ∧ (List.replicate (k + 1) a).getLast? ≠ some '.'
      ∧ (∀ r ∈ List.replicate (k + 1) a, isFQDNRune r = true)
      ∧ canonicalizeFQDNPattern tab (List.replicate (k + 1) a) = List.replicate (k + 1) a := by
  have h1 : List.replicate (k + 1) a ≠ [] := by simp
  have h2 : (List.replicate (k + 1) a).getLast? ≠ some '.' := by
    rw [List.getLast?_eq_getLast _ h1]
    intro h
    have hm := List.getLast_mem h1
    rw [List.eq_of_mem_replicate hm] at h
    exact hdot (Option.some.inj h)
  have h3 : ∀ r ∈ List.replicate (k + 1) a, isFQDNRune r = true := by
    intro r hr
    rw [List.eq_of_mem_replicate hr]
    exact ha
  exact ⟨h1, h2, h3, canonical_fixed tab _ h1 h2 h3⟩

theorem fqdnFragment_letters (k : Nat) :
    fqdnFragment (List.replicate k 'a') = List.replicate k 'a' := by
  induction k with
  | zero => rfl
  | succ k ih =>
    unfold fqdnFragment at ih ⊢
    rw [List.replicate_succ, List.flatMap_cons, ih]
    rfl

theorem fqdnFragment_stars (k : Nat) :
    fqdnFragment (stars k) = (List.replicate k "[\\-\\.0-9a-z]*".toList).flatten := by
  induction k with
  | zero => rfl
  | succ k ih =>
    unfold fqdnFragment stars at ih ⊢
    rw [List.replicate_succ, List.flatMap_cons, ih, List.replicate_succ, List.flatten_cons]
    rfl

theorem fqdnSource_ladder (tab : Char → Char) (n : Nat) :
    fqdnSource tab (ladder n) = ladderExpr n := by
  have hm : (ladder n).map (fun p => fqdnFragment (canonicalizeFQDNPattern tab p))
      = ladder n := by
    conv_rhs => rw [← List.map_id (ladder n)]
    apply List.map_congr_left
    intro p hp
    obtain ⟨k, rfl⟩ := mem_ladder n p hp
    rw [(replicate_valid tab k 'a' (by decide) (by decide)).2.2.2, fqdnFragment_letters]
    rfl
  unfold fqdnSource ladderExpr
  rw [hm]

theorem fqdnSource_stars (tab : Char → Char) (k : Nat) :
    fqdnSource tab [stars (k + 1)] = starsExpr (k + 1) := by
  unfold fqdnSource starsExpr
  have hc : canonicalizeFQDNPattern tab (stars (k + 1)) = stars (k + 1) :=
    (replicate_valid tab k '*' (by decide) (by decide)).2.2.2
  simp only [List.map_cons, List.map_nil, hc, fqdnFragment_stars]
  simp [List.intercalate, List.intersperse]

theorem ladder_valid (tab : Char → Char) (n : Nat) :
    ∀ p ∈ ladder n,
      canonicalizeFQDNPattern tab p ≠ []
        ∧ (canonicalizeFQDNPattern tab p).getLast? ≠ some '.'
        ∧ ∀ r ∈ canonicalizeFQDNPattern tab p, isFQDNRune r = true := by
  intro p hp
  obtain ⟨k, rfl⟩ := mem_ladder n p hp
  obtain ⟨h1, h2, h3, h4⟩ := replicate_valid tab k 'a' (by decide) (by decide)
  rw [h4]
  exact ⟨h1, h2, h3⟩

theorem bytes_letters (k : Nat) : bytes (List.replicate k 'a') = List.replicate k 'a'.toNat := by
  induction k with
  | zero => rfl
  | succ k ih =>
    unfold bytes at ih ⊢
    rw [List.replicate_succ, List.flatMap_cons, ih]
    rfl

theorem nodeNameFragment_letters (k : Nat) :
    nodeNameFragment (List.replicate k 'a'.toNat) = List.replicate k 'a' := by
  induction k with
  | zero => rfl
  | succ k ih =>
    unfold nodeNameFragment at ih ⊢
    rw [List.replicate_succ, tokens_cons_of_ne _ _ (by decide), List.flatMap_cons, ih]
    rfl

theorem nodeNameSource_ladder (n : Nat) :
    nodeNameSource ((ladder n).map bytes) = ladderExpr n := by
  have hm : ((ladder n).map bytes).map nodeNameFragment = ladder n := by
    rw [List.map_map]
    conv_rhs => rw [← List.map_id (ladder n)]
    apply List.map_congr_left
    intro p hp
    obtain ⟨k, rfl⟩ := mem_ladder n p hp
    simp only [Function.comp_apply, bytes_letters, nodeNameFragment_letters]
    rfl
  unfold nodeNameSource ladderExpr
  rw [hm]

theorem byteLadder_valid (n : Nat) :
    ∀ p ∈ (ladder n).map bytes, ∀ b ∈ p, isNodeNameByte b = true := by
  intro p hp b hb
  obtain ⟨q, hq, rfl⟩ := List.mem_map.1 hp
  obtain ⟨k, rfl⟩ := mem_ladder n q hq
  rw [bytes_letters] at hb
  rw [List.eq_of_mem_replicate hb]
  decide

theorem refusing_self (expr : Str) (code : LimitError) : refusing expr code expr = some code := by
  simp [refusing]

theorem compileFQDNPattern_ladder (n : Nat) (code : LimitError) :
    compileFQDNPattern (refusing (ladderExpr n) code) asciiCaseTable (ladder n)
      = (none, some (.regexpLimit code (ladderExpr n))) := by
  have he : (ladder n).findSome? (fqdnPatternError asciiCaseTable) = none :=
    (findSome?_eq_none_iff' _ _).2 fun p hp =>
      (fqdnPatternError_eq_none asciiCaseTable p).2 (ladder_valid asciiCaseTable n p hp)
  have h := compileFQDNPattern_refused asciiCaseTable (ladder n) code he
    (by rw [fqdnSource_ladder]; exact refusing_self _ _)
  rw [fqdnSource_ladder] at h
  exact h

theorem compileNodeNamePattern_ladder (n : Nat) (code : LimitError) :
    compileNodeNamePattern (refusing (ladderExpr n) code) ((ladder n).map bytes)
      = (none, some (.regexpLimit code (ladderExpr n))) := by
  have he : ((ladder n).map bytes).findSome? nodeNamePatternError = none :=
    (findSome?_eq_none_iff' _ _).2 fun p hp =>
      (nodeNamePatternError_eq_none p).2 (byteLadder_valid n p hp)
  have h := compileNodeNamePattern_refused ((ladder n).map bytes) code he
    (by rw [nodeNameSource_ladder]; exact refusing_self _ _)
  rw [nodeNameSource_ladder] at h
  exact h

theorem onBuildFilter_ladder (n : Nat) (code : LimitError) :
    NodeNameFilter.OnBuildFilter (refusing (ladderExpr n) code) ⟨some ((ladder n).map bytes)⟩
      = (none, some (.regexpLimit code (ladderExpr n))) := by
  have he : ((ladder n).map bytes).findSome? nodeNamePatternError = none :=
    (findSome?_eq_none_iff' _ _).2 fun p hp =>
      (nodeNamePatternError_eq_none p).2 (byteLadder_valid n p hp)
  rw [onBuildFilter_present, he, nodeNameSource_ladder]
  simp only [refusing_self]

theorem compileFQDNPattern_stars (k : Nat) (code : LimitError) (p : Str)
    (hp : canonicalizeFQDNPattern asciiCaseTable p = stars (k + 1)) :
    compileFQDNPattern (refusing (starsExpr (k + 1)) code) asciiCaseTable [p]
      = (none, some (.regexpLimit code (starsExpr (k + 1)))) := by
  obtain ⟨h1, h2, h3, h4⟩ := replicate_valid asciiCaseTable k '*' (by decide) (by decide)
  have hsame : compileFQDNPattern (refusing (starsExpr (k + 1)) code) asciiCaseTable [p]
      = compileFQDNPattern (refusing (starsExpr (k + 1)) code) asciiCaseTable [stars (k + 1)] :=
    compileFQDNPattern_congr_single asciiCaseTable p (stars (k + 1)) (hp.trans h4.symm)
  have he : [stars (k + 1)].findSome? (fqdnPatternError asciiCaseTable) = none := by
    simp only [List.findSome?_cons, List.findSome?_nil]
    rw [(fqdnPatternError_eq_none asciiCaseTable (stars (k + 1))).2
      (by unfold stars; rw [h4]; exact ⟨h1, h2, h3⟩)]
  have h := compileFQDNPattern_refused asciiCaseTable [stars (k + 1)] code he
    (by rw [fqdnSource_stars]; exact refusing_self _ _)
  rw [fqdnSource_stars] at h
  rw [hsame, h]

/-- C1, the claim as stated fails: every pattern of the list `a`, `aa`, ..., up
to 501 letters, is valid, yet `compileFQDNPattern` returns no expression.  The
text it hands to `regexp.Compile` is `\A(?:a|aa|...)\z`, which the library
refuses as nested too deeply, and the error of the library is returned. -/
theorem compileFQDNPattern_refused_counterexample :
    (∀ p ∈ ladder 501,
      canonicalizeFQDNPattern asciiCaseTable p ≠ []
        ∧ (canonicalizeFQDNPattern asciiCaseTable p).getLast? ≠ some '.'
        ∧ ∀ r ∈ canonicalizeFQDNPattern asciiCaseTable p, isFQDNRune r = true)
      ∧ compileFQDNPattern (refusing (ladderExpr 501) .nestsTooDeeply) asciiCaseTable
          (ladder 501)
        = (none, some (.regexpLimit .nestsTooDeeply (ladderExpr 501))) :=
  ⟨ladder_valid asciiCaseTable 501, compileFQDNPattern_ladder 501 .nestsTooDeeply⟩

/-- C2, the claim as stated fails: every byte of the node-name patterns `a`,
`aa`, ..., up to 501 letters, is in the alphabet, yet `compileNodeNamePattern`
returns no expression.  The text it hands to `regexp.Compile` is
`\A(?:a|aa|...)\z`, which the library refuses as nested too deeply, and the
error of the library is returned. -/
theorem compileNodeNamePattern_refused_counterexample :
    (∀ p ∈ (ladder 501).map bytes, ∀ b ∈ p, isNodeNameByte b = true)
      ∧ compileNodeNamePattern (refusing (ladderExpr 501) .nestsTooDeeply)
          ((ladder 501).map bytes)
        = (none, some (.regexpLimit .nestsTooDeeply (ladderExpr 501))) :=
  ⟨byteLadder_valid 501, compileNodeNamePattern_ladder 501 .nestsTooDeeply⟩

/-- C3, the claim as stated fails: the pattern of 2000000 stars is its own
canonical form, which is non-empty, does not end in `.` and lies in the
alphabet, yet compiling it does not succeed.  The text handed to
`regexp.Compile` has 2000000 starred classes; the library refuses it as too
large, and the error of the library is returned. -/
theorem single_pattern_refused_counterexample :
    canonicalizeFQDNPattern asciiCaseTable (stars 2000000) = stars 2000000
      ∧ stars 2000000 ≠ []
      ∧ (stars 2000000).getLast? ≠ some '.'
      ∧ (∀ r ∈ stars 2000000, isFQDNRune r = true)
      ∧ compileFQDNPattern (refusing (starsExpr 2000000) .tooLarge) asciiCaseTable
          [stars 2000000]
        = (none, some (.regexpLimit .tooLarge (starsExpr 2000000)))
      ∧ ¬ ∃ re, compileFQDNPattern (refusing (starsExpr 2000000) .tooLarge) asciiCaseTable
          [stars 2000000] = (some re, none) := by
  obtain ⟨h1, h2, h3, h4⟩ := replicate_valid asciiCaseTable 1999999 '*' (by decide) (by decide)
  have h5 := compileFQDNPattern_stars 1999999 .tooLarge (stars 2000000) h4
  refine ⟨h4, h1, h2, h3, h5, ?_⟩
  rintro ⟨re, hre⟩
  rw [h5] at hre
  cases hre

/-- C4, the claim as stated fails: `compileNodeNamePattern` fails on the
patterns `a`, `aa`, ..., up to 501 letters, although no pattern of the list
contains a byte outside the alphabet, and the error is not an "invalid byte in
node name pattern" error: it is the error with which the library refuses the
compiled text `\A(?:a|aa|...)\z` as nested too deeply. -/
theorem fails_without_invalid_byte_counterexample :
    (compileNodeNamePattern (refusing (ladderExpr 501) .nestsTooDeeply)
        ((ladder 501).map bytes)).2 ≠ none
      ∧ (¬ ∃ p ∈ (ladder 501).map bytes, ∃ b ∈ p, isNodeNameByte b = false)
      ∧ ∀ b, (compileNodeNamePattern (refusing (ladderExpr 501) .nestsTooDeeply)
          ((ladder 501).map bytes)).2 ≠ some (.invalidByte b) := by
  rw [compileNodeNamePattern_ladder 501 .nestsTooDeeply]
  refine ⟨by simp, ?_, by simp⟩
  rintro ⟨p, hp, b, hb, hbad⟩
  rw [byteLadder_valid 501 p hp b hb] at hbad
  cases hbad

/-- C7, the claim as stated fails: the pattern `c` of 2000000 stars is non-empty,
does not end in `.` and lies in the alphabet, and `p` is `c` after one space and
before one `.`, yet compiling `p` does not succeed.  The text handed to
`regexp.Compile` has 2000000 starred classes; the library refuses it as too
large, and the error of the library is returned. -/
theorem variant_refused_counterexample :
    stars 2000000 ≠ []
      ∧ (stars 2000000).getLast? ≠ some '.'
      ∧ (∀ r ∈ stars 2000000, isFQDNRune r = true)
      ∧ compileFQDNPattern (refusing (starsExpr 2000000) .tooLarge) asciiCaseTable
          [List.replicate 1 ' ' ++ (stars 2000000 ++ ".".toList) ++ List.replicate 0 ' ']
        = (none, some (.regexpLimit .tooLarge (starsExpr 2000000))) := by
  obtain ⟨h1, h2, h3, h4⟩ := replicate_valid asciiCaseTable 1999999 '*' (by decide) (by decide)
  refine ⟨h1, h2, h3, ?_⟩
  have hv := canonicalize_variant asciiCaseTable (stars 2000000) (stars 2000000) 1 0 true
    h1 h2 h3 (List.forall₂_same.2 fun x _ => Or.inl rfl)
  simp only [if_true] at hv
  exact compileFQDNPattern_stars 1999999 .tooLarge _ hv

/-- C14, the claim as stated fails: every byte of the node-name patterns `a`,
`aa`, ..., up to 501 letters, is in the alphabet, yet `OnBuildFilter` returns no
predicate for the specification that holds them: it returns the error with which
the library refuses the compiled text `\A(?:a|aa|...)\z` as nested too deeply,
and a nil list. -/
theorem onBuildFilter_valid_set_counterexample :
    (∀ p ∈ (ladder 501).map bytes, ∀ b ∈ p, isNodeNameByte b = true)
      ∧ NodeNameFilter.OnBuildFilter (refusing (ladderExpr 501) .nestsTooDeeply)
          ⟨some ((ladder 501).map bytes)⟩
        = (none, some (.regexpLimit .nestsTooDeeply (ladderExpr 501))) :=
  ⟨byteLadder_valid 501, onBuildFilter_ladder 501 .nestsTooDeeply⟩

end Hubble
